import Mathlib

/-!
Shallow embedding of the graph library (`graph_lib/`) and the analysis
module (`mining/analyzer.py`) of the repository, together with theorems
checking the specification's claims against it.

Python dictionaries are modelled as association lists that keep insertion
order (a new key is appended at the end, an existing key is updated in
place), which is exactly CPython's observable dict behaviour.  Python
floats are modelled as rationals (`ℚ`): the code only stores, adds,
multiplies and divides weights and scores, so `ℚ` reflects the algebra
of the algorithms while ignoring rounding.
-/

namespace GraphSpec

/-- Lookup in an association list: `d.get(k)` / `k in d`. -/
def assocLookup {α β : Type} [DecidableEq α] (k : α) : List (α × β) → Option β
  | [] => none
  | p :: rest => if p.1 = k then some p.2 else assocLookup k rest

/-- Python `d[k] = v`: update in place if the key exists, else append. -/
def assocInsert {α β : Type} [DecidableEq α] (l : List (α × β)) (k : α) (v : β) :
    List (α × β) :=
  if (assocLookup k l).isSome then
    l.map (fun p => if p.1 = k then (k, v) else p)
  else
    l ++ [(k, v)]

/-- Python `del d[k]`. -/
def assocErase {α β : Type} [DecidableEq α] (l : List (α × β)) (k : α) :
    List (α × β) :=
  l.filter (fun p => if p.1 = k then false else true)

/-- `d.get(k, default)`. -/
def assocGetD {α β : Type} [DecidableEq α] (l : List (α × β)) (k : α) (d : β) : β :=
  (assocLookup k l).getD d

/-! ## `graph_lib/adjacency_list.py` : `AdjacencyListGraph` -/

/-- State of `AdjacencyListGraph`: one association list of
`(successor, weight)` per vertex, an edge counter, and the vertex label
dictionary inherited from `AbstractGraph`. -/
structure AdjacencyListGraph where
  num_vertices : Nat
  adj_list : List (List (Nat × ℚ))
  edge_count : Int
  labels : List (Nat × String)
deriving DecidableEq

namespace AdjacencyListGraph

/-- `AdjacencyListGraph(numVertices)` (with `AbstractGraph.__init__`). -/
def create (n : Nat) : AdjacencyListGraph :=
  { num_vertices := n
    adj_list := List.replicate n []
    edge_count := 0
    labels := (List.range n).map (fun i => (i, "Node_" ++ toString i)) }

/-- The successor dictionary of vertex `u` (`self._adj_list[u]`). -/
def row (g : AdjacencyListGraph) (u : Nat) : List (Nat × ℚ) :=
  g.adj_list.getD u []

/-- `hasEdge(u, v)` (validation aside): `v in self._adj_list[u]`. -/
def hasEdgeB (g : AdjacencyListGraph) (u v : Nat) : Bool :=
  (assocLookup v (g.row u)).isSome

/-- `addEdge(u, v)` on in-range indices. -/
def addEdge (g : AdjacencyListGraph) (u v : Nat) : AdjacencyListGraph :=
  if u = v then g
  else if (assocLookup v (g.row u)).isSome then g
  else
    { g with
      adj_list := g.adj_list.set u (assocInsert (g.row u) v 1)
      edge_count := g.edge_count + 1 }

/-- `removeEdge(u, v)` on in-range indices. -/
def removeEdge (g : AdjacencyListGraph) (u v : Nat) : AdjacencyListGraph :=
  if (assocLookup v (g.row u)).isSome then
    { g with
      adj_list := g.adj_list.set u (assocErase (g.row u) v)
      edge_count := g.edge_count - 1 }
  else g

/-- `setEdgeWeight(u, v, w)` on in-range indices, with the
`ValueError("Aresta não existe.")` branch made explicit. -/
def setEdgeWeightE (g : AdjacencyListGraph) (u v : Nat) (w : ℚ) :
    Except String AdjacencyListGraph :=
  if (assocLookup v (g.row u)).isSome then
    Except.ok
      { g with adj_list := g.adj_list.set u (assocInsert (g.row u) v w) }
  else
    Except.error "Aresta não existe."

/-- `getEdgeWeight(u, v)` on in-range indices: `self._adj_list[u].get(v, 0.0)`. -/
def getEdgeWeightB (g : AdjacencyListGraph) (u v : Nat) : ℚ :=
  assocGetD (g.row u) v 0

/-- `getNeighbors(u)`: `list(self._adj_list[u].keys())`. -/
def getNeighbors (g : AdjacencyListGraph) (u : Nat) : List Nat :=
  (g.row u).map Prod.fst

/-- `getVertexCount()`. -/
def getVertexCount (g : AdjacencyListGraph) : Nat := g.num_vertices

/-- `getEdgeCount()`. -/
def getEdgeCount (g : AdjacencyListGraph) : Int := g.edge_count

/-- `AbstractGraph.getVertexOutDegree(u)`: `len(self.getNeighbors(u))`. -/
def getVertexOutDegree (g : AdjacencyListGraph) (u : Nat) : Nat :=
  (g.getNeighbors u).length

/-- `AbstractGraph.getVertexInDegree(u)`: scan all vertices for incoming
edges. -/
def getVertexInDegree (g : AdjacencyListGraph) (u : Nat) : Nat :=
  ((List.range g.num_vertices).filter (fun i => g.hasEdgeB i u)).length

/-- `AbstractGraph.get_vertex_label(v)`: `self._vertex_labels.get(v, str(v))`. -/
def get_vertex_label (g : AdjacencyListGraph) (v : Nat) : String :=
  assocGetD g.labels v (toString v)

/-- `AbstractGraph.set_vertex_label(v, label)` on an in-range index. -/
def set_vertex_label (g : AdjacencyListGraph) (v : Nat) (label : String) :
    AdjacencyListGraph :=
  { g with labels := assocInsert g.labels v label }

/-- Well-formedness maintained by construction and by every operation:
the adjacency table has one row per vertex, rows have no duplicate keys,
and all stored successors are in range. -/
def WF (g : AdjacencyListGraph) : Prop :=
  g.adj_list.length = g.num_vertices ∧
  (∀ r ∈ g.adj_list, (r.map Prod.fst).Nodup ∧ ∀ p ∈ r, p.1 < g.num_vertices)

instance (g : AdjacencyListGraph) : Decidable g.WF := by
  unfold WF
  infer_instance

end AdjacencyListGraph

/-! ## `graph_lib/adjacency_matrix.py` : `AdjacencyMatrixGraph` -/

/-- State of `AdjacencyMatrixGraph`: an `n × n` table of optional weights,
an edge counter, and the label dictionary. -/
structure AdjacencyMatrixGraph where
  num_vertices : Nat
  matrix : List (List (Option ℚ))
  edge_count : Int
  labels : List (Nat × String)
deriving DecidableEq

namespace AdjacencyMatrixGraph

/-- `AdjacencyMatrixGraph(numVertices)`. -/
def create (n : Nat) : AdjacencyMatrixGraph :=
  { num_vertices := n
    matrix := List.replicate n (List.replicate n none)
    edge_count := 0
    labels := (List.range n).map (fun i => (i, "Node_" ++ toString i)) }

/-- `self._matrix[u][v]` on in-range indices. -/
def cell (g : AdjacencyMatrixGraph) (u v : Nat) : Option ℚ :=
  (g.matrix.getD u []).getD v none

/-- `hasEdge(u, v)`: `self._matrix[u][v] is not None`. -/
def hasEdgeB (g : AdjacencyMatrixGraph) (u v : Nat) : Bool :=
  (g.cell u v).isSome

/-- `addEdge(u, v)` on in-range indices. -/
def addEdge (g : AdjacencyMatrixGraph) (u v : Nat) : AdjacencyMatrixGraph :=
  if u = v then g
  else if (g.cell u v).isSome then g
  else
    { g with
      matrix := g.matrix.set u ((g.matrix.getD u []).set v (some 1))
      edge_count := g.edge_count + 1 }

/-- `removeEdge(u, v)` on in-range indices. -/
def removeEdge (g : AdjacencyMatrixGraph) (u v : Nat) : AdjacencyMatrixGraph :=
  if (g.cell u v).isSome then
    { g with
      matrix := g.matrix.set u ((g.matrix.getD u []).set v none)
      edge_count := g.edge_count - 1 }
  else g

/-- `setEdgeWeight(u, v, w)` on in-range indices. -/
def setEdgeWeightE (g : AdjacencyMatrixGraph) (u v : Nat) (w : ℚ) :
    Except String AdjacencyMatrixGraph :=
  if (g.cell u v).isSome then
    Except.ok
      { g with matrix := g.matrix.set u ((g.matrix.getD u []).set v (some w)) }
  else
    Except.error "Aresta não existe."

/-- `getEdgeWeight(u, v)` on in-range indices. -/
def getEdgeWeightB (g : AdjacencyMatrixGraph) (u v : Nat) : ℚ :=
  (g.cell u v).getD 0

/-- `getNeighbors(u)`: all `v` in range with a non-`None` cell. -/
def getNeighbors (g : AdjacencyMatrixGraph) (u : Nat) : List Nat :=
  (List.range g.num_vertices).filter (fun v => (g.cell u v).isSome)

/-- `getEdgeCount()`. -/
def getEdgeCount (g : AdjacencyMatrixGraph) : Int := g.edge_count

/-- `AbstractGraph.getVertexOutDegree(u)`. -/
def getVertexOutDegree (g : AdjacencyMatrixGraph) (u : Nat) : Nat :=
  (g.getNeighbors u).length

/-- `AbstractGraph.getVertexInDegree(u)`. -/
def getVertexInDegree (g : AdjacencyMatrixGraph) (u : Nat) : Nat :=
  ((List.range g.num_vertices).filter (fun i => g.hasEdgeB i u)).length

/-- Well-formedness: the matrix is `n × n`. -/
def WF (g : AdjacencyMatrixGraph) : Prop :=
  g.matrix.length = g.num_vertices ∧
  ∀ r ∈ g.matrix, r.length = g.num_vertices

instance (g : AdjacencyMatrixGraph) : Decidable g.WF := by
  unfold WF
  infer_instance

end AdjacencyMatrixGraph

/-! ## C8: behavioural equivalence of the two backings -/

/-- A GraphStore mutation, as in §4.1 of the spec: `addEdge`, `removeEdge`
or `setEdgeWeight`. -/
inductive GOp where
  | add (u v : Nat)
  | remove (u v : Nat)
  | setW (u v : Nat) (w : ℚ)
deriving DecidableEq

/-- Apply one operation to the adjacency-list backing.  Python raises a
bounds `IndexError` before touching any state, and `setEdgeWeight` raises
`ValueError` before mutating, so a failing call leaves the graph exactly
as it was: the failing branches are modelled as the identity, which both
backings take under the identical condition. -/
def AdjacencyListGraph.applyOp (g : AdjacencyListGraph) : GOp → AdjacencyListGraph
  | GOp.add u v =>
      if u < g.num_vertices ∧ v < g.num_vertices then g.addEdge u v else g
  | GOp.remove u v =>
      if u < g.num_vertices ∧ v < g.num_vertices then g.removeEdge u v else g
  | GOp.setW u v w =>
      if u < g.num_vertices ∧ v < g.num_vertices then
        match g.setEdgeWeightE u v w with
        | Except.ok g' => g'
        | Except.error _ => g
      else g

/-- Apply one operation to the adjacency-matrix backing (same failure
convention as `AdjacencyListGraph.applyOp`). -/
def AdjacencyMatrixGraph.applyOp (g : AdjacencyMatrixGraph) : GOp → AdjacencyMatrixGraph
  | GOp.add u v =>
      if u < g.num_vertices ∧ v < g.num_vertices then g.addEdge u v else g
  | GOp.remove u v =>
      if u < g.num_vertices ∧ v < g.num_vertices then g.removeEdge u v else g
  | GOp.setW u v w =>
      if u < g.num_vertices ∧ v < g.num_vertices then
        match g.setEdgeWeightE u v w with
        | Except.ok g' => g'
        | Except.error _ => g
      else g

/-- Run a whole operation sequence from `create n` on the list backing. -/
def AdjacencyListGraph.runOps (n : Nat) (ops : List GOp) : AdjacencyListGraph :=
  ops.foldl AdjacencyListGraph.applyOp (AdjacencyListGraph.create n)

/-- Run a whole operation sequence from `create n` on the matrix backing. -/
def AdjacencyMatrixGraph.runOps (n : Nat) (ops : List GOp) : AdjacencyMatrixGraph :=
  ops.foldl AdjacencyMatrixGraph.applyOp (AdjacencyMatrixGraph.create n)

/-- Simulation relation between the two backings: same vertex count, same
edge counter, and cell-for-cell identical edge content (presence and
weight at once, as `Option ℚ`). -/
def Sim (gl : AdjacencyListGraph) (gm : AdjacencyMatrixGraph) : Prop :=
  gl.num_vertices = gm.num_vertices ∧
  gl.edge_count = gm.edge_count ∧
  ∀ u v : Nat, u < gl.num_vertices → v < gl.num_vertices →
    assocLookup v (gl.row u) = gm.cell u v

/-! ## `mining/analyzer.py` : `GraphAnalyzer`

The analyzer is written against the `AbstractGraph` interface; here it is
embedded over the adjacency-list backing (by C8 the two backings are
interchangeable).  Python's `random.shuffle` and `random.choice` are
modelled by explicit oracle parameters: a visit order per round and a
pick index per call. -/

namespace GraphAnalyzer

/-- The dict-building loop `{graph.get_vertex_label(i): f(i) for i in
range(n)}` shared by every analysis that returns a per-vertex mapping. -/
def labelDict {α : Type} (g : AdjacencyListGraph) (f : Nat → α) :
    List (String × α) :=
  (List.range g.num_vertices).foldl
    (fun m i => assocInsert m (g.get_vertex_label i) (f i)) []

/-- `degree_centrality`: `{label: (in_degree, out_degree)}`. -/
def degree_centrality (g : AdjacencyListGraph) : List (String × (Nat × Nat)) :=
  labelDict g (fun i => (g.getVertexInDegree i, g.getVertexOutDegree i))

/-- The body of the BFS inner `for v in graph.getNeighbors(u)` loop of
`closeness_centrality`: insert an undiscovered neighbor `v` with distance
`distances[u] + 1` and append it to the queue. -/
def bfsInner (g : AdjacencyListGraph) (u : Nat)
    (p : List (Nat × Nat) × List Nat) (v : Nat) :
    List (Nat × Nat) × List Nat :=
  if (assocLookup v p.1).isSome then p
  else (p.1 ++ [(v, assocGetD p.1 u 0 + 1)], p.2 ++ [v])

/-- One pass of the BFS inner `for v in graph.getNeighbors(u)` loop of
`closeness_centrality`. -/
def bfsStep (g : AdjacencyListGraph) (u : Nat)
    (st : List (Nat × Nat) × List Nat) : List (Nat × Nat) × List Nat :=
  (g.getNeighbors u).foldl (bfsInner g u) st

/-- The BFS `while queue:` loop of `closeness_centrality`, fuelled; the
fuel `n + 1` of `bfsDistances` is an upper bound on the number of
dequeues, proved sufficient in `bfsLoop_spec`. -/
def bfsLoop (g : AdjacencyListGraph) :
    Nat → List (Nat × Nat) → List Nat → List (Nat × Nat)
  | 0, dist, _ => dist
  | _ + 1, dist, [] => dist
  | fuel + 1, dist, u :: rest =>
      let st := bfsStep g u (dist, rest)
      bfsLoop g fuel st.1 st.2

/-- The `distances` dict computed by the BFS of `closeness_centrality`
from source `s`. -/
def bfsDistances (g : AdjacencyListGraph) (s : Nat) : List (Nat × Nat) :=
  bfsLoop g (g.num_vertices + 1) [(s, 0)] [s]

/-- The per-source closeness value of `closeness_centrality`. -/
def closenessOf (g : AdjacencyListGraph) (s : Nat) : ℚ :=
  let distances := bfsDistances g s
  let total_dist : Nat := (distances.map Prod.snd).sum
  let reachable : Nat := distances.length - 1
  if 0 < total_dist ∧ 0 < reachable then
    ((reachable : ℚ) / ((g.num_vertices : ℚ) - 1)) *
      ((reachable : ℚ) / (total_dist : ℚ))
  else 0

/-- `closeness_centrality`: `{label(s): closenessOf s}`. -/
def closeness_centrality (g : AdjacencyListGraph) : List (String × ℚ) :=
  labelDict g (closenessOf g)

/-- State of the Brandes single-source BFS of `betweenness_centrality`:
finish order `S`, queue `Q`, and the per-vertex arrays `P`, `sigma`, `d`
(kept as length-`n` lists indexed by vertex, as the Python dicts have
exactly the keys `range(n)`). -/
structure BrandesState where
  S : List Nat
  Q : List Nat
  P : List (List Nat)
  sigma : List ℚ
  d : List Int
deriving DecidableEq

/-- The body of the `for w in graph.getNeighbors(v)` loop of the Brandes
BFS: path discovery, then path counting. -/
def brandesVisitStep (g : AdjacencyListGraph) (v : Nat) (st : BrandesState)
    (w : Nat) : BrandesState :=
  let st1 :=
    if st.d.getD w 0 < 0 then
      { st with Q := st.Q ++ [w], d := st.d.set w (st.d.getD v 0 + 1) }
    else st
  if st1.d.getD w 0 = st1.d.getD v 0 + 1 then
    { st1 with
        sigma := st1.sigma.set w (st1.sigma.getD w 0 + st1.sigma.getD v 0)
        P := st1.P.set w (st1.P.getD w [] ++ [v]) }
  else st1

/-- The `for w in graph.getNeighbors(v)` loop of the Brandes BFS. -/
def brandesVisit (g : AdjacencyListGraph) (v : Nat) (st : BrandesState) :
    BrandesState :=
  (g.getNeighbors v).foldl (brandesVisitStep g v) st

/-- The `while Q:` loop of the Brandes BFS, fuelled. -/
def brandesLoop (g : AdjacencyListGraph) : Nat → BrandesState → BrandesState
  | 0, st => st
  | fuel + 1, st =>
      match st.Q with
      | [] => st
      | v :: rest =>
          brandesLoop g fuel
            (brandesVisit g v { st with S := st.S ++ [v], Q := rest })

/-- The single-source Brandes BFS of `betweenness_centrality` from `s`. -/
def brandesBFS (g : AdjacencyListGraph) (s : Nat) : BrandesState :=
  let n := g.num_vertices
  brandesLoop g (n + 1)
    { S := []
      Q := [s]
      P := List.replicate n []
      sigma := (List.replicate n (0 : ℚ)).set s 1
      d := (List.replicate n (-1 : Int)).set s 0 }

/-- The `for v in P[w]:` dependency update of the accumulation loop of
`betweenness_centrality`. -/
def brandesDeltaStep (P : List (List Nat)) (sigma : List ℚ) (w : Nat)
    (delta : List ℚ) : List ℚ :=
  (P.getD w []).foldl
    (fun dl v =>
      if sigma.getD w 0 > 0 then
        dl.set v (dl.getD v 0 + sigma.getD v 0 / sigma.getD w 0 *
          (1 + dl.getD w 0))
      else dl)
    delta

/-- The accumulation `while S:` loop of `betweenness_centrality`,
processed over the reversed finish order (Python pops from the end);
returns the updated `(delta, cb)`. -/
def brandesAccum (P : List (List Nat)) (sigma : List ℚ) (s : Nat) :
    List Nat → List ℚ → List ℚ → List ℚ × List ℚ
  | [], delta, cb => (delta, cb)
  | w :: ws, delta, cb =>
      let delta' := brandesDeltaStep P sigma w delta
      let cb' := if w ≠ s then cb.set w (cb.getD w 0 + delta'.getD w 0) else cb
      brandesAccum P sigma s ws delta' cb'

/-- The whole per-source contribution of `betweenness_centrality`:
run the Brandes BFS from `s`, then accumulate dependencies into `cb`. -/
def brandesSource (g : AdjacencyListGraph) (cb : List ℚ) (s : Nat) : List ℚ :=
  let st := brandesBFS g s
  (brandesAccum st.P st.sigma s st.S.reverse
    (List.replicate g.num_vertices 0) cb).2

/-- The unnormalized accumulated scores of `betweenness_centrality`. -/
def betweennessRaw (g : AdjacencyListGraph) : List ℚ :=
  (List.range g.num_vertices).foldl (brandesSource g)
    (List.replicate g.num_vertices 0)

/-- The per-source cb contribution: the dependency accumulation from `s`
run against an all-zero `cb`. -/
def brandesCb (g : AdjacencyListGraph) (s : Nat) : List ℚ :=
  let st := brandesBFS g s
  (brandesAccum st.P st.sigma s st.S.reverse
    (List.replicate g.num_vertices 0) (List.replicate g.num_vertices 0)).2

/-- The per-vertex reported betweenness value: normalize by `(n-1)(n-2)`
when positive, report 0 otherwise. -/
def betweennessVal (g : AdjacencyListGraph) (v : Nat) : ℚ :=
  let n := g.num_vertices
  let norm : Int := ((n : Int) - 1) * ((n : Int) - 2)
  if 0 < norm then (betweennessRaw g).getD v 0 / (norm : ℚ) else 0

/-- `betweenness_centrality`. -/
def betweenness_centrality (g : AdjacencyListGraph) : List (String × ℚ) :=
  labelDict g (betweennessVal g)

/-- One power iteration of `pagerank`. -/
def pagerankIter (g : AdjacencyListGraph) (out_degrees : List Nat) (d : ℚ)
    (pr : List ℚ) : List ℚ :=
  let n := g.num_vertices
  let sink_pr_sum : ℚ :=
    (((List.range n).filter (fun i => out_degrees.getD i 0 = 0)).map
      (fun i => pr.getD i 0)).sum
  (List.range n).map (fun i =>
    let incoming : ℚ :=
      (((List.range n).filter (fun c =>
          g.hasEdgeB c i ∧ 0 < out_degrees.getD c 0)).map
        (fun c => pr.getD c 0 / (out_degrees.getD c 0 : ℚ))).sum
    (1 - d) / (n : ℚ) + d * (incoming + sink_pr_sum / (n : ℚ)))

/-- The `for _ in range(iter)` loop of `pagerank`. -/
def pagerankLoop (g : AdjacencyListGraph) (out_degrees : List Nat) (d : ℚ) :
    Nat → List ℚ → List ℚ
  | 0, pr => pr
  | k + 1, pr => pagerankLoop g out_degrees d k (pagerankIter g out_degrees d pr)

/-- The final rank vector of `pagerank` (initialisation `1/n` everywhere,
then `iters` power iterations). -/
def pagerankVec (g : AdjacencyListGraph) (d : ℚ) (iters : Nat) : List ℚ :=
  let n := g.num_vertices
  let out_degrees := (List.range n).map (fun i => g.getVertexOutDegree i)
  pagerankLoop g out_degrees d iters (List.replicate n ((1 : ℚ) / (n : ℚ)))

/-- `pagerank(graph, d, iter)`. -/
def pagerank (g : AdjacencyListGraph) (d : ℚ) (iters : Nat) :
    List (String × ℚ) :=
  if g.num_vertices = 0 then []
  else labelDict g (fun i => (pagerankVec g d iters).getD i 0)

/-- `density`. -/
def density (g : AdjacencyListGraph) : ℚ :=
  let V := g.getVertexCount
  let E := g.getEdgeCount
  if V ≤ 1 then 0
  else (E : ℚ) / ((V : ℚ) * ((V : ℚ) - 1))

/-- The undirected neighbor set of `clustering_coefficient`:
`set(getNeighbors(i))` plus every predecessor (as a duplicate-free list). -/
def undirectedNeighbors (g : AdjacencyListGraph) (i : Nat) : List Nat :=
  (g.getNeighbors i ++
    (List.range g.num_vertices).filter (fun c => g.hasEdgeB c i)).dedup

/-- The `links` double loop of `clustering_coefficient`: the number of
pairs taken from successive positions of the neighbor list joined by an
edge in either direction. -/
def linkCount (g : AdjacencyListGraph) : List Nat → Nat
  | [] => 0
  | u :: rest =>
      (rest.filter (fun v => g.hasEdgeB u v || g.hasEdgeB v u)).length +
        linkCount g rest

/-- `clustering_coefficient` (global average, vertices with fewer than two
neighbors contributing 0). -/
def clustering_coefficient (g : AdjacencyListGraph) : ℚ :=
  let n := g.num_vertices
  let total_cc : ℚ :=
    ((List.range n).map (fun i =>
      let neighbors := undirectedNeighbors g i
      let k := neighbors.length
      if k < 2 then 0
      else (linkCount g neighbors : ℚ) / (((k : ℚ) * ((k : ℚ) - 1)) / 2))).sum
  if 0 < n then total_cc / (n : ℚ) else 0

/-- The neighbor list used by `detect_communities_label_propagation`:
`graph.getNeighbors(i)` with every predecessor appended — a plain list,
so a vertex that is both successor and predecessor occurs twice. -/
def lpNeighbors (g : AdjacencyListGraph) (i : Nat) : List Nat :=
  g.getNeighbors i ++
    (List.range g.num_vertices).filter (fun c => g.hasEdgeB c i)

/-- The `freq` dictionary of label propagation: occurrence counts of the
neighbor labels, in first-encounter order. -/
def lpFreq (labels : List Nat) (nbrs : List Nat) : List (Nat × Nat) :=
  (nbrs.map (fun v => labels.getD v 0)).foldl
    (fun f l => assocInsert f l (assocGetD f l 0 + 1)) []

/-- `max(freq.values())` (0 on the empty dictionary; the call site
guarantees nonemptiness). -/
def lpMaxFreq (freq : List (Nat × Nat)) : Nat :=
  (freq.map Prod.snd).foldl Nat.max 0

/-- The tied-for-maximum candidate labels
`[l for l, f in freq.items() if f == max_freq]`. -/
def lpCandidates (g : AdjacencyListGraph) (labels : List Nat) (i : Nat) :
    List Nat :=
  let freq := lpFreq labels (lpNeighbors g i)
  (freq.filter (fun p => p.2 = lpMaxFreq freq)).map Prod.fst

/-- One asynchronous round of label propagation over the visit order
`order`, with `random.choice` modelled by the pick oracle (an index into
the candidate list, taken modulo its length).  Returns the updated labels
and the `changed` flag. -/
def lpRound (g : AdjacencyListGraph) (order : List Nat) (pick : Nat → Nat)
    (labels : List Nat) : List Nat × Bool :=
  order.foldl
    (fun st i =>
      if lpNeighbors g i = [] then st
      else
        let cands := lpCandidates g st.1 i
        let new_label := cands.getD (pick i % cands.length) 0
        if st.1.getD i 0 ≠ new_label then (st.1.set i new_label, true) else st)
    (labels, false)

/-- The `while changed and iter_count < 20:` loop of label propagation. -/
def lpLoop (g : AdjacencyListGraph) (orders : Nat → List Nat)
    (picks : Nat → Nat → Nat) : Nat → Nat → List Nat → List Nat
  | 0, _, labels => labels
  | fuel + 1, round, labels =>
      let st := lpRound g (orders round) (picks round) labels
      if st.2 then lpLoop g orders picks fuel (round + 1) st.1 else st.1

/-- The final label array of label propagation (initial labels
`list(range(n))`, at most 20 rounds). -/
def lpFinal (g : AdjacencyListGraph) (orders : Nat → List Nat)
    (picks : Nat → Nat → Nat) : List Nat :=
  lpLoop g orders picks 20 0 (List.range g.num_vertices)

/-- `detect_communities_label_propagation`, parameterized by the shuffle
and choice oracles. -/
def detect_communities_label_propagation (g : AdjacencyListGraph)
    (orders : Nat → List Nat) (picks : Nat → Nat → Nat) :
    List (String × Nat) :=
  labelDict g (fun i => (lpFinal g orders picks).getD i 0)

/-- Stable insertion into a count-descending list: the new element goes
before the first element with a smaller-or-equal count, so earlier
elements win ties — the order produced by Python's stable
`sort(key=lambda x: x[1], reverse=True)`. -/
def insertByCountDesc (x : String × Nat) :
    List (String × Nat) → List (String × Nat)
  | [] => [x]
  | y :: ys => if y.2 ≤ x.2 then x :: y :: ys else y :: insertByCountDesc x ys

/-- Stable sort by count descending (Python `list.sort` with
`key=lambda x: x[1], reverse=True`). -/
def sortByCountDesc : List (String × Nat) → List (String × Nat)
  | [] => []
  | x :: xs => insertByCountDesc x (sortByCountDesc xs)

/-- The body of the `for u in range(n)` loop of `analyze_bridging_ties`:
skip `u` when its label is not a key of `communities`, otherwise count the
successors whose label maps to a different community (or to none) and
append `(label, count)` when the count is positive. -/
def bridgeStep (g : AdjacencyListGraph) (communities : List (String × Nat))
    (br : List (String × Nat)) (u : Nat) : List (String × Nat) :=
  match assocLookup (g.get_vertex_label u) communities with
  | none => br
  | some u_comm =>
      let connections_outside :=
        ((g.getNeighbors u).filter
          (fun v => assocLookup (g.get_vertex_label v) communities ≠
            some u_comm)).length
      if 0 < connections_outside then
        br ++ [(g.get_vertex_label u, connections_outside)]
      else br

/-- The unsorted `bridges` list of `analyze_bridging_ties`. -/
def bridgingList (g : AdjacencyListGraph) (communities : List (String × Nat)) :
    List (String × Nat) :=
  (List.range g.num_vertices).foldl (bridgeStep g communities) []

/-- `analyze_bridging_ties`: the top 5 bridge vertices by descending
cross-community edge count. -/
def analyze_bridging_ties (g : AdjacencyListGraph)
    (communities : List (String × Nat)) : List (String × Nat) :=
  (sortByCountDesc (bridgingList g communities)).take 5

end GraphAnalyzer

/-! ## Specification-side notions for the analysis claims -/

/-- The set of vertices within `k` successor-hops of `s`: `hopBall 0 = {s}`
and `hopBall (k+1)` adds every successor of the ball. -/
def hopBall (g : AdjacencyListGraph) (s : Nat) : Nat → Finset Nat
  | 0 => {s}
  | k + 1 =>
      hopBall g s k ∪
        (hopBall g s k).biUnion (fun u => (g.getNeighbors u).toFinset)

/-- The hop-count distance from `s` to `v` over successor edges: the least
`k ≤ n` with `v ∈ hopBall g s k`, `none` when unreachable. -/
def hopDist (g : AdjacencyListGraph) (s v : Nat) : Option Nat :=
  (List.range (g.num_vertices + 1)).find? (fun k => v ∈ hopBall g s k)

/-- The largest vertex index carrying label `k` (the index whose value the
label-keyed dictionaries retain when labels collide). -/
def lastWithLabel (g : AdjacencyListGraph) (k : String) : Option Nat :=
  (List.range g.num_vertices).reverse.find?
    (fun i => g.get_vertex_label i = k)

/-- The number of neighbors of `i` carrying label `l` in the label
propagation neighbor list: each successor counts once and each
predecessor counts once, so a vertex that is both counts twice. -/
def labelCount (g : AdjacencyListGraph) (labels : List Nat) (i l : Nat) : Nat :=
  ((g.getNeighbors i).filter (fun v => labels.getD v 0 = l)).length +
    (((List.range g.num_vertices).filter (fun c => g.hasEdgeB c i)).filter
      (fun v => labels.getD v 0 = l)).length

/-- Modelled from the claim's words (C1): the candidate labels of maximum
frequency over the undirected neighbor SET of `i`, each distinct neighbor
vertex contributing its label exactly once. -/
def lpCandidatesSpec (g : AdjacencyListGraph) (labels : List Nat) (i : Nat) :
    List Nat :=
  let freq := GraphAnalyzer.lpFreq labels (GraphAnalyzer.lpNeighbors g i).dedup
  (freq.filter (fun p => p.2 = GraphAnalyzer.lpMaxFreq freq)).map Prod.fst

/-- Concrete 4-vertex graph for the label propagation analysis: vertex 1
is both a successor and a predecessor of vertex 0, vertices 2 and 3 are
plain successors of 0, and the edge `2 → 3` lets vertex 3 adopt label 2
in round one. -/
def gLP : AdjacencyListGraph :=
  (((((AdjacencyListGraph.create 4).addEdge 0 1).addEdge 1 0).addEdge 0 2).addEdge
      0 3).addEdge 2 3

/-- Tie-break pick oracle for the run on `gLP`: at vertex 3 take the
second candidate, everywhere else the first. -/
def pickLP : Nat → Nat := fun i => if i = 3 then 1 else 0

/-- Invariant of the BFS `while queue:` loop of `closeness_centrality`,
relating the `distances` dict `D` and the queue `Q` to the hop balls of
the source `s`: keys are distinct in-range vertices, queued vertices are
recorded, every recorded distance is the true hop distance, processed
vertices have all successors recorded, and the queue splits into a
nonempty front block at some level `d₁` followed by a block at `d₁ + 1`
with the ball of radius `d₁` fully recorded (when the queue is empty the
whole reachable set is recorded). -/
def BfsInv (g : AdjacencyListGraph) (s : Nat) (D : List (Nat × Nat))
    (Q : List Nat) : Prop :=
  (D.map Prod.fst).Nodup ∧
  (∀ p ∈ D, p.1 < g.num_vertices) ∧
  (∀ u ∈ Q, u ∈ D.map Prod.fst) ∧
  (∀ p ∈ D, p.1 ∈ hopBall g s p.2 ∧ ∀ j < p.2, p.1 ∉ hopBall g s j) ∧
  (∀ u ∈ D.map Prod.fst, u ∉ Q →
    ∀ w ∈ g.getNeighbors u, w ∈ D.map Prod.fst) ∧
  (Q = [] → ∀ k : Nat, ∀ v ∈ hopBall g s k, v ∈ D.map Prod.fst) ∧
  (Q ≠ [] → ∃ d₁ : Nat, ∃ Q₁ Q₂ : List Nat, Q = Q₁ ++ Q₂ ∧ Q₁ ≠ [] ∧
    (∀ x ∈ Q₁, assocLookup x D = some d₁) ∧
    (∀ x ∈ Q₂, assocLookup x D = some (d₁ + 1)) ∧
    (∀ v ∈ hopBall g s d₁, v ∈ D.map Prod.fst))

/-! ## Theorems -/

/-! ## Association-list lemmas -/

section AssocLemmas

variable {α β : Type} [DecidableEq α]

theorem assocLookup_nil (k : α) : assocLookup k ([] : List (α × β)) = none := rfl

theorem assocLookup_cons (k : α) (p : α × β) (l : List (α × β)) :
    assocLookup k (p :: l) = if p.1 = k then some p.2 else assocLookup k l := rfl

theorem assocLookup_map_update {l : List (α × β)} {k : α} (v : β)
    (h : (assocLookup k l).isSome) :
    assocLookup k (l.map (fun p => if p.1 = k then (k, v) else p)) = some v := by
  induction l with
  | nil => simp [assocLookup] at h
  | cons p rest ih =>
    by_cases hp : p.1 = k
    · simp [assocLookup_cons, hp]
    · simp only [List.map_cons, if_neg hp]
      rw [assocLookup_cons, if_neg hp]
      rw [assocLookup_cons, if_neg hp] at h
      exact ih h

theorem assocLookup_map_update_ne {l : List (α × β)} {k k' : α} (v : β)
    (hne : k' ≠ k) :
    assocLookup k' (l.map (fun p => if p.1 = k then (k, v) else p)) =
      assocLookup k' l := by
  induction l with
  | nil => simp
  | cons p rest ih =>
    by_cases hp : p.1 = k
    · simp only [List.map_cons, if_pos hp]
      rw [assocLookup_cons, assocLookup_cons]
      simp only [hp]
      rw [if_neg (fun h => hne h.symm), if_neg (fun h => hne h.symm)]
      exact ih
    · simp only [List.map_cons, if_neg hp]
      rw [assocLookup_cons, assocLookup_cons]
      by_cases hp' : p.1 = k'
      · simp [hp']
      · rw [if_neg hp', if_neg hp']
        exact ih

theorem assocLookup_append_right {l₁ l₂ : List (α × β)} {k : α}
    (h : assocLookup k l₁ = none) :
    assocLookup k (l₁ ++ l₂) = assocLookup k l₂ := by
  induction l₁ with
  | nil => simp
  | cons p rest ih =>
    rw [assocLookup_cons] at h
    by_cases hp : p.1 = k
    · rw [if_pos hp] at h; exact absurd h (by simp)
    · rw [if_neg hp] at h
      rw [List.cons_append, assocLookup_cons, if_neg hp]
      exact ih h

theorem assocLookup_isSome_iff {l : List (α × β)} {k : α} :
    (assocLookup k l).isSome = true ↔ k ∈ l.map Prod.fst := by
  induction l with
  | nil => simp [assocLookup]
  | cons p rest ih =>
    rw [assocLookup_cons]
    by_cases hp : p.1 = k
    · simp [hp]
    · simp only [if_neg hp, List.map_cons, List.mem_cons]
      rw [ih]
      constructor
      · exact fun h => Or.inr h
      · rintro (h | h)
        · exact absurd h.symm hp
        · exact h

theorem assocLookup_eq_none_iff {l : List (α × β)} {k : α} :
    assocLookup k l = none ↔ k ∉ l.map Prod.fst := by
  rw [← assocLookup_isSome_iff]
  cases assocLookup k l <;> simp

theorem assocLookup_insert_self (l : List (α × β)) (k : α) (v : β) :
    assocLookup k (assocInsert l k v) = some v := by
  unfold assocInsert
  by_cases h : (assocLookup k l).isSome
  · rw [if_pos h]
    exact assocLookup_map_update v h
  · rw [if_neg h]
    have hn : assocLookup k l = none := by
      cases hx : assocLookup k l
      · rfl
      · rw [hx] at h; exact absurd rfl h
    rw [assocLookup_append_right hn]
    simp [assocLookup_cons]

theorem assocLookup_append_single_ne (l : List (α × β)) (k k' : α) (v : β)
    (hne : k' ≠ k) :
    assocLookup k' (l ++ [(k, v)]) = assocLookup k' l := by
  induction l with
  | nil =>
    rw [List.nil_append, assocLookup_cons, if_neg (fun h => hne h.symm)]
  | cons p rest ih =>
    rw [List.cons_append, assocLookup_cons, assocLookup_cons]
    by_cases hp : p.1 = k'
    · rw [if_pos hp, if_pos hp]
    · rw [if_neg hp, if_neg hp]
      exact ih

theorem assocLookup_insert_ne (l : List (α × β)) (k k' : α) (v : β)
    (hne : k' ≠ k) :
    assocLookup k' (assocInsert l k v) = assocLookup k' l := by
  unfold assocInsert
  by_cases h : (assocLookup k l).isSome
  · rw [if_pos h]
    exact assocLookup_map_update_ne v hne
  · rw [if_neg h]
    exact assocLookup_append_single_ne l k k' v hne

theorem assocLookup_erase_self (l : List (α × β)) (k : α) :
    assocLookup k (assocErase l k) = none := by
  unfold assocErase
  induction l with
  | nil => rfl
  | cons p rest ih =>
    rw [List.filter_cons]
    by_cases hp : p.1 = k
    · rw [if_neg (by simp [hp])]
      exact ih
    · rw [if_pos (by simp [hp])]
      rw [assocLookup_cons, if_neg hp]
      exact ih

theorem assocLookup_erase_ne (l : List (α × β)) (k k' : α) (hne : k' ≠ k) :
    assocLookup k' (assocErase l k) = assocLookup k' l := by
  unfold assocErase
  induction l with
  | nil => rfl
  | cons p rest ih =>
    rw [List.filter_cons, assocLookup_cons]
    by_cases hp : p.1 = k
    · rw [if_neg (by simp [hp]), if_neg (by rw [hp]; exact fun h => hne h.symm)]
      exact ih
    · rw [if_pos (by simp [hp]), assocLookup_cons]
      by_cases hp' : p.1 = k'
      · rw [if_pos hp', if_pos hp']
      · rw [if_neg hp', if_neg hp']
        exact ih

theorem assocInsert_keys (l : List (α × β)) (k : α) (v : β) :
    (assocInsert l k v).map Prod.fst =
      if (assocLookup k l).isSome then l.map Prod.fst
      else l.map Prod.fst ++ [k] := by
  unfold assocInsert
  by_cases h : (assocLookup k l).isSome
  · rw [if_pos h, if_pos h, List.map_map]
    refine List.map_congr_left (fun p _ => ?_)
    by_cases hp : p.1 = k <;> simp [hp]
  · rw [if_neg h, if_neg h]
    simp

theorem assocErase_keys (l : List (α × β)) (k : α) :
    (assocErase l k).map Prod.fst =
      (l.map Prod.fst).filter (fun a => if a = k then false else true) := by
  unfold assocErase
  induction l with
  | nil => rfl
  | cons p rest ih =>
    rw [List.map_cons, List.filter_cons, List.filter_cons]
    by_cases hp : p.1 = k
    · rw [if_neg (by simp [hp]), if_neg (by simp [hp])]
      exact ih
    · rw [if_pos (by simp [hp]), if_pos (by simp [hp]), List.map_cons, ih]

theorem assocInsert_keys_nodup (l : List (α × β)) (k : α) (v : β)
    (h : (l.map Prod.fst).Nodup) : ((assocInsert l k v).map Prod.fst).Nodup := by
  rw [assocInsert_keys]
  by_cases hs : (assocLookup k l).isSome
  · rw [if_pos hs]; exact h
  · rw [if_neg hs]
    have hk : k ∉ l.map Prod.fst := by
      rw [← assocLookup_isSome_iff]
      simpa using hs
    simp [List.nodup_append, h, hk]

theorem assocErase_keys_nodup (l : List (α × β)) (k : α)
    (h : (l.map Prod.fst).Nodup) : ((assocErase l k).map Prod.fst).Nodup := by
  rw [assocErase_keys]
  exact h.filter _

theorem assocInsert_mem_fst (l : List (α × β)) (k : α) (v : β) (p : α × β)
    (hp : p ∈ assocInsert l k v) : p.1 = k ∨ p.1 ∈ l.map Prod.fst := by
  unfold assocInsert at hp
  by_cases h : (assocLookup k l).isSome
  · rw [if_pos h] at hp
    obtain ⟨q, hq, hqe⟩ := List.mem_map.mp hp
    by_cases hqk : q.1 = k
    · rw [if_pos hqk] at hqe
      left; rw [← hqe]
    · rw [if_neg hqk] at hqe
      right; rw [← hqe]; exact List.mem_map_of_mem _ hq
  · rw [if_neg h] at hp
    rcases List.mem_append.mp hp with h1 | h1
    · right; exact List.mem_map_of_mem _ h1
    · left
      have h2 : p = (k, v) := by simpa using h1
      rw [h2]

theorem assocErase_subset (l : List (α × β)) (k : α) (p : α × β)
    (hp : p ∈ assocErase l k) : p ∈ l := by
  unfold assocErase at hp
  exact List.mem_of_mem_filter hp

end AssocLemmas

/-! ## Operation lemmas for the two backings -/

theorem listGetD_set_self {γ : Type} (l : List γ) (i : Nat) (a d : γ)
    (h : i < l.length) : (l.set i a).getD i d = a := by
  simp [List.getD_eq_getElem?_getD, List.getElem?_set_self, h]

theorem listGetD_set_ne {γ : Type} (l : List γ) (i j : Nat) (a d : γ)
    (h : i ≠ j) : (l.set i a).getD j d = l.getD j d := by
  simp [List.getD_eq_getElem?_getD, List.getElem?_set_ne, h]

namespace AdjacencyListGraph

theorem addEdge_self (g : AdjacencyListGraph) (u : Nat) : g.addEdge u u = g := by
  simp [addEdge]

theorem hasEdgeB_iff_lookup (g : AdjacencyListGraph) (u v : Nat) :
    g.hasEdgeB u v = (assocLookup v (g.row u)).isSome := rfl

theorem addEdge_row_self (g : AdjacencyListGraph) (u v : Nat)
    (hlen : g.adj_list.length = g.num_vertices) (hu : u < g.num_vertices)
    (huv : u ≠ v) (habs : g.hasEdgeB u v = false) :
    (g.addEdge u v).row u = assocInsert (g.row u) v 1 := by
  unfold addEdge
  rw [if_neg huv, if_neg (by rw [hasEdgeB_iff_lookup] at habs; simp [habs])]
  show (g.adj_list.set u (assocInsert (g.row u) v 1)).getD u [] = _
  exact listGetD_set_self _ _ _ _ (by rw [hlen]; exact hu)

theorem hasEdgeB_addEdge_self (g : AdjacencyListGraph) (u v : Nat)
    (hlen : g.adj_list.length = g.num_vertices) (hu : u < g.num_vertices)
    (huv : u ≠ v) : (g.addEdge u v).hasEdgeB u v = true := by
  by_cases h : g.hasEdgeB u v
  · have : g.addEdge u v = g := by
      unfold addEdge
      rw [if_neg huv, if_pos (by rw [hasEdgeB_iff_lookup] at h; simpa using h)]
    rw [this]
    exact h
  · rw [hasEdgeB_iff_lookup,
      addEdge_row_self g u v hlen hu huv (by simpa using h),
      assocLookup_insert_self]
    rfl

theorem edge_count_addEdge (g : AdjacencyListGraph) (u v : Nat) (huv : u ≠ v) :
    (g.addEdge u v).edge_count =
      g.edge_count + (if g.hasEdgeB u v then 0 else 1) := by
  unfold addEdge
  rw [if_neg huv]
  by_cases h : g.hasEdgeB u v
  · rw [if_pos (by rw [hasEdgeB_iff_lookup] at h; simpa using h), if_pos h]
    simp
  · rw [if_neg (by rw [hasEdgeB_iff_lookup] at h; simpa using h), if_neg h]

theorem hasEdgeB_removeEdge_self (g : AdjacencyListGraph) (u v : Nat)
    (hlen : g.adj_list.length = g.num_vertices) (hu : u < g.num_vertices) :
    (g.removeEdge u v).hasEdgeB u v = false := by
  unfold removeEdge
  by_cases h : (assocLookup v (g.row u)).isSome
  · rw [if_pos h, hasEdgeB_iff_lookup]
    show (assocLookup v ((g.adj_list.set u (assocErase (g.row u) v)).getD u [])).isSome = false
    rw [listGetD_set_self _ _ _ _ (by rw [hlen]; exact hu), assocLookup_erase_self]
    rfl
  · rw [if_neg h, hasEdgeB_iff_lookup]
    simpa using h

theorem edge_count_removeEdge (g : AdjacencyListGraph) (u v : Nat) :
    (g.removeEdge u v).edge_count =
      g.edge_count - (if g.hasEdgeB u v then 1 else 0) := by
  unfold removeEdge
  by_cases h : g.hasEdgeB u v
  · rw [if_pos (by rw [hasEdgeB_iff_lookup] at h; simpa using h), if_pos h]
  · rw [if_neg (by rw [hasEdgeB_iff_lookup] at h; simpa using h), if_neg h]
    simp

end AdjacencyListGraph

namespace AdjacencyMatrixGraph

theorem addEdge_self_mat (g : AdjacencyMatrixGraph) (u : Nat) : g.addEdge u u = g := by
  simp [addEdge]

theorem hasEdgeB_iff_cell (g : AdjacencyMatrixGraph) (u v : Nat) :
    g.hasEdgeB u v = (g.cell u v).isSome := rfl

theorem row_length (g : AdjacencyMatrixGraph) (u : Nat) (hWF : g.WF)
    (hu : u < g.num_vertices) : (g.matrix.getD u []).length = g.num_vertices := by
  have hm : u < g.matrix.length := by rw [hWF.1]; exact hu
  have : g.matrix.getD u [] = g.matrix[u] := by
    simp [List.getD_eq_getElem?_getD, List.getElem?_eq_getElem hm]
  rw [this]
  exact hWF.2 _ (g.matrix.getElem_mem hm)

theorem cell_update_self (g : AdjacencyMatrixGraph) (u v : Nat) (w : Option ℚ)
    (hWF : g.WF) (hu : u < g.num_vertices) (hv : v < g.num_vertices) (ec : Int) :
    ({ g with matrix := g.matrix.set u ((g.matrix.getD u []).set v w),
              edge_count := ec } : AdjacencyMatrixGraph).cell u v = w := by
  show ((g.matrix.set u ((g.matrix.getD u []).set v w)).getD u []).getD v none = w
  rw [listGetD_set_self _ _ _ _ (by rw [hWF.1]; exact hu)]
  exact listGetD_set_self _ _ _ _ (by rw [row_length g u hWF hu]; exact hv)

theorem hasEdgeB_addEdge_self_mat (g : AdjacencyMatrixGraph) (u v : Nat)
    (hWF : g.WF) (hu : u < g.num_vertices) (hv : v < g.num_vertices)
    (huv : u ≠ v) : (g.addEdge u v).hasEdgeB u v = true := by
  by_cases h : g.hasEdgeB u v
  · have : g.addEdge u v = g := by
      unfold addEdge
      rw [if_neg huv, if_pos (by rw [hasEdgeB_iff_cell] at h; simpa using h)]
    rw [this]
    exact h
  · unfold addEdge
    rw [if_neg huv, if_neg (by rw [hasEdgeB_iff_cell] at h; simpa using h)]
    rw [hasEdgeB_iff_cell, cell_update_self g u v (some 1) hWF hu hv _]
    rfl

theorem edge_count_addEdge_mat (g : AdjacencyMatrixGraph) (u v : Nat) (huv : u ≠ v) :
    (g.addEdge u v).edge_count =
      g.edge_count + (if g.hasEdgeB u v then 0 else 1) := by
  unfold addEdge
  rw [if_neg huv]
  by_cases h : g.hasEdgeB u v
  · rw [if_pos (by rw [hasEdgeB_iff_cell] at h; simpa using h), if_pos h]
    simp
  · rw [if_neg (by rw [hasEdgeB_iff_cell] at h; simpa using h), if_neg h]

theorem hasEdgeB_removeEdge_self_mat (g : AdjacencyMatrixGraph) (u v : Nat)
    (hWF : g.WF) (hu : u < g.num_vertices) (hv : v < g.num_vertices) :
    (g.removeEdge u v).hasEdgeB u v = false := by
  unfold removeEdge
  by_cases h : (g.cell u v).isSome
  · rw [if_pos h, hasEdgeB_iff_cell, cell_update_self g u v none hWF hu hv _]
    rfl
  · rw [if_neg h, hasEdgeB_iff_cell]
    simpa using h

theorem edge_count_removeEdge_mat (g : AdjacencyMatrixGraph) (u v : Nat) :
    (g.removeEdge u v).edge_count =
      g.edge_count - (if g.hasEdgeB u v then 1 else 0) := by
  unfold removeEdge
  by_cases h : g.hasEdgeB u v
  · rw [if_pos (by rw [hasEdgeB_iff_cell] at h; simpa using h), if_pos h]
  · rw [if_neg (by rw [hasEdgeB_iff_cell] at h; simpa using h), if_neg h]
    simp

end AdjacencyMatrixGraph

namespace AdjacencyListGraph

theorem row_wf (g : AdjacencyListGraph) (hWF : g.WF) (u : Nat) :
    ((g.row u).map Prod.fst).Nodup ∧ ∀ p ∈ g.row u, p.1 < g.num_vertices := by
  by_cases h : u < g.adj_list.length
  · have : g.row u = g.adj_list[u] := by
      show g.adj_list.getD u [] = _
      simp [List.getD_eq_getElem?_getD, List.getElem?_eq_getElem h]
    rw [this]
    exact hWF.2 _ (g.adj_list.getElem_mem h)
  · have : g.row u = [] := by
      show g.adj_list.getD u [] = []
      simp [List.getD_eq_getElem?_getD, List.getElem?_eq_none (Nat.le_of_not_lt h)]
    rw [this]
    exact ⟨List.nodup_nil, by intro p hp; exact absurd hp (List.not_mem_nil p)⟩

theorem wf_set_row (g : AdjacencyListGraph) (u : Nat) (r : List (Nat × ℚ))
    (ec : Int) (hWF : g.WF)
    (hr : (r.map Prod.fst).Nodup ∧ ∀ p ∈ r, p.1 < g.num_vertices) :
    ({ g with adj_list := g.adj_list.set u r, edge_count := ec } :
      AdjacencyListGraph).WF := by
  refine ⟨by simpa using hWF.1, ?_⟩
  intro r' hr'
  rcases List.mem_or_eq_of_mem_set hr' with h | h
  · exact hWF.2 _ h
  · rw [h]; exact hr

theorem insert_row_wf (g : AdjacencyListGraph) (u v : Nat) (w : ℚ)
    (hWF : g.WF) (hv : v < g.num_vertices) :
    ((assocInsert (g.row u) v w).map Prod.fst).Nodup ∧
      ∀ p ∈ assocInsert (g.row u) v w, p.1 < g.num_vertices := by
  constructor
  · exact assocInsert_keys_nodup _ _ _ (g.row_wf hWF u).1
  · intro p hp
    rcases assocInsert_mem_fst _ _ _ _ hp with h | h
    · rw [h]; exact hv
    · obtain ⟨q, hq, hqe⟩ := List.mem_map.mp h
      rw [← hqe]; exact (g.row_wf hWF u).2 _ hq

theorem wf_addEdge (g : AdjacencyListGraph) (u v : Nat) (hWF : g.WF)
    (hv : v < g.num_vertices) : (g.addEdge u v).WF := by
  unfold addEdge
  split
  · exact hWF
  · split
    · exact hWF
    · exact wf_set_row g u _ _ hWF (g.insert_row_wf u v 1 hWF hv)

theorem wf_removeEdge (g : AdjacencyListGraph) (u v : Nat) (hWF : g.WF) :
    (g.removeEdge u v).WF := by
  unfold removeEdge
  split
  · refine wf_set_row g u _ _ hWF ⟨?_, ?_⟩
    · exact assocErase_keys_nodup _ _ (g.row_wf hWF u).1
    · intro p hp
      exact (g.row_wf hWF u).2 _ (assocErase_subset _ _ _ hp)
  · exact hWF

theorem wf_setEdgeWeightE_ok (g g' : AdjacencyListGraph) (u v : Nat) (w : ℚ)
    (hE : g.setEdgeWeightE u v w = Except.ok g') (hWF : g.WF)
    (hv : v < g.num_vertices) : g'.WF := by
  unfold setEdgeWeightE at hE
  split at hE
  · cases hE
    exact wf_set_row g u _ g.edge_count hWF (g.insert_row_wf u v w hWF hv)
  · cases hE

theorem wf_applyOp (g : AdjacencyListGraph) (op : GOp) (hWF : g.WF) :
    (g.applyOp op).WF := by
  cases op with
  | add u v =>
    show (if u < g.num_vertices ∧ v < g.num_vertices
      then g.addEdge u v else g).WF
    split
    case isTrue hrange => exact g.wf_addEdge u v hWF hrange.2
    case isFalse => exact hWF
  | remove u v =>
    show (if u < g.num_vertices ∧ v < g.num_vertices
      then g.removeEdge u v else g).WF
    split
    case isTrue hrange => exact g.wf_removeEdge u v hWF
    case isFalse => exact hWF
  | setW u v w =>
    show (if u < g.num_vertices ∧ v < g.num_vertices
      then match g.setEdgeWeightE u v w with
           | Except.ok g' => g'
           | Except.error _ => g
      else g).WF
    split
    case isTrue hrange =>
      cases hE : g.setEdgeWeightE u v w with
      | ok g' => exact wf_setEdgeWeightE_ok g g' u v w hE hWF hrange.2
      | error e => exact hWF
    case isFalse => exact hWF

theorem row_update (g : AdjacencyListGraph) (u a : Nat) (r : List (Nat × ℚ))
    (ec : Int) (hlen : g.adj_list.length = g.num_vertices)
    (hu : u < g.num_vertices) :
    ({ g with adj_list := g.adj_list.set u r, edge_count := ec } :
        AdjacencyListGraph).row a = if a = u then r else g.row a := by
  by_cases hau : a = u
  · rw [if_pos hau, hau]
    show (g.adj_list.set u r).getD u [] = r
    exact listGetD_set_self _ _ _ _ (by rw [hlen]; exact hu)
  · rw [if_neg hau]
    show (g.adj_list.set u r).getD a [] = g.adj_list.getD a []
    exact listGetD_set_ne _ _ _ _ _ (fun h => hau h.symm)

theorem num_vertices_addEdge (g : AdjacencyListGraph) (u v : Nat) :
    (g.addEdge u v).num_vertices = g.num_vertices := by
  unfold addEdge
  split
  · rfl
  · split
    · rfl
    · rfl

theorem num_vertices_removeEdge (g : AdjacencyListGraph) (u v : Nat) :
    (g.removeEdge u v).num_vertices = g.num_vertices := by
  unfold removeEdge
  split
  · rfl
  · rfl

theorem num_vertices_setEdgeWeightE_ok (g g' : AdjacencyListGraph)
    (u v : Nat) (w : ℚ) (hE : g.setEdgeWeightE u v w = Except.ok g') :
    g'.num_vertices = g.num_vertices := by
  unfold setEdgeWeightE at hE
  split at hE
  · cases hE; rfl
  · cases hE

theorem num_vertices_applyOp (g : AdjacencyListGraph) (op : GOp) :
    (g.applyOp op).num_vertices = g.num_vertices := by
  cases op with
  | add u v =>
    show (if u < g.num_vertices ∧ v < g.num_vertices
      then g.addEdge u v else g).num_vertices = g.num_vertices
    split
    · exact g.num_vertices_addEdge u v
    · rfl
  | remove u v =>
    show (if u < g.num_vertices ∧ v < g.num_vertices
      then g.removeEdge u v else g).num_vertices = g.num_vertices
    split
    · exact g.num_vertices_removeEdge u v
    · rfl
  | setW u v w =>
    show (if u < g.num_vertices ∧ v < g.num_vertices
      then match g.setEdgeWeightE u v w with
           | Except.ok g' => g'
           | Except.error _ => g
      else g).num_vertices = g.num_vertices
    split
    · cases hE : g.setEdgeWeightE u v w with
      | ok g' => exact num_vertices_setEdgeWeightE_ok g g' u v w hE
      | error e => rfl
    · rfl

end AdjacencyListGraph

namespace AdjacencyMatrixGraph

theorem wf_update (g : AdjacencyMatrixGraph) (u v : Nat) (x : Option ℚ)
    (ec : Int) (hWF : g.WF) (hu : u < g.num_vertices) :
    ({ g with
        matrix := g.matrix.set u ((g.matrix.getD u []).set v x)
        edge_count := ec } : AdjacencyMatrixGraph).WF := by
  refine ⟨by simpa using hWF.1, ?_⟩
  intro r hr
  rcases List.mem_or_eq_of_mem_set hr with h | h
  · exact hWF.2 _ h
  · rw [h]
    simpa using row_length g u hWF hu

theorem cell_update (g : AdjacencyMatrixGraph) (u v a b : Nat) (x : Option ℚ)
    (ec : Int) (hWF : g.WF) (hu : u < g.num_vertices) (hv : v < g.num_vertices) :
    ({ g with
        matrix := g.matrix.set u ((g.matrix.getD u []).set v x)
        edge_count := ec } : AdjacencyMatrixGraph).cell a b =
      if a = u ∧ b = v then x else g.cell a b := by
  by_cases hau : a = u
  · subst hau
    have hrow : (g.matrix.set a ((g.matrix.getD a []).set v x)).getD a [] =
        (g.matrix.getD a []).set v x :=
      listGetD_set_self _ _ _ _ (by rw [hWF.1]; exact hu)
    by_cases hbv : b = v
    · subst hbv
      rw [if_pos ⟨rfl, rfl⟩]
      show ((g.matrix.set a ((g.matrix.getD a []).set b x)).getD a []).getD b none = x
      rw [hrow]
      exact listGetD_set_self _ _ _ _ (by rw [row_length g a hWF hu]; exact hv)
    · rw [if_neg (fun h => hbv h.2)]
      show ((g.matrix.set a ((g.matrix.getD a []).set v x)).getD a []).getD b none =
          g.cell a b
      rw [hrow]
      exact listGetD_set_ne _ _ _ _ _ (fun h => hbv h.symm)
  · rw [if_neg (fun h => hau h.1)]
    show ((g.matrix.set u ((g.matrix.getD u []).set v x)).getD a []).getD b none =
      g.cell a b
    rw [listGetD_set_ne _ _ _ _ _ (fun h => hau h.symm)]
    rfl

theorem wf_addEdge_mat (g : AdjacencyMatrixGraph) (u v : Nat) (hWF : g.WF)
    (hu : u < g.num_vertices) : (g.addEdge u v).WF := by
  unfold addEdge
  split
  · exact hWF
  · split
    · exact hWF
    · exact g.wf_update u v (some 1) _ hWF hu

theorem wf_removeEdge_mat (g : AdjacencyMatrixGraph) (u v : Nat) (hWF : g.WF)
    (hu : u < g.num_vertices) : (g.removeEdge u v).WF := by
  unfold removeEdge
  split
  · exact g.wf_update u v none _ hWF hu
  · exact hWF

theorem wf_setEdgeWeightE_ok_mat (g g' : AdjacencyMatrixGraph) (u v : Nat) (w : ℚ)
    (hE : g.setEdgeWeightE u v w = Except.ok g') (hWF : g.WF)
    (hu : u < g.num_vertices) : g'.WF := by
  unfold setEdgeWeightE at hE
  split at hE
  · cases hE
    exact g.wf_update u v (some w) g.edge_count hWF hu
  · cases hE

theorem wf_applyOp_mat (g : AdjacencyMatrixGraph) (op : GOp) (hWF : g.WF) :
    (g.applyOp op).WF := by
  cases op with
  | add u v =>
    show (if u < g.num_vertices ∧ v < g.num_vertices
      then g.addEdge u v else g).WF
    split
    case isTrue hrange => exact g.wf_addEdge_mat u v hWF hrange.1
    case isFalse => exact hWF
  | remove u v =>
    show (if u < g.num_vertices ∧ v < g.num_vertices
      then g.removeEdge u v else g).WF
    split
    case isTrue hrange => exact g.wf_removeEdge_mat u v hWF hrange.1
    case isFalse => exact hWF
  | setW u v w =>
    show (if u < g.num_vertices ∧ v < g.num_vertices
      then match g.setEdgeWeightE u v w with
           | Except.ok g' => g'
           | Except.error _ => g
      else g).WF
    split
    case isTrue hrange =>
      cases hE : g.setEdgeWeightE u v w with
      | ok g' => exact wf_setEdgeWeightE_ok_mat g g' u v w hE hWF hrange.1
      | error e => exact hWF
    case isFalse => exact hWF

theorem num_vertices_addEdge_mat (g : AdjacencyMatrixGraph) (u v : Nat) :
    (g.addEdge u v).num_vertices = g.num_vertices := by
  unfold addEdge
  split
  · rfl
  · split
    · rfl
    · rfl

theorem num_vertices_removeEdge_mat (g : AdjacencyMatrixGraph) (u v : Nat) :
    (g.removeEdge u v).num_vertices = g.num_vertices := by
  unfold removeEdge
  split
  · rfl
  · rfl

theorem num_vertices_setEdgeWeightE_ok_mat (g g' : AdjacencyMatrixGraph)
    (u v : Nat) (w : ℚ) (hE : g.setEdgeWeightE u v w = Except.ok g') :
    g'.num_vertices = g.num_vertices := by
  unfold setEdgeWeightE at hE
  split at hE
  · cases hE; rfl
  · cases hE

theorem num_vertices_applyOp_mat (g : AdjacencyMatrixGraph) (op : GOp) :
    (g.applyOp op).num_vertices = g.num_vertices := by
  cases op with
  | add u v =>
    show (if u < g.num_vertices ∧ v < g.num_vertices
      then g.addEdge u v else g).num_vertices = g.num_vertices
    split
    · exact g.num_vertices_addEdge_mat u v
    · rfl
  | remove u v =>
    show (if u < g.num_vertices ∧ v < g.num_vertices
      then g.removeEdge u v else g).num_vertices = g.num_vertices
    split
    · exact g.num_vertices_removeEdge_mat u v
    · rfl
  | setW u v w =>
    show (if u < g.num_vertices ∧ v < g.num_vertices
      then match g.setEdgeWeightE u v w with
           | Except.ok g' => g'
           | Except.error _ => g
      else g).num_vertices = g.num_vertices
    split
    · cases hE : g.setEdgeWeightE u v w with
      | ok g' => exact num_vertices_setEdgeWeightE_ok_mat g g' u v w hE
      | error e => rfl
    · rfl

end AdjacencyMatrixGraph

/-! ## Simulation between the two backings -/

theorem listGetD_replicate {γ : Type} (n i : Nat) (a d : γ) :
    (List.replicate n a).getD i d = if i < n then a else d := by
  simp [List.getD_eq_getElem?_getD, List.getElem?_replicate]
  split <;> rfl

theorem wf_create_list (n : Nat) : (AdjacencyListGraph.create n).WF := by
  refine ⟨by simp [AdjacencyListGraph.create], ?_⟩
  intro r hr
  have : r = [] := List.eq_of_mem_replicate hr
  rw [this]
  exact ⟨List.nodup_nil, by intro p hp; exact absurd hp (List.not_mem_nil p)⟩

theorem wf_create_matrix (n : Nat) : (AdjacencyMatrixGraph.create n).WF := by
  refine ⟨by simp [AdjacencyMatrixGraph.create], ?_⟩
  intro r hr
  have : r = List.replicate n none := List.eq_of_mem_replicate hr
  rw [this]
  simp [AdjacencyMatrixGraph.create]

theorem sim_create (n : Nat) :
    Sim (AdjacencyListGraph.create n) (AdjacencyMatrixGraph.create n) := by
  refine ⟨rfl, rfl, ?_⟩
  intro u v hu hv
  have hrow : (AdjacencyListGraph.create n).row u = [] := by
    show (List.replicate n []).getD u [] = []
    rw [listGetD_replicate]
    split <;> rfl
  have hu' : u < n := hu
  have hv' : v < n := hv
  have hcell : (AdjacencyMatrixGraph.create n).cell u v = none := by
    show ((List.replicate n (List.replicate n none)).getD u []).getD v none = none
    rw [listGetD_replicate, if_pos hu', listGetD_replicate, if_pos hv']
  rw [hrow, hcell]
  rfl

theorem sim_addEdge (gl : AdjacencyListGraph) (gm : AdjacencyMatrixGraph)
    (u v : Nat) (hl : gl.WF) (hm : gm.WF) (hsim : Sim gl gm)
    (hu : u < gl.num_vertices) (hv : v < gl.num_vertices) :
    Sim (gl.addEdge u v) (gm.addEdge u v) := by
  obtain ⟨hn, hc, hcell⟩ := hsim
  by_cases huv : u = v
  · rw [huv, AdjacencyListGraph.addEdge_self, AdjacencyMatrixGraph.addEdge_self_mat]
    exact ⟨hn, hc, hcell⟩
  · by_cases hp : (assocLookup v (gl.row u)).isSome
    · have hgl : gl.addEdge u v = gl := by
        unfold AdjacencyListGraph.addEdge
        rw [if_neg huv, if_pos hp]
      have hgm : gm.addEdge u v = gm := by
        unfold AdjacencyMatrixGraph.addEdge
        rw [if_neg huv, if_pos (by rw [← hcell u v hu hv]; exact hp)]
      rw [hgl, hgm]
      exact ⟨hn, hc, hcell⟩
    · have hpn : assocLookup v (gl.row u) = none := by
        cases hx : assocLookup v (gl.row u)
        · rfl
        · rw [hx] at hp; exact absurd rfl hp
      have hgl : gl.addEdge u v = { gl with
          adj_list := gl.adj_list.set u (assocInsert (gl.row u) v 1)
          edge_count := gl.edge_count + 1 } := by
        unfold AdjacencyListGraph.addEdge
        rw [if_neg huv, if_neg hp]
      have hgm : gm.addEdge u v = { gm with
          matrix := gm.matrix.set u ((gm.matrix.getD u []).set v (some 1))
          edge_count := gm.edge_count + 1 } := by
        unfold AdjacencyMatrixGraph.addEdge
        rw [if_neg huv, if_neg (by rw [← hcell u v hu hv]; simpa using hp)]
      rw [hgl, hgm]
      refine ⟨hn, by rw [hc], ?_⟩
      intro a b ha hb
      rw [AdjacencyListGraph.row_update gl u a _ _ hl.1 hu,
        AdjacencyMatrixGraph.cell_update gm u v a b (some 1) _ hm
          (by rw [← hn]; exact hu) (by rw [← hn]; exact hv)]
      by_cases hau : a = u
      · subst hau
        rw [if_pos rfl]
        have hins : assocInsert (gl.row a) v 1 = gl.row a ++ [(v, 1)] := by
          unfold assocInsert
          rw [if_neg hp]
        rw [hins]
        by_cases hbv : b = v
        · subst hbv
          rw [if_pos ⟨rfl, rfl⟩, assocLookup_append_right hpn, assocLookup_cons,
            if_pos rfl]
        · rw [if_neg (fun h => hbv h.2),
            assocLookup_append_single_ne _ _ _ _ hbv]
          exact hcell a b ha hb
      · rw [if_neg hau, if_neg (fun h => hau h.1)]
        exact hcell a b ha hb

theorem sim_removeEdge (gl : AdjacencyListGraph) (gm : AdjacencyMatrixGraph)
    (u v : Nat) (hl : gl.WF) (hm : gm.WF) (hsim : Sim gl gm)
    (hu : u < gl.num_vertices) (hv : v < gl.num_vertices) :
    Sim (gl.removeEdge u v) (gm.removeEdge u v) := by
  obtain ⟨hn, hc, hcell⟩ := hsim
  by_cases hp : (assocLookup v (gl.row u)).isSome
  · have hgl : gl.removeEdge u v = { gl with
        adj_list := gl.adj_list.set u (assocErase (gl.row u) v)
        edge_count := gl.edge_count - 1 } := by
      unfold AdjacencyListGraph.removeEdge
      rw [if_pos hp]
    have hgm : gm.removeEdge u v = { gm with
        matrix := gm.matrix.set u ((gm.matrix.getD u []).set v none)
        edge_count := gm.edge_count - 1 } := by
      unfold AdjacencyMatrixGraph.removeEdge
      rw [if_pos (by rw [← hcell u v hu hv]; exact hp)]
    rw [hgl, hgm]
    refine ⟨hn, by rw [hc], ?_⟩
    intro a b ha hb
    rw [AdjacencyListGraph.row_update gl u a _ _ hl.1 hu,
      AdjacencyMatrixGraph.cell_update gm u v a b none _ hm
        (by rw [← hn]; exact hu) (by rw [← hn]; exact hv)]
    by_cases hau : a = u
    · subst hau
      rw [if_pos rfl]
      by_cases hbv : b = v
      · subst hbv
        rw [if_pos ⟨rfl, rfl⟩, assocLookup_erase_self]
      · rw [if_neg (fun h => hbv h.2), assocLookup_erase_ne _ _ _ hbv]
        exact hcell a b ha hb
    · rw [if_neg hau, if_neg (fun h => hau h.1)]
      exact hcell a b ha hb
  · have hgl : gl.removeEdge u v = gl := by
      unfold AdjacencyListGraph.removeEdge
      rw [if_neg hp]
    have hgm : gm.removeEdge u v = gm := by
      unfold AdjacencyMatrixGraph.removeEdge
      rw [if_neg (by rw [← hcell u v hu hv]; exact hp)]
    rw [hgl, hgm]
    exact ⟨hn, hc, hcell⟩

theorem sim_setW (gl : AdjacencyListGraph) (gm : AdjacencyMatrixGraph)
    (u v : Nat) (w : ℚ) (hl : gl.WF) (hm : gm.WF) (hsim : Sim gl gm)
    (hu : u < gl.num_vertices) (hv : v < gl.num_vertices) :
    Sim (match gl.setEdgeWeightE u v w with
         | Except.ok g' => g'
         | Except.error _ => gl)
        (match gm.setEdgeWeightE u v w with
         | Except.ok g' => g'
         | Except.error _ => gm) := by
  obtain ⟨hn, hc, hcell⟩ := hsim
  by_cases hp : (assocLookup v (gl.row u)).isSome
  · have hgl : gl.setEdgeWeightE u v w = Except.ok { gl with
        adj_list := gl.adj_list.set u (assocInsert (gl.row u) v w) } := by
      unfold AdjacencyListGraph.setEdgeWeightE
      rw [if_pos hp]
    have hgm : gm.setEdgeWeightE u v w = Except.ok { gm with
        matrix := gm.matrix.set u ((gm.matrix.getD u []).set v (some w)) } := by
      unfold AdjacencyMatrixGraph.setEdgeWeightE
      rw [if_pos (by rw [← hcell u v hu hv]; exact hp)]
    rw [hgl, hgm]
    refine ⟨hn, hc, ?_⟩
    intro a b ha hb
    rw [show ({ gl with
        adj_list := gl.adj_list.set u (assocInsert (gl.row u) v w) } :
          AdjacencyListGraph).row a =
        if a = u then assocInsert (gl.row u) v w else gl.row a from
      AdjacencyListGraph.row_update gl u a _ gl.edge_count hl.1 hu,
      show ({ gm with
        matrix := gm.matrix.set u ((gm.matrix.getD u []).set v (some w)) } :
          AdjacencyMatrixGraph).cell a b =
        if a = u ∧ b = v then some w else gm.cell a b from
      AdjacencyMatrixGraph.cell_update gm u v a b (some w) gm.edge_count hm
        (by rw [← hn]; exact hu) (by rw [← hn]; exact hv)]
    by_cases hau : a = u
    · subst hau
      rw [if_pos rfl]
      by_cases hbv : b = v
      · subst hbv
        rw [if_pos ⟨rfl, rfl⟩, assocLookup_insert_self]
      · rw [if_neg (fun h => hbv h.2), assocLookup_insert_ne _ _ _ _ hbv]
        exact hcell a b ha hb
    · rw [if_neg hau, if_neg (fun h => hau h.1)]
      exact hcell a b ha hb
  · have hgl : gl.setEdgeWeightE u v w = Except.error "Aresta não existe." := by
      unfold AdjacencyListGraph.setEdgeWeightE
      rw [if_neg hp]
    have hgm : gm.setEdgeWeightE u v w = Except.error "Aresta não existe." := by
      unfold AdjacencyMatrixGraph.setEdgeWeightE
      rw [if_neg (by rw [← hcell u v hu hv]; exact hp)]
    rw [hgl, hgm]
    exact ⟨hn, hc, hcell⟩

theorem sim_applyOp (gl : AdjacencyListGraph) (gm : AdjacencyMatrixGraph)
    (op : GOp) (hl : gl.WF) (hm : gm.WF) (hsim : Sim gl gm) :
    Sim (gl.applyOp op) (gm.applyOp op) := by
  have hn : gl.num_vertices = gm.num_vertices := hsim.1
  cases op with
  | add u v =>
    show Sim (if u < gl.num_vertices ∧ v < gl.num_vertices
        then gl.addEdge u v else gl)
      (if u < gm.num_vertices ∧ v < gm.num_vertices
        then gm.addEdge u v else gm)
    by_cases hg : u < gl.num_vertices ∧ v < gl.num_vertices
    · rw [if_pos hg, if_pos (by rw [← hn]; exact hg)]
      exact sim_addEdge gl gm u v hl hm hsim hg.1 hg.2
    · rw [if_neg hg, if_neg (by rw [← hn]; exact hg)]
      exact hsim
  | remove u v =>
    show Sim (if u < gl.num_vertices ∧ v < gl.num_vertices
        then gl.removeEdge u v else gl)
      (if u < gm.num_vertices ∧ v < gm.num_vertices
        then gm.removeEdge u v else gm)
    by_cases hg : u < gl.num_vertices ∧ v < gl.num_vertices
    · rw [if_pos hg, if_pos (by rw [← hn]; exact hg)]
      exact sim_removeEdge gl gm u v hl hm hsim hg.1 hg.2
    · rw [if_neg hg, if_neg (by rw [← hn]; exact hg)]
      exact hsim
  | setW u v w =>
    show Sim (if u < gl.num_vertices ∧ v < gl.num_vertices
        then match gl.setEdgeWeightE u v w with
             | Except.ok g' => g'
             | Except.error _ => gl
        else gl)
      (if u < gm.num_vertices ∧ v < gm.num_vertices
        then match gm.setEdgeWeightE u v w with
             | Except.ok g' => g'
             | Except.error _ => gm
        else gm)
    by_cases hg : u < gl.num_vertices ∧ v < gl.num_vertices
    · rw [if_pos hg, if_pos (by rw [← hn]; exact hg)]
      exact sim_setW gl gm u v w hl hm hsim hg.1 hg.2
    · rw [if_neg hg, if_neg (by rw [← hn]; exact hg)]
      exact hsim

theorem sim_foldl (ops : List GOp) (gl : AdjacencyListGraph)
    (gm : AdjacencyMatrixGraph) (hl : gl.WF) (hm : gm.WF) (hsim : Sim gl gm) :
    (ops.foldl AdjacencyListGraph.applyOp gl).WF ∧
    (ops.foldl AdjacencyMatrixGraph.applyOp gm).WF ∧
    Sim (ops.foldl AdjacencyListGraph.applyOp gl)
        (ops.foldl AdjacencyMatrixGraph.applyOp gm) := by
  induction ops generalizing gl gm with
  | nil => exact ⟨hl, hm, hsim⟩
  | cons op rest ih =>
    rw [List.foldl_cons, List.foldl_cons]
    exact ih _ _ (AdjacencyListGraph.wf_applyOp gl op hl)
      (AdjacencyMatrixGraph.wf_applyOp_mat gm op hm)
      (sim_applyOp gl gm op hl hm hsim)

theorem num_vertices_foldl_list (ops : List GOp) (gl : AdjacencyListGraph) :
    (ops.foldl AdjacencyListGraph.applyOp gl).num_vertices = gl.num_vertices := by
  induction ops generalizing gl with
  | nil => rfl
  | cons op rest ih =>
    rw [List.foldl_cons, ih, AdjacencyListGraph.num_vertices_applyOp]

theorem sim_queries (gl : AdjacencyListGraph) (gm : AdjacencyMatrixGraph)
    (hl : gl.WF) (hm : gm.WF) (hsim : Sim gl gm) (u v : Nat)
    (hu : u < gl.num_vertices) (hv : v < gl.num_vertices) :
    gl.hasEdgeB u v = gm.hasEdgeB u v ∧
    gl.getEdgeWeightB u v = gm.getEdgeWeightB u v ∧
    gl.getVertexInDegree u = gm.getVertexInDegree u ∧
    gl.getVertexOutDegree u = gm.getVertexOutDegree u ∧
    (∀ x : Nat, x ∈ gl.getNeighbors u ↔ x ∈ gm.getNeighbors u) := by
  obtain ⟨hn, hc, hcell⟩ := hsim
  have hmemiff : ∀ x : Nat, x ∈ gl.getNeighbors u ↔ x ∈ gm.getNeighbors u := by
    intro x
    constructor
    · intro hx
      have hxr : x ∈ (gl.row u).map Prod.fst := hx
      have hxlt : x < gl.num_vertices := by
        obtain ⟨p, hp, hpe⟩ := List.mem_map.mp hxr
        rw [← hpe]
        exact (gl.row_wf hl u).2 p hp
      have hs : (assocLookup x (gl.row u)).isSome = true :=
        assocLookup_isSome_iff.mpr hxr
      rw [hcell u x hu hxlt] at hs
      show x ∈ (List.range gm.num_vertices).filter
        (fun y => (gm.cell u y).isSome)
      rw [List.mem_filter, List.mem_range]
      exact ⟨by rw [← hn]; exact hxlt, hs⟩
    · intro hx
      have hx2 := List.mem_filter.mp hx
      have hxlt : x < gl.num_vertices := by
        rw [hn]; exact List.mem_range.mp hx2.1
      have hs : (assocLookup x (gl.row u)).isSome = true := by
        rw [hcell u x hu hxlt]
        exact hx2.2
      exact assocLookup_isSome_iff.mp hs
  refine ⟨?_, ?_, ?_, ?_, hmemiff⟩
  · show (assocLookup v (gl.row u)).isSome = (gm.cell u v).isSome
    rw [hcell u v hu hv]
  · show (assocLookup v (gl.row u)).getD 0 = (gm.cell u v).getD 0
    rw [hcell u v hu hv]
  · show ((List.range gl.num_vertices).filter (fun i => gl.hasEdgeB i u)).length =
      ((List.range gm.num_vertices).filter (fun i => gm.hasEdgeB i u)).length
    rw [← hn]
    have : ∀ i ∈ List.range gl.num_vertices,
        gl.hasEdgeB i u = gm.hasEdgeB i u := by
      intro i hi
      have hilt : i < gl.num_vertices := List.mem_range.mp hi
      show (assocLookup u (gl.row i)).isSome = (gm.cell i u).isSome
      rw [hcell i u hilt hu]
    rw [List.filter_congr this]
  · have hnd1 : (gl.getNeighbors u).Nodup := (gl.row_wf hl u).1
    have hnd2 : (gm.getNeighbors u).Nodup :=
      (List.nodup_range gm.num_vertices).filter _
    exact ((List.perm_ext_iff_of_nodup hnd1 hnd2).mpr hmemiff).length_eq

/-! ## Claim theorems: GraphStore contract -/

/-- C2: for every in-range pair `u ≠ v`, on both backings: after
`addEdge(u,v)`, `hasEdge(u,v)` holds and the edge count grows by exactly 1
when the edge was absent and is unchanged when present; after
`removeEdge(u,v)`, `hasEdge(u,v)` is false and the count shrinks by
exactly 1 when present and is unchanged when absent; and `addEdge(u,u)`
leaves the graph (hence every `hasEdge` fact and the count) unchanged. -/
theorem claim_C2
    (gl : AdjacencyListGraph) (gm : AdjacencyMatrixGraph) (u v : Nat)
    (hl : gl.WF) (hm : gm.WF)
    (hul : u < gl.num_vertices) (hvl : v < gl.num_vertices)
    (hum : u < gm.num_vertices) (hvm : v < gm.num_vertices)
    (huv : u ≠ v) :
    ((gl.addEdge u v).hasEdgeB u v = true ∧
     (gl.addEdge u v).edge_count =
       gl.edge_count + (if gl.hasEdgeB u v then 0 else 1) ∧
     (gl.removeEdge u v).hasEdgeB u v = false ∧
     (gl.removeEdge u v).edge_count =
       gl.edge_count - (if gl.hasEdgeB u v then 1 else 0) ∧
     (∀ w : Nat, gl.addEdge w w = gl)) ∧
    ((gm.addEdge u v).hasEdgeB u v = true ∧
     (gm.addEdge u v).edge_count =
       gm.edge_count + (if gm.hasEdgeB u v then 0 else 1) ∧
     (gm.removeEdge u v).hasEdgeB u v = false ∧
     (gm.removeEdge u v).edge_count =
       gm.edge_count - (if gm.hasEdgeB u v then 1 else 0) ∧
     (∀ w : Nat, gm.addEdge w w = gm)) := by
  refine ⟨⟨?_, ?_, ?_, ?_, ?_⟩, ⟨?_, ?_, ?_, ?_, ?_⟩⟩
  · exact AdjacencyListGraph.hasEdgeB_addEdge_self gl u v hl.1 hul huv
  · exact AdjacencyListGraph.edge_count_addEdge gl u v huv
  · exact AdjacencyListGraph.hasEdgeB_removeEdge_self gl u v hl.1 hul
  · exact AdjacencyListGraph.edge_count_removeEdge gl u v
  · exact fun w => AdjacencyListGraph.addEdge_self gl w
  · exact AdjacencyMatrixGraph.hasEdgeB_addEdge_self_mat gm u v hm hum hvm huv
  · exact AdjacencyMatrixGraph.edge_count_addEdge_mat gm u v huv
  · exact AdjacencyMatrixGraph.hasEdgeB_removeEdge_self_mat gm u v hm hum hvm
  · exact AdjacencyMatrixGraph.edge_count_removeEdge_mat gm u v
  · exact fun w => AdjacencyMatrixGraph.addEdge_self_mat gm w

/-- Witness for C2 at the 2-vertex graphs of both backings and the pair
`(0, 1)`. -/
theorem claim_C2_witness :
    (AdjacencyListGraph.create 2).WF ∧ (AdjacencyMatrixGraph.create 2).WF ∧
    ((((AdjacencyListGraph.create 2).addEdge 0 1).hasEdgeB 0 1 = true ∧
      ((AdjacencyListGraph.create 2).addEdge 0 1).edge_count =
        (AdjacencyListGraph.create 2).edge_count +
          (if (AdjacencyListGraph.create 2).hasEdgeB 0 1 then 0 else 1) ∧
      ((AdjacencyListGraph.create 2).removeEdge 0 1).hasEdgeB 0 1 = false ∧
      ((AdjacencyListGraph.create 2).removeEdge 0 1).edge_count =
        (AdjacencyListGraph.create 2).edge_count -
          (if (AdjacencyListGraph.create 2).hasEdgeB 0 1 then 1 else 0) ∧
      (∀ w : Nat, (AdjacencyListGraph.create 2).addEdge w w =
        AdjacencyListGraph.create 2)) ∧
     (((AdjacencyMatrixGraph.create 2).addEdge 0 1).hasEdgeB 0 1 = true ∧
      ((AdjacencyMatrixGraph.create 2).addEdge 0 1).edge_count =
        (AdjacencyMatrixGraph.create 2).edge_count +
          (if (AdjacencyMatrixGraph.create 2).hasEdgeB 0 1 then 0 else 1) ∧
      ((AdjacencyMatrixGraph.create 2).removeEdge 0 1).hasEdgeB 0 1 = false ∧
      ((AdjacencyMatrixGraph.create 2).removeEdge 0 1).edge_count =
        (AdjacencyMatrixGraph.create 2).edge_count -
          (if (AdjacencyMatrixGraph.create 2).hasEdgeB 0 1 then 1 else 0) ∧
      (∀ w : Nat, (AdjacencyMatrixGraph.create 2).addEdge w w =
        AdjacencyMatrixGraph.create 2))) :=
  ⟨by decide, by decide,
   claim_C2 (AdjacencyListGraph.create 2) (AdjacencyMatrixGraph.create 2) 0 1
     (by decide) (by decide) (by decide) (by decide) (by decide) (by decide)
     (by decide)⟩

/-- C3: for every in-range pair on the adjacency-list backing: when the
edge is absent, `setEdgeWeight` fails with the invalid-operation error
(so no graph is produced and nothing is created) while `getEdgeWeight`
returns 0; when the edge is present, `getEdgeWeight` returns exactly the
stored weight, and `setEdgeWeight(u,v,w)` succeeds, after which the
weight reads back as `w` and every other `hasEdge`/weight fact, the
vertex count and the edge count are untouched. -/
theorem claim_C3 (g : AdjacencyListGraph) (u v : Nat) (hWF : g.WF)
    (hu : u < g.num_vertices) (hv : v < g.num_vertices) :
    (g.hasEdgeB u v = false →
       (∀ w : ℚ, g.setEdgeWeightE u v w = Except.error "Aresta não existe.") ∧
       g.getEdgeWeightB u v = 0) ∧
    (g.hasEdgeB u v = true →
       assocLookup v (g.row u) = some (g.getEdgeWeightB u v) ∧
       (∀ w : ℚ, ∃ g' : AdjacencyListGraph,
          g.setEdgeWeightE u v w = Except.ok g' ∧
          g'.getEdgeWeightB u v = w ∧
          (∀ a b : Nat, ¬(a = u ∧ b = v) →
             g'.hasEdgeB a b = g.hasEdgeB a b ∧
             g'.getEdgeWeightB a b = g.getEdgeWeightB a b) ∧
          g'.num_vertices = g.num_vertices ∧
          g'.edge_count = g.edge_count)) := by
  constructor
  · intro habs
    have hn : assocLookup v (g.row u) = none := by
      rw [AdjacencyListGraph.hasEdgeB_iff_lookup] at habs
      cases hx : assocLookup v (g.row u)
      · rfl
      · rw [hx] at habs; exact absurd habs (by simp)
    constructor
    · intro w
      unfold AdjacencyListGraph.setEdgeWeightE
      rw [if_neg (by simp [hn])]
    · unfold AdjacencyListGraph.getEdgeWeightB assocGetD
      rw [hn]
      rfl
  · intro hpres
    rw [AdjacencyListGraph.hasEdgeB_iff_lookup] at hpres
    obtain ⟨w0, hw0⟩ := Option.isSome_iff_exists.mp hpres
    constructor
    · unfold AdjacencyListGraph.getEdgeWeightB assocGetD
      rw [hw0]
      rfl
    · intro w
      refine ⟨{ g with adj_list := g.adj_list.set u (assocInsert (g.row u) v w) },
        ?_, ?_, ?_, rfl, rfl⟩
      · unfold AdjacencyListGraph.setEdgeWeightE
        rw [if_pos (by simp [hw0])]
      · unfold AdjacencyListGraph.getEdgeWeightB assocGetD
        show (assocLookup v ((g.adj_list.set u (assocInsert (g.row u) v w)).getD u [])).getD 0 = w
        rw [listGetD_set_self _ _ _ _ (by rw [hWF.1]; exact hu),
          assocLookup_insert_self]
        rfl
      · intro a b hab
        by_cases hau : a = u
        · have hbv : b ≠ v := fun hb => hab ⟨hau, hb⟩
          subst hau
          have hrow : (({ g with
              adj_list := g.adj_list.set a (assocInsert (g.row a) v w) } :
                AdjacencyListGraph)).row a = assocInsert (g.row a) v w := by
            show (g.adj_list.set a (assocInsert (g.row a) v w)).getD a [] = _
            exact listGetD_set_self _ _ _ _ (by rw [hWF.1]; exact hu)
          constructor
          · rw [AdjacencyListGraph.hasEdgeB_iff_lookup,
              AdjacencyListGraph.hasEdgeB_iff_lookup, hrow,
              assocLookup_insert_ne _ _ _ _ hbv]
          · unfold AdjacencyListGraph.getEdgeWeightB assocGetD
            rw [hrow, assocLookup_insert_ne _ _ _ _ hbv]
        · have hrow : (({ g with
              adj_list := g.adj_list.set u (assocInsert (g.row u) v w) } :
                AdjacencyListGraph)).row a = g.row a := by
            show (g.adj_list.set u (assocInsert (g.row u) v w)).getD a [] = _
            exact listGetD_set_ne _ _ _ _ _ (fun h => hau h.symm)
          constructor
          · rw [AdjacencyListGraph.hasEdgeB_iff_lookup,
              AdjacencyListGraph.hasEdgeB_iff_lookup, hrow]
          · unfold AdjacencyListGraph.getEdgeWeightB assocGetD
            rw [hrow]

/-- Witness for C3 at the 2-vertex graph with the edge `(0,1)` present and
the pair `(0,1)`, and at the absent pair `(1,0)`. -/
theorem claim_C3_witness :
    ((AdjacencyListGraph.create 2).addEdge 0 1).WF ∧
    (((((AdjacencyListGraph.create 2).addEdge 0 1)).hasEdgeB 0 1 = false →
       (∀ w : ℚ, ((AdjacencyListGraph.create 2).addEdge 0 1).setEdgeWeightE 0 1 w =
         Except.error "Aresta não existe.") ∧
       ((AdjacencyListGraph.create 2).addEdge 0 1).getEdgeWeightB 0 1 = 0) ∧
     ((((AdjacencyListGraph.create 2).addEdge 0 1)).hasEdgeB 0 1 = true →
       assocLookup 1 (((AdjacencyListGraph.create 2).addEdge 0 1).row 0) =
         some (((AdjacencyListGraph.create 2).addEdge 0 1).getEdgeWeightB 0 1) ∧
       (∀ w : ℚ, ∃ g' : AdjacencyListGraph,
          ((AdjacencyListGraph.create 2).addEdge 0 1).setEdgeWeightE 0 1 w =
            Except.ok g' ∧
          g'.getEdgeWeightB 0 1 = w ∧
          (∀ a b : Nat, ¬(a = 0 ∧ b = 1) →
             g'.hasEdgeB a b = ((AdjacencyListGraph.create 2).addEdge 0 1).hasEdgeB a b ∧
             g'.getEdgeWeightB a b =
               ((AdjacencyListGraph.create 2).addEdge 0 1).getEdgeWeightB a b) ∧
          g'.num_vertices = ((AdjacencyListGraph.create 2).addEdge 0 1).num_vertices ∧
          g'.edge_count = ((AdjacencyListGraph.create 2).addEdge 0 1).edge_count))) :=
  ⟨by decide,
   claim_C3 ((AdjacencyListGraph.create 2).addEdge 0 1) 0 1 (by decide)
     (by decide) (by decide)⟩

/-! ## Lemmas about the label-keyed result dictionaries -/

theorem listGetD_map_range {α : Type} (f : Nat → α) (n i : Nat) (d : α)
    (h : i < n) : ((List.range n).map f).getD i d = f i := by
  simp [List.getD_eq_getElem?_getD, List.getElem?_map, List.getElem?_range, h]

theorem foldl_insert_lookup {α : Type} (g : AdjacencyListGraph) (f : Nat → α)
    (l : List Nat) (m : List (String × α)) (k : String) :
    assocLookup k
      (l.foldl (fun m i => assocInsert m (g.get_vertex_label i) (f i)) m) =
      match l.reverse.find? (fun i => g.get_vertex_label i = k) with
      | some i => some (f i)
      | none => assocLookup k m := by
  induction l generalizing m with
  | nil => rfl
  | cons i l ih =>
    rw [List.foldl_cons, ih, List.reverse_cons, List.find?_append]
    cases hfind : l.reverse.find? (fun i => g.get_vertex_label i = k) with
    | some j => rfl
    | none =>
      show assocLookup k (assocInsert m (g.get_vertex_label i) (f i)) =
        match Option.none.or (List.find? _ [i]) with
        | some i => some (f i)
        | none => assocLookup k m
      by_cases hq : g.get_vertex_label i = k
      · rw [hq, assocLookup_insert_self]
        have hfi : List.find? (fun i => decide (g.get_vertex_label i = k)) [i] =
            some i := by
          simp [List.find?, hq]
        rw [hfi]
        rfl
      · rw [assocLookup_insert_ne _ _ _ _ (fun h => hq h.symm)]
        have hfi : List.find? (fun i => decide (g.get_vertex_label i = k)) [i] =
            none := by
          simp [List.find?, hq]
        rw [hfi]
        rfl

theorem labelDict_lookup {α : Type} (g : AdjacencyListGraph) (f : Nat → α)
    (k : String) :
    assocLookup k (GraphAnalyzer.labelDict g f) =
      match lastWithLabel g k with
      | some i => some (f i)
      | none => none := by
  rw [GraphAnalyzer.labelDict, foldl_insert_lookup, lastWithLabel]
  cases (List.range g.num_vertices).reverse.find?
    (fun i => g.get_vertex_label i = k) with
  | some j => rfl
  | none => rfl

theorem lastWithLabel_exists (g : AdjacencyListGraph) (i : Nat)
    (hi : i < g.num_vertices) :
    ∃ j, lastWithLabel g (g.get_vertex_label i) = some j ∧
      j < g.num_vertices ∧
      g.get_vertex_label j = g.get_vertex_label i := by
  have hm : (lastWithLabel g (g.get_vertex_label i)).isSome := by
    rw [lastWithLabel, List.find?_isSome]
    exact ⟨i, List.mem_reverse.mpr (List.mem_range.mpr hi), by simp⟩
  obtain ⟨j, hj⟩ := Option.isSome_iff_exists.mp hm
  refine ⟨j, hj, ?_, ?_⟩
  · rw [lastWithLabel] at hj
    have := List.mem_of_find?_eq_some hj
    exact List.mem_range.mp (List.mem_reverse.mp this)
  · rw [lastWithLabel] at hj
    have := List.find?_some hj
    simpa using this

theorem find?_reverse_range_spec (p : Nat → Bool) (n j : Nat)
    (h : (List.range n).reverse.find? p = some j) :
    j < n ∧ p j = true ∧ ∀ j', j < j' → j' < n → p j' = false := by
  induction n with
  | zero => simp at h
  | succ n ih =>
    rw [List.range_succ, List.reverse_append] at h
    simp only [List.reverse_cons, List.reverse_nil, List.nil_append,
      List.cons_append, List.nil_append] at h
    rw [List.find?] at h
    cases hp : p n with
    | true =>
      rw [hp] at h
      cases h
      refine ⟨Nat.lt_succ_self _, hp, ?_⟩
      intro j' h1 h2
      omega
    | false =>
      rw [hp] at h
      obtain ⟨h1, h2, h3⟩ := ih h
      refine ⟨Nat.lt_succ_of_lt h1, h2, ?_⟩
      intro j' hj1 hj2
      by_cases hjn : j' = n
      · rw [hjn]; exact hp
      · exact h3 j' hj1 (by omega)

theorem foldl_insert_keys_nodup {α : Type} (g : AdjacencyListGraph)
    (f : Nat → α) (l : List Nat) (m : List (String × α))
    (hm : (m.map Prod.fst).Nodup) :
    (((l.foldl (fun m i => assocInsert m (g.get_vertex_label i) (f i)) m)).map
      Prod.fst).Nodup := by
  induction l generalizing m with
  | nil => exact hm
  | cons i l ih =>
    rw [List.foldl_cons]
    exact ih _ (assocInsert_keys_nodup _ _ _ hm)

theorem labelDict_keys_nodup {α : Type} (g : AdjacencyListGraph) (f : Nat → α) :
    ((GraphAnalyzer.labelDict g f).map Prod.fst).Nodup :=
  foldl_insert_keys_nodup g f _ [] List.nodup_nil

theorem labelDict_keys_mem {α : Type} (g : AdjacencyListGraph) (f : Nat → α)
    (k : String) :
    k ∈ (GraphAnalyzer.labelDict g f).map Prod.fst ↔
      k ∈ (List.range g.num_vertices).map (g.get_vertex_label) := by
  rw [← assocLookup_isSome_iff, labelDict_lookup]
  cases hfind : lastWithLabel g k with
  | some j =>
    refine ⟨fun _ => ?_, fun _ => by simp⟩
    rw [lastWithLabel] at hfind
    have hmem := List.mem_of_find?_eq_some hfind
    have hpj := List.find?_some hfind
    exact List.mem_map.mpr ⟨j, List.mem_reverse.mp hmem, by simpa using hpj⟩
  | none =>
    constructor
    · intro hs
      simp at hs
    · intro hmem
      exfalso
      obtain ⟨i, hi, hie⟩ := List.mem_map.mp hmem
      rw [lastWithLabel] at hfind
      have hsome : ((List.range g.num_vertices).reverse.find?
          (fun i => g.get_vertex_label i = k)).isSome := by
        rw [List.find?_isSome]
        exact ⟨i, List.mem_reverse.mpr hi, by simp [hie]⟩
      rw [hfind] at hsome
      simp at hsome

theorem labelDict_length {α : Type} (g : AdjacencyListGraph) (f : Nat → α) :
    (GraphAnalyzer.labelDict g f).length =
      ((List.range g.num_vertices).map (g.get_vertex_label)).dedup.length := by
  have h1 : (GraphAnalyzer.labelDict g f).length =
      ((GraphAnalyzer.labelDict g f).map Prod.fst).length := by
    rw [List.length_map]
  rw [h1]
  refine List.Perm.length_eq
    ((List.perm_ext_iff_of_nodup (labelDict_keys_nodup g f)
      ((List.range g.num_vertices).map (g.get_vertex_label)).nodup_dedup).mpr ?_)
  intro k
  rw [labelDict_keys_mem, List.mem_dedup]

theorem labelDict_length_lt {α : Type} (g : AdjacencyListGraph) (f : Nat → α)
    (hcol : ∃ i j : Nat, i < g.num_vertices ∧ j < g.num_vertices ∧ i ≠ j ∧
      g.get_vertex_label i = g.get_vertex_label j) :
    (GraphAnalyzer.labelDict g f).length < g.num_vertices := by
  obtain ⟨i, j, hi, hj, hij, hlab⟩ := hcol
  rw [labelDict_length]
  have hsub : ((List.range g.num_vertices).map (g.get_vertex_label)).dedup.Sublist
      ((List.range g.num_vertices).map (g.get_vertex_label)) :=
    List.dedup_sublist _
  have hle := hsub.length_le
  rw [List.length_map, List.length_range] at hle
  rcases Nat.lt_or_ge
    ((List.range g.num_vertices).map (g.get_vertex_label)).dedup.length
    g.num_vertices with h | h
  · exact h
  · exfalso
    have heq : ((List.range g.num_vertices).map (g.get_vertex_label)).dedup.length =
        ((List.range g.num_vertices).map (g.get_vertex_label)).length := by
      rw [List.length_map, List.length_range]
      omega
    have hdedup_eq := hsub.eq_of_length heq
    have hnodup : ((List.range g.num_vertices).map (g.get_vertex_label)).Nodup := by
      rw [← hdedup_eq]
      exact List.nodup_dedup _
    have := List.inj_on_of_nodup_map hnodup
      (List.mem_range.mpr hi) (List.mem_range.mpr hj) hlab
    exact hij this

/-! ## C6: PageRank on an edgeless graph -/

theorem edgeless_row (g : AdjacencyListGraph)
    (hE : ∀ u : Nat, g.getNeighbors u = []) (u : Nat) : g.row u = [] := by
  have h := hE u
  unfold AdjacencyListGraph.getNeighbors at h
  cases hr : g.row u with
  | nil => rfl
  | cons p l => rw [hr] at h; simp at h

theorem edgeless_hasEdgeB (g : AdjacencyListGraph)
    (hE : ∀ u : Nat, g.getNeighbors u = []) (u v : Nat) :
    g.hasEdgeB u v = false := by
  unfold AdjacencyListGraph.hasEdgeB
  rw [edgeless_row g hE u]
  rfl

theorem edgeless_outDegrees (g : AdjacencyListGraph)
    (hE : ∀ u : Nat, g.getNeighbors u = []) (i : Nat) :
    ((List.range g.num_vertices).map
      (fun i => g.getVertexOutDegree i)).getD i 0 = 0 := by
  by_cases h : i < g.num_vertices
  · rw [listGetD_map_range _ _ _ _ h]
    unfold AdjacencyListGraph.getVertexOutDegree
    rw [hE i]
    rfl
  · rw [List.getD_eq_getElem?_getD,
      List.getElem?_eq_none (by simpa using Nat.le_of_not_lt h)]
    rfl

theorem pagerankIter_edgeless (g : AdjacencyListGraph)
    (hn : 0 < g.num_vertices) (hE : ∀ u : Nat, g.getNeighbors u = [])
    (d : ℚ) :
    GraphAnalyzer.pagerankIter g
      ((List.range g.num_vertices).map (fun i => g.getVertexOutDegree i)) d
      (List.replicate g.num_vertices (1 / (g.num_vertices : ℚ))) =
      List.replicate g.num_vertices (1 / (g.num_vertices : ℚ)) := by
  have hnq : (g.num_vertices : ℚ) ≠ 0 := by
    exact_mod_cast Nat.pos_iff_ne_zero.mp hn
  unfold GraphAnalyzer.pagerankIter
  dsimp only
  have hsinkfilter :
      (List.range g.num_vertices).filter
        (fun i => ((List.range g.num_vertices).map
          (fun i => g.getVertexOutDegree i)).getD i 0 = 0) =
        List.range g.num_vertices := by
    refine List.filter_eq_self.mpr ?_
    intro a _
    show decide ((((List.range g.num_vertices).map
      (fun i => g.getVertexOutDegree i)).getD a 0 = 0)) = true
    rw [edgeless_outDegrees g hE a]
    rfl
  rw [hsinkfilter]
  have hmapsum : ((List.range g.num_vertices).map
      (fun i => (List.replicate g.num_vertices
        (1 / (g.num_vertices : ℚ))).getD i 0)) =
      List.replicate g.num_vertices (1 / (g.num_vertices : ℚ)) := by
    refine List.eq_replicate_iff.mpr ⟨by simp, ?_⟩
    intro b hb
    obtain ⟨i, hi, hie⟩ := List.mem_map.mp hb
    rw [← hie, listGetD_replicate, if_pos (List.mem_range.mp hi)]
  rw [hmapsum]
  have hsum : (List.replicate g.num_vertices
      (1 / (g.num_vertices : ℚ))).sum = 1 := by
    rw [List.sum_replicate, nsmul_eq_mul]
    field_simp
  rw [hsum]
  refine List.eq_replicate_iff.mpr ⟨by simp, ?_⟩
  intro b hb
  obtain ⟨i, hi, hie⟩ := List.mem_map.mp hb
  have hincoming : (List.range g.num_vertices).filter
      (fun c => g.hasEdgeB c i ∧
        0 < ((List.range g.num_vertices).map
          (fun i => g.getVertexOutDegree i)).getD c 0) = [] := by
    refine List.filter_eq_nil.mpr ?_
    intro c _
    simp [edgeless_hasEdgeB g hE c i]
  rw [hincoming] at hie
  rw [← hie]
  show (1 - d) / (g.num_vertices : ℚ) +
    d * (([] : List ℚ).sum + 1 / (g.num_vertices : ℚ)) =
    1 / (g.num_vertices : ℚ)
  show (1 - d) / (g.num_vertices : ℚ) +
    d * (0 + 1 / (g.num_vertices : ℚ)) = 1 / (g.num_vertices : ℚ)
  field_simp

theorem pagerankLoop_edgeless (g : AdjacencyListGraph)
    (hn : 0 < g.num_vertices) (hE : ∀ u : Nat, g.getNeighbors u = [])
    (d : ℚ) (k : Nat) :
    GraphAnalyzer.pagerankLoop g
      ((List.range g.num_vertices).map (fun i => g.getVertexOutDegree i)) d k
      (List.replicate g.num_vertices (1 / (g.num_vertices : ℚ))) =
      List.replicate g.num_vertices (1 / (g.num_vertices : ℚ)) := by
  induction k with
  | zero => rfl
  | succ k ih =>
    show GraphAnalyzer.pagerankLoop g _ d k (GraphAnalyzer.pagerankIter g _ d _) = _
    rw [pagerankIter_edgeless g hn hE d]
    exact ih

/-- C7: on the empty graph (`n = 0`), degree centrality, closeness,
betweenness and PageRank all return the empty mapping, and density and
the clustering coefficient both return 0; every computation is total (the
embedding evaluates each of them to a value, so none raises). -/
theorem claim_C7 :
    GraphAnalyzer.degree_centrality (AdjacencyListGraph.create 0) = [] ∧
    GraphAnalyzer.closeness_centrality (AdjacencyListGraph.create 0) = [] ∧
    GraphAnalyzer.betweenness_centrality (AdjacencyListGraph.create 0) = [] ∧
    (∀ (d : ℚ) (iters : Nat),
      GraphAnalyzer.pagerank (AdjacencyListGraph.create 0) d iters = []) ∧
    GraphAnalyzer.density (AdjacencyListGraph.create 0) = 0 ∧
    GraphAnalyzer.clustering_coefficient (AdjacencyListGraph.create 0) = 0 :=
  ⟨rfl, rfl, rfl, fun _ _ => rfl, rfl, rfl⟩

/-! ## C10: bridging-tie analysis -/

theorem bridgeStep_mem (g : AdjacencyListGraph)
    (communities : List (String × Nat)) (br : List (String × Nat)) (u : Nat)
    (hbr : ∀ q ∈ br, (assocLookup q.1 communities).isSome = true ∧ 0 < q.2)
    (r : String × Nat) (hr : r ∈ GraphAnalyzer.bridgeStep g communities br u) :
    (assocLookup r.1 communities).isSome = true ∧ 0 < r.2 := by
  unfold GraphAnalyzer.bridgeStep at hr
  cases hc : assocLookup (g.get_vertex_label u) communities with
  | none =>
    rw [hc] at hr
    exact hbr r hr
  | some c =>
    rw [hc] at hr
    dsimp only at hr
    by_cases hcnt : 0 < ((g.getNeighbors u).filter
        (fun v => assocLookup (g.get_vertex_label v) communities ≠
          some c)).length
    · rw [if_pos hcnt] at hr
      rcases List.mem_append.mp hr with h | h
      · exact hbr r h
      · have hre : r = (g.get_vertex_label u,
            ((g.getNeighbors u).filter
              (fun v => assocLookup (g.get_vertex_label v) communities ≠
                some c)).length) := by
          simpa using h
        rw [hre]
        exact ⟨by simp [hc], hcnt⟩
    · rw [if_neg hcnt] at hr
      exact hbr r hr

theorem bridgingList_mem (g : AdjacencyListGraph)
    (communities : List (String × Nat)) (p : String × Nat)
    (hp : p ∈ GraphAnalyzer.bridgingList g communities) :
    (assocLookup p.1 communities).isSome = true ∧ 0 < p.2 := by
  unfold GraphAnalyzer.bridgingList at hp
  have hgen : ∀ (l : List Nat) (br : List (String × Nat)),
      (∀ q ∈ br, (assocLookup q.1 communities).isSome = true ∧ 0 < q.2) →
      ∀ q ∈ l.foldl (GraphAnalyzer.bridgeStep g communities) br,
        (assocLookup q.1 communities).isSome = true ∧ 0 < q.2 := by
    intro l
    induction l with
    | nil => intro br hbr q hq; exact hbr q hq
    | cons u l ih =>
      intro br hbr q hq
      rw [List.foldl_cons] at hq
      exact ih _ (fun r hr => bridgeStep_mem g communities br u hbr r hr) q hq
  exact hgen _ [] (by intro q hq; exact absurd hq (List.not_mem_nil q)) p hp

theorem insertByCountDesc_perm (x : String × Nat) (l : List (String × Nat)) :
    List.Perm (GraphAnalyzer.insertByCountDesc x l) (x :: l) := by
  induction l with
  | nil => rfl
  | cons y ys ih =>
    unfold GraphAnalyzer.insertByCountDesc
    split
    · rfl
    · exact ((ih.cons y).trans (List.Perm.swap x y ys))

theorem sortByCountDesc_perm (l : List (String × Nat)) :
    List.Perm (GraphAnalyzer.sortByCountDesc l) l := by
  induction l with
  | nil => rfl
  | cons x xs ih =>
    unfold GraphAnalyzer.sortByCountDesc
    exact (insertByCountDesc_perm x _).trans (ih.cons x)

theorem insertByCountDesc_sorted (x : String × Nat) (l : List (String × Nat))
    (hl : l.Sorted (fun a b => b.2 ≤ a.2)) :
    (GraphAnalyzer.insertByCountDesc x l).Sorted (fun a b => b.2 ≤ a.2) := by
  induction l with
  | nil => simp [GraphAnalyzer.insertByCountDesc]
  | cons y ys ih =>
    unfold GraphAnalyzer.insertByCountDesc
    rw [List.sorted_cons] at hl
    split
    case isTrue hyx =>
      rw [List.sorted_cons]
      refine ⟨?_, List.sorted_cons.mpr hl⟩
      intro b hb
      rcases List.mem_cons.mp hb with h | h
      · rw [h]; exact hyx
      · exact le_trans (hl.1 b h) hyx
    case isFalse hyx =>
      rw [List.sorted_cons]
      refine ⟨?_, ih hl.2⟩
      intro b hb
      have hbmem : b = x ∨ b ∈ ys :=
        (List.Perm.mem_iff (insertByCountDesc_perm x ys)).mp hb
          |> fun h => List.mem_cons.mp h
      rcases hbmem with h | h
      · rw [h]; exact Nat.le_of_lt (Nat.lt_of_not_le hyx)
      · exact hl.1 b h

theorem sortByCountDesc_sorted (l : List (String × Nat)) :
    (GraphAnalyzer.sortByCountDesc l).Sorted (fun a b => b.2 ≤ a.2) := by
  induction l with
  | nil => simp [GraphAnalyzer.sortByCountDesc]
  | cons x xs ih =>
    unfold GraphAnalyzer.sortByCountDesc
    exact insertByCountDesc_sorted x _ ih

/-- C10: in bridging-tie analysis, a vertex whose label is not a key of
the supplied community mapping never appears in the result; an outgoing
edge whose target's label is absent from the mapping is counted as a
cross-community edge of its source; and the returned list has at most 5
entries, is sorted by count descending, and carries only positive
counts. -/
theorem claim_C10 (g : AdjacencyListGraph) (communities : List (String × Nat))
    (lab : String) (hlab : lab ∉ communities.map Prod.fst)
    (w v : Nat) (hw : (assocLookup (g.get_vertex_label w) communities).isSome)
    (hv : v ∈ g.getNeighbors w)
    (hvl : assocLookup (g.get_vertex_label v) communities = none) :
    lab ∉ (GraphAnalyzer.analyze_bridging_ties g communities).map Prod.fst ∧
    (∃ c : Nat, assocLookup (g.get_vertex_label w) communities = some c ∧
      v ∈ (g.getNeighbors w).filter
        (fun x => assocLookup (g.get_vertex_label x) communities ≠ some c)) ∧
    (GraphAnalyzer.analyze_bridging_ties g communities).length ≤ 5 ∧
    (GraphAnalyzer.analyze_bridging_ties g communities).Sorted
      (fun a b => b.2 ≤ a.2) ∧
    (∀ p ∈ GraphAnalyzer.analyze_bridging_ties g communities, 0 < p.2) := by
  have hsubset : ∀ p ∈ GraphAnalyzer.analyze_bridging_ties g communities,
      p ∈ GraphAnalyzer.bridgingList g communities := by
    intro p hp
    unfold GraphAnalyzer.analyze_bridging_ties at hp
    exact (sortByCountDesc_perm _).mem_iff.mp (List.take_subset _ _ hp)
  refine ⟨?_, ?_, ?_, ?_, ?_⟩
  · intro habs
    obtain ⟨p, hp, hpe⟩ := List.mem_map.mp habs
    have := (bridgingList_mem g communities p (hsubset p hp)).1
    rw [hpe, assocLookup_isSome_iff] at this
    exact hlab this
  · obtain ⟨c, hc⟩ := Option.isSome_iff_exists.mp hw
    refine ⟨c, hc, List.mem_filter.mpr ⟨hv, ?_⟩⟩
    simp [hvl]
  · unfold GraphAnalyzer.analyze_bridging_ties
    exact List.length_take_le 5 _
  · unfold GraphAnalyzer.analyze_bridging_ties
    exact (sortByCountDesc_sorted _).sublist (List.take_sublist 5 _)
  · intro p hp
    exact (bridgingList_mem g communities p (hsubset p hp)).2

/-- Witness for C10: the 4-vertex triangle graph with an isolated vertex,
a community map covering only `Node_0` and `Node_1`, skipped vertex label
`"Node_2"`, and the edge `1 → 2` whose target label is unmapped. -/
theorem claim_C10_witness :
    ("Node_2" ∉ ([("Node_0", 0), ("Node_1", 1)] :
        List (String × Nat)).map Prod.fst) ∧
    ((assocLookup ((((((AdjacencyListGraph.create 4).addEdge 0 1).addEdge
        1 2).addEdge 2 0)).get_vertex_label 1)
        [("Node_0", 0), ("Node_1", 1)]).isSome) ∧
    (2 ∈ (((((AdjacencyListGraph.create 4).addEdge 0 1).addEdge
        1 2).addEdge 2 0)).getNeighbors 1) ∧
    (assocLookup ((((((AdjacencyListGraph.create 4).addEdge 0 1).addEdge
        1 2).addEdge 2 0)).get_vertex_label 2)
        [("Node_0", 0), ("Node_1", 1)] = none) ∧
    ("Node_2" ∉ (GraphAnalyzer.analyze_bridging_ties
        ((((AdjacencyListGraph.create 4).addEdge 0 1).addEdge 1 2).addEdge 2 0)
        [("Node_0", 0), ("Node_1", 1)]).map Prod.fst ∧
     (∃ c : Nat, assocLookup ((((((AdjacencyListGraph.create 4).addEdge
          0 1).addEdge 1 2).addEdge 2 0)).get_vertex_label 1)
          [("Node_0", 0), ("Node_1", 1)] = some c ∧
        2 ∈ ((((((AdjacencyListGraph.create 4).addEdge 0 1).addEdge
            1 2).addEdge 2 0)).getNeighbors 1).filter
          (fun x => assocLookup ((((((AdjacencyListGraph.create 4).addEdge
            0 1).addEdge 1 2).addEdge 2 0)).get_vertex_label x)
            [("Node_0", 0), ("Node_1", 1)] ≠ some c)) ∧
     (GraphAnalyzer.analyze_bridging_ties
        ((((AdjacencyListGraph.create 4).addEdge 0 1).addEdge 1 2).addEdge 2 0)
        [("Node_0", 0), ("Node_1", 1)]).length ≤ 5 ∧
     (GraphAnalyzer.analyze_bridging_ties
        ((((AdjacencyListGraph.create 4).addEdge 0 1).addEdge 1 2).addEdge 2 0)
        [("Node_0", 0), ("Node_1", 1)]).Sorted (fun a b => b.2 ≤ a.2) ∧
     (∀ p ∈ GraphAnalyzer.analyze_bridging_ties
        ((((AdjacencyListGraph.create 4).addEdge 0 1).addEdge 1 2).addEdge 2 0)
        [("Node_0", 0), ("Node_1", 1)], 0 < p.2)) :=
  ⟨by decide, by decide, by decide, by decide,
   claim_C10 ((((AdjacencyListGraph.create 4).addEdge 0 1).addEdge 1 2).addEdge
      2 0) [("Node_0", 0), ("Node_1", 1)] "Node_2" (by decide) 1 2 (by decide)
      (by decide) (by decide)⟩

/-! ## C1: the label propagation candidate rule -/

theorem freq_foldl_lookup (xs : List Nat) (acc : List (Nat × Nat)) (l : Nat) :
    assocLookup l
      (xs.foldl (fun f x => assocInsert f x (assocGetD f x 0 + 1)) acc) =
      if l ∈ xs ∨ (assocLookup l acc).isSome = true then
        some (assocGetD acc l 0 + xs.count l)
      else none := by
  induction xs generalizing acc with
  | nil =>
    rw [List.foldl_nil]
    by_cases h : (assocLookup l acc).isSome = true
    · rw [if_pos (Or.inr h)]
      obtain ⟨v, hv⟩ := Option.isSome_iff_exists.mp h
      unfold assocGetD
      rw [hv]
      simp
    · rw [if_neg (by simpa using h)]
      cases hx : assocLookup l acc
      · rfl
      · rw [hx] at h
        simp at h
  | cons x xs ih =>
    rw [List.foldl_cons, ih]
    by_cases hlx : l = x
    · subst hlx
      have h1 : assocLookup l (assocInsert acc l (assocGetD acc l 0 + 1)) =
          some (assocGetD acc l 0 + 1) := assocLookup_insert_self _ _ _
      have h2 : assocGetD (assocInsert acc l (assocGetD acc l 0 + 1)) l 0 =
          assocGetD acc l 0 + 1 := by
        show (assocLookup l (assocInsert acc l (assocGetD acc l 0 + 1))).getD 0 = _
        rw [h1]
        rfl
      rw [if_pos (Or.inr (by rw [h1]; rfl)),
        if_pos (Or.inl (List.mem_cons_self l xs)), h2, List.count_cons_self]
      congr 1
      omega
    · have h1 : assocLookup l (assocInsert acc x (assocGetD acc x 0 + 1)) =
          assocLookup l acc := assocLookup_insert_ne _ _ _ _ hlx
      have h2 : assocGetD (assocInsert acc x (assocGetD acc x 0 + 1)) l 0 =
          assocGetD acc l 0 := by
        show (assocLookup l (assocInsert acc x (assocGetD acc x 0 + 1))).getD 0 = _
        rw [h1]
        rfl
      have hc : (x :: xs).count l = xs.count l := by
        by_cases hxl : x = l
        · exact absurd hxl.symm hlx
        · simp [List.count_cons, hxl]
      by_cases hcond : l ∈ xs ∨ (assocLookup l acc).isSome = true
      · have hcondin : l ∈ xs ∨
            (assocLookup l (assocInsert acc x (assocGetD acc x 0 + 1))).isSome =
              true := by
          rw [h1]
          exact hcond
        have hcondout : l ∈ x :: xs ∨ (assocLookup l acc).isSome = true := by
          rcases hcond with h | h
          · exact Or.inl (List.mem_cons.mpr (Or.inr h))
          · exact Or.inr h
        rw [if_pos hcondin, if_pos hcondout, h2, hc]
      · have hcondin : ¬(l ∈ xs ∨
            (assocLookup l (assocInsert acc x (assocGetD acc x 0 + 1))).isSome =
              true) := by
          rw [h1]
          exact hcond
        have hcondout : ¬(l ∈ x :: xs ∨ (assocLookup l acc).isSome = true) := by
          rintro (h | h)
          · rcases List.mem_cons.mp h with h | h
            · exact hlx h
            · exact hcond (Or.inl h)
          · exact hcond (Or.inr h)
        rw [if_neg hcondin, if_neg hcondout]

theorem freq_keys_nodup (xs : List Nat) (acc : List (Nat × Nat))
    (h : (acc.map Prod.fst).Nodup) :
    (((xs.foldl (fun f x => assocInsert f x (assocGetD f x 0 + 1)) acc)).map
      Prod.fst).Nodup := by
  induction xs generalizing acc with
  | nil => exact h
  | cons x xs ih =>
    rw [List.foldl_cons]
    exact ih _ (assocInsert_keys_nodup _ _ _ h)

theorem assocLookup_eq_some_iff_mem {α β : Type} [DecidableEq α]
    (l : List (α × β)) (hnd : (l.map Prod.fst).Nodup) (k : α) (v : β) :
    assocLookup k l = some v ↔ (k, v) ∈ l := by
  induction l with
  | nil => simp [assocLookup]
  | cons p rest ih =>
    rw [assocLookup_cons, List.map_cons, List.nodup_cons] at *
    by_cases hp : p.1 = k
    · rw [if_pos hp]
      constructor
      · intro h
        injection h with h2
        have hpe : (k, v) = p := by
          rw [← hp, ← h2]
        rw [hpe]
        exact List.mem_cons_self p rest
      · intro h
        rcases List.mem_cons.mp h with h | h
        · rw [← h]
        · exfalso
          have hk : k ∈ rest.map Prod.fst :=
            List.mem_map.mpr ⟨(k, v), h, rfl⟩
          rw [← hp] at hk
          exact hnd.1 hk
    · rw [if_neg hp]
      rw [ih hnd.2]
      constructor
      · exact fun h => List.mem_cons.mpr (Or.inr h)
      · intro h
        rcases List.mem_cons.mp h with h | h
        · exfalso
          have hk : p.1 = k := by rw [← h]
          exact hp hk
        · exact h

theorem foldl_max_spec (l : List Nat) (a : Nat) :
    a ≤ l.foldl Nat.max a ∧ (∀ x ∈ l, x ≤ l.foldl Nat.max a) ∧
      (l.foldl Nat.max a = a ∨ l.foldl Nat.max a ∈ l) := by
  induction l generalizing a with
  | nil => exact ⟨Nat.le_refl a, by intro x hx; exact absurd hx (List.not_mem_nil x),
      Or.inl rfl⟩
  | cons x xs ih =>
    rw [List.foldl_cons]
    obtain ⟨h1, h2, h3⟩ := ih (Nat.max a x)
    refine ⟨Nat.le_trans (Nat.le_max_left a x) h1, ?_, ?_⟩
    · intro y hy
      rcases List.mem_cons.mp hy with h | h
      · rw [h]; exact Nat.le_trans (Nat.le_max_right a x) h1
      · exact h2 y h
    · rcases h3 with h | h
      · rcases Nat.le_total a x with hax | hax
        · have hm : Nat.max a x = x := by
            show max a x = x
            exact Nat.max_eq_right hax
          exact Or.inr (List.mem_cons.mpr (Or.inl (h.trans hm)))
        · have hm : Nat.max a x = a := by
            show max a x = a
            exact Nat.max_eq_left hax
          exact Or.inl (h.trans hm)
      · exact Or.inr (List.mem_cons.mpr (Or.inr h))

theorem count_map_eq_filter_length (xs : List Nat) (f : Nat → Nat) (l : Nat) :
    (xs.map f).count l = (xs.filter (fun v => f v = l)).length := by
  induction xs with
  | nil => rfl
  | cons x xs ih =>
    by_cases h : f x = l
    · simp [List.count_cons, List.filter_cons, h, ih]
    · simp [List.count_cons, List.filter_cons, h,
        fun hh : l = f x => h hh.symm, ih]

theorem labelCount_eq_count (g : AdjacencyListGraph) (labels : List Nat)
    (i l : Nat) :
    labelCount g labels i l =
      ((GraphAnalyzer.lpNeighbors g i).map (fun v => labels.getD v 0)).count l := by
  rw [count_map_eq_filter_length]
  unfold labelCount GraphAnalyzer.lpNeighbors
  rw [List.filter_append, List.length_append]

theorem lpFreq_lookup (labels : List Nat) (nbrs : List Nat) (l : Nat) :
    assocLookup l (GraphAnalyzer.lpFreq labels nbrs) =
      if 0 < (nbrs.map (fun v => labels.getD v 0)).count l then
        some ((nbrs.map (fun v => labels.getD v 0)).count l)
      else none := by
  unfold GraphAnalyzer.lpFreq
  rw [freq_foldl_lookup]
  by_cases h : l ∈ nbrs.map (fun v => labels.getD v 0)
  · rw [if_pos (Or.inl h), if_pos (List.count_pos_iff.mpr h)]
    unfold assocGetD
    simp [assocLookup]
  · rw [if_neg ?_, if_neg ?_]
    · rw [List.count_pos_iff]
      simpa using h
    · rintro (hh | hh)
      · exact h hh
      · simp [assocLookup] at hh

theorem lpFreq_mem_count (labels : List Nat) (nbrs : List Nat)
    (p : Nat × Nat) (hp : p ∈ GraphAnalyzer.lpFreq labels nbrs) :
    p.2 = (nbrs.map (fun v => labels.getD v 0)).count p.1 ∧
      p.1 ∈ nbrs.map (fun v => labels.getD v 0) := by
  have hnd : ((GraphAnalyzer.lpFreq labels nbrs).map Prod.fst).Nodup :=
    freq_keys_nodup _ [] List.nodup_nil
  have hl : assocLookup p.1 (GraphAnalyzer.lpFreq labels nbrs) = some p.2 :=
    (assocLookup_eq_some_iff_mem _ hnd p.1 p.2).mpr (by
      show (p.1, p.2) ∈ _
      simpa using hp)
  rw [lpFreq_lookup] at hl
  by_cases h : 0 < (nbrs.map (fun v => labels.getD v 0)).count p.1
  · rw [if_pos h] at hl
    injection hl with h2
    exact ⟨h2.symm, List.count_pos_iff.mp h⟩
  · rw [if_neg h] at hl
    cases hl

theorem lpCandidates_iff (g : AdjacencyListGraph) (labels : List Nat) (i : Nat)
    (l : Nat) :
    l ∈ GraphAnalyzer.lpCandidates g labels i ↔
      (l ∈ (GraphAnalyzer.lpNeighbors g i).map (fun v => labels.getD v 0) ∧
       ∀ m : Nat, labelCount g labels i m ≤ labelCount g labels i l) := by
  unfold GraphAnalyzer.lpCandidates
  dsimp only
  have hnd : ((GraphAnalyzer.lpFreq labels (GraphAnalyzer.lpNeighbors g i)).map
      Prod.fst).Nodup := freq_keys_nodup _ [] List.nodup_nil
  have hmax := foldl_max_spec ((GraphAnalyzer.lpFreq labels
    (GraphAnalyzer.lpNeighbors g i)).map Prod.snd) 0
  constructor
  · intro hl
    obtain ⟨p, hpf, hpe⟩ := List.mem_map.mp hl
    have hpmem := List.mem_of_mem_filter hpf
    have hpeq : p.2 = GraphAnalyzer.lpMaxFreq
        (GraphAnalyzer.lpFreq labels (GraphAnalyzer.lpNeighbors g i)) := by
      have := List.of_mem_filter hpf
      simpa using this
    obtain ⟨hcount, hmem⟩ := lpFreq_mem_count labels _ p hpmem
    rw [← hpe]
    refine ⟨hmem, ?_⟩
    intro m
    rw [labelCount_eq_count, labelCount_eq_count, ← hcount]
    by_cases hm : m ∈ (GraphAnalyzer.lpNeighbors g i).map
      (fun v => labels.getD v 0)
    · have hlm : assocLookup m (GraphAnalyzer.lpFreq labels
          (GraphAnalyzer.lpNeighbors g i)) = some (((GraphAnalyzer.lpNeighbors
            g i).map (fun v => labels.getD v 0)).count m) := by
        rw [lpFreq_lookup, if_pos (List.count_pos_iff.mpr hm)]
      have hpm := (assocLookup_eq_some_iff_mem _ hnd _ _).mp hlm
      have := hmax.2.1 _ (List.mem_map.mpr ⟨_, hpm, rfl⟩)
      rw [hpeq]
      exact this
    · rw [List.count_eq_zero.mpr hm]
      exact Nat.zero_le _
  · rintro ⟨hmem, hall⟩
    have hpos : 0 < ((GraphAnalyzer.lpNeighbors g i).map
        (fun v => labels.getD v 0)).count l := List.count_pos_iff.mpr hmem
    have hlk : assocLookup l (GraphAnalyzer.lpFreq labels
        (GraphAnalyzer.lpNeighbors g i)) = some (((GraphAnalyzer.lpNeighbors
          g i).map (fun v => labels.getD v 0)).count l) := by
      rw [lpFreq_lookup, if_pos hpos]
    have hpm := (assocLookup_eq_some_iff_mem _ hnd _ _).mp hlk
    have hle : ((GraphAnalyzer.lpNeighbors g i).map
        (fun v => labels.getD v 0)).count l ≤ GraphAnalyzer.lpMaxFreq
          (GraphAnalyzer.lpFreq labels (GraphAnalyzer.lpNeighbors g i)) :=
      hmax.2.1 _ (List.mem_map.mpr ⟨_, hpm, rfl⟩)
    have hge : GraphAnalyzer.lpMaxFreq (GraphAnalyzer.lpFreq labels
        (GraphAnalyzer.lpNeighbors g i)) ≤ ((GraphAnalyzer.lpNeighbors g i).map
          (fun v => labels.getD v 0)).count l := by
      rcases hmax.2.2 with h | h
      · rw [GraphAnalyzer.lpMaxFreq, h]
        exact Nat.zero_le _
      · obtain ⟨q, hqf, hqe⟩ := List.mem_map.mp h
        obtain ⟨hqc, _⟩ := lpFreq_mem_count labels _ q hqf
        rw [GraphAnalyzer.lpMaxFreq] at *
        rw [← hqe, hqc]
        have := hall q.1
        rw [labelCount_eq_count, labelCount_eq_count] at this
        exact this
    have heq : ((GraphAnalyzer.lpNeighbors g i).map
        (fun v => labels.getD v 0)).count l = GraphAnalyzer.lpMaxFreq
          (GraphAnalyzer.lpFreq labels (GraphAnalyzer.lpNeighbors g i)) :=
      Nat.le_antisymm hle hge
    refine List.mem_map.mpr ⟨(l, ((GraphAnalyzer.lpNeighbors g i).map
      (fun v => labels.getD v 0)).count l), ?_, rfl⟩
    refine List.mem_filter.mpr ⟨hpm, ?_⟩
    simpa using heq

theorem lpCandidates_ne_nil (g : AdjacencyListGraph) (labels : List Nat)
    (i : Nat) (h : GraphAnalyzer.lpNeighbors g i ≠ []) :
    GraphAnalyzer.lpCandidates g labels i ≠ [] := by
  obtain ⟨v, nbrs, hv⟩ := List.exists_cons_of_ne_nil h
  have hmem : labels.getD v 0 ∈ (GraphAnalyzer.lpNeighbors g i).map
      (fun v => labels.getD v 0) := by
    rw [hv]
    exact List.mem_map.mpr ⟨v, List.mem_cons_self v nbrs, rfl⟩
  have hL : ((GraphAnalyzer.lpNeighbors g i).map
      (fun v => labels.getD v 0)) ≠ [] := by
    intro habs
    rw [habs] at hmem
    exact absurd hmem (List.not_mem_nil _)
  obtain ⟨lstar, hlstar⟩ : ∃ lstar,
      lstar ∈ GraphAnalyzer.lpCandidates g labels i := by
    have hmax := foldl_max_spec ((GraphAnalyzer.lpFreq labels
      (GraphAnalyzer.lpNeighbors g i)).map Prod.snd) 0
    rcases hmax.2.2 with hcase | hcase
    · exfalso
      have hlk : assocLookup (labels.getD v 0) (GraphAnalyzer.lpFreq labels
          (GraphAnalyzer.lpNeighbors g i)) = some (((GraphAnalyzer.lpNeighbors
            g i).map (fun w => labels.getD w 0)).count (labels.getD v 0)) := by
        rw [lpFreq_lookup, if_pos (List.count_pos_iff.mpr hmem)]
      have hnd : ((GraphAnalyzer.lpFreq labels
          (GraphAnalyzer.lpNeighbors g i)).map Prod.fst).Nodup :=
        freq_keys_nodup _ [] List.nodup_nil
      have hpm := (assocLookup_eq_some_iff_mem _ hnd _ _).mp hlk
      have hle := hmax.2.1 _ (List.mem_map.mpr ⟨_, hpm, rfl⟩)
      rw [hcase] at hle
      have hpos := List.count_pos_iff.mpr hmem
      omega
    · obtain ⟨q, hqf, hqe⟩ := List.mem_map.mp hcase
      obtain ⟨hqc, hqm⟩ := lpFreq_mem_count labels _ q hqf
      refine ⟨q.1, (lpCandidates_iff g labels i q.1).mpr ⟨hqm, ?_⟩⟩
      intro m
      rw [labelCount_eq_count, labelCount_eq_count, ← hqc]
      by_cases hm : m ∈ (GraphAnalyzer.lpNeighbors g i).map
        (fun w => labels.getD w 0)
      · have hnd : ((GraphAnalyzer.lpFreq labels
            (GraphAnalyzer.lpNeighbors g i)).map Prod.fst).Nodup :=
          freq_keys_nodup _ [] List.nodup_nil
        have hlk : assocLookup m (GraphAnalyzer.lpFreq labels
            (GraphAnalyzer.lpNeighbors g i)) = some (((GraphAnalyzer.lpNeighbors
              g i).map (fun w => labels.getD w 0)).count m) := by
          rw [lpFreq_lookup, if_pos (List.count_pos_iff.mpr hm)]
        have hpm := (assocLookup_eq_some_iff_mem _ hnd _ _).mp hlk
        have hle := hmax.2.1 _ (List.mem_map.mpr ⟨_, hpm, rfl⟩)
        exact le_trans hle (le_of_eq hqe.symm)
      · rw [List.count_eq_zero.mpr hm]
        exact Nat.zero_le _
  intro habs
  rw [habs] at hlstar
  exact absurd hlstar (List.not_mem_nil _)

/-- C1 (amended): in label propagation the candidate label for a visited
vertex `i` is drawn from the labels of maximum frequency over the
neighbor LIST `successors ++ predecessors`, in which each successor
contributes its label once and each predecessor contributes its label
once — so a vertex that is both a successor and a predecessor of `i`
contributes its label twice.  The membership characterization and the
single-visit update rule are stated together. -/
theorem claim_C1 (g : AdjacencyListGraph) (labels : List Nat) (i : Nat)
    (pick : Nat → Nat) (h : GraphAnalyzer.lpNeighbors g i ≠ []) :
    (∀ l : Nat, l ∈ GraphAnalyzer.lpCandidates g labels i ↔
      (l ∈ (GraphAnalyzer.lpNeighbors g i).map (fun v => labels.getD v 0) ∧
       ∀ m : Nat, labelCount g labels i m ≤ labelCount g labels i l)) ∧
    (∃ nl ∈ GraphAnalyzer.lpCandidates g labels i,
      (GraphAnalyzer.lpRound g [i] pick labels).1 =
        if labels.getD i 0 ≠ nl then labels.set i nl else labels) := by
  constructor
  · exact lpCandidates_iff g labels i
  · have hcand := lpCandidates_ne_nil g labels i h
    have hlen : 0 < (GraphAnalyzer.lpCandidates g labels i).length :=
      List.length_pos.mpr hcand
    have hidx : pick i % (GraphAnalyzer.lpCandidates g labels i).length <
        (GraphAnalyzer.lpCandidates g labels i).length :=
      Nat.mod_lt _ hlen
    refine ⟨(GraphAnalyzer.lpCandidates g labels i).getD
      (pick i % (GraphAnalyzer.lpCandidates g labels i).length) 0, ?_, ?_⟩
    · have : (GraphAnalyzer.lpCandidates g labels i).getD
          (pick i % (GraphAnalyzer.lpCandidates g labels i).length) 0 =
          (GraphAnalyzer.lpCandidates g labels i)[pick i %
            (GraphAnalyzer.lpCandidates g labels i).length] := by
        simp [List.getD_eq_getElem?_getD, List.getElem?_eq_getElem hidx]
      rw [this]
      exact (GraphAnalyzer.lpCandidates g labels i).getElem_mem hidx
    · unfold GraphAnalyzer.lpRound
      rw [List.foldl_cons, List.foldl_nil]
      rw [if_neg (by simpa using h)]
      dsimp only
      by_cases hne : labels.getD i 0 ≠ (GraphAnalyzer.lpCandidates g
          labels i).getD (pick i % (GraphAnalyzer.lpCandidates g
            labels i).length) 0
      · rw [if_pos (by simpa using hne), if_pos hne]
      · rw [if_neg (by simpa using hne), if_neg hne]

/-- Witness for C1 (amended) on `gLP` at vertex 0 with the initial
labels. -/
theorem claim_C1_witness :
    GraphAnalyzer.lpNeighbors gLP 0 ≠ [] ∧
    ((∀ l : Nat, l ∈ GraphAnalyzer.lpCandidates gLP [0, 1, 2, 3] 0 ↔
      (l ∈ (GraphAnalyzer.lpNeighbors gLP 0).map
        (fun v => ([0, 1, 2, 3] : List Nat).getD v 0) ∧
       ∀ m : Nat, labelCount gLP [0, 1, 2, 3] 0 m ≤
         labelCount gLP [0, 1, 2, 3] 0 l)) ∧
    (∃ nl ∈ GraphAnalyzer.lpCandidates gLP [0, 1, 2, 3] 0,
      (GraphAnalyzer.lpRound gLP [0] (fun _ => 0) [0, 1, 2, 3]).1 =
        if ([0, 1, 2, 3] : List Nat).getD 0 0 ≠ nl then
          ([0, 1, 2, 3] : List Nat).set 0 nl
        else [0, 1, 2, 3])) :=
  ⟨by decide, claim_C1 gLP [0, 1, 2, 3] 0 (fun _ => 0) (by decide)⟩

/-- C1 counterexample: one actual round of label propagation on `gLP`
with visit order `[3, 0, 1, 2]` and tie-break oracle `pickLP`.  After
vertex 3 adopts label 2 the state is `[0, 1, 2, 2]`; the code then
assigns label 1 to vertex 0 (possible because the bidirectional neighbor
1 is counted twice, tying it with label 2), yet the claim's
set-based rule admits only label 2 there — label 1 is not among its
candidates. -/
theorem claim_C1_counterexample :
    (GraphAnalyzer.lpRound gLP [3] pickLP [0, 1, 2, 3]).1 = [0, 1, 2, 2] ∧
    (GraphAnalyzer.lpRound gLP [3, 0, 1, 2] pickLP [0, 1, 2, 3]).1.getD 0 0
      = 1 ∧
    GraphAnalyzer.lpCandidates gLP [0, 1, 2, 2] 0 = [1, 2] ∧
    lpCandidatesSpec gLP [0, 1, 2, 2] 0 = [2] ∧
    (1 : Nat) ∉ lpCandidatesSpec gLP [0, 1, 2, 2] 0 := by decide

/-! ## C5: betweenness accumulation and normalization -/

theorem brandesAccum_cons (P : List (List Nat)) (sigma : List ℚ) (s w : Nat)
    (ws : List Nat) (delta cb : List ℚ) :
    GraphAnalyzer.brandesAccum P sigma s (w :: ws) delta cb =
      GraphAnalyzer.brandesAccum P sigma s ws
        (GraphAnalyzer.brandesDeltaStep P sigma w delta)
        (if w ≠ s then
          cb.set w (cb.getD w 0 +
            (GraphAnalyzer.brandesDeltaStep P sigma w delta).getD w 0)
        else cb) := rfl

theorem brandesAccum_cb_length (P : List (List Nat)) (sigma : List ℚ)
    (s : Nat) (ws : List Nat) :
    ∀ (delta cb : List ℚ),
    ((GraphAnalyzer.brandesAccum P sigma s ws delta cb).2).length =
      cb.length := by
  induction ws with
  | nil => intro delta cb; rfl
  | cons w ws ih =>
    intro delta cb
    rw [brandesAccum_cons, ih]
    by_cases hws : w ≠ s
    · rw [if_pos hws, List.length_set]
    · rw [if_neg hws]

theorem brandesAccum_cb_s (P : List (List Nat)) (sigma : List ℚ) (s : Nat)
    (ws : List Nat) :
    ∀ (delta cb : List ℚ), cb.getD s 0 = 0 →
    ((GraphAnalyzer.brandesAccum P sigma s ws delta cb).2).getD s 0 = 0 := by
  induction ws with
  | nil => intro delta cb hcb; exact hcb
  | cons w ws ih =>
    intro delta cb hcb
    rw [brandesAccum_cons]
    apply ih
    by_cases hws : w ≠ s
    · rw [if_pos hws, listGetD_set_ne _ _ _ _ _ hws]
      exact hcb
    · rw [if_neg hws]
      exact hcb

theorem brandesAccum_cb_linear (P : List (List Nat)) (sigma : List ℚ)
    (s : Nat) (n : Nat) (v : Nat) (hv : v < n) (ws : List Nat)
    (hws : ∀ w ∈ ws, w < n) :
    ∀ (delta cb : List ℚ), cb.length = n →
    ((GraphAnalyzer.brandesAccum P sigma s ws delta cb).2).getD v 0 =
      cb.getD v 0 +
      ((GraphAnalyzer.brandesAccum P sigma s ws delta
        (List.replicate n 0)).2).getD v 0 := by
  induction ws with
  | nil =>
    intro delta cb hcb
    show cb.getD v 0 = cb.getD v 0 + (List.replicate n (0 : ℚ)).getD v 0
    rw [listGetD_replicate, if_pos hv, add_zero]
  | cons w ws ih =>
    intro delta cb hcb
    have hw : w < n := hws w (List.mem_cons_self w ws)
    have hws' : ∀ x ∈ ws, x < n :=
      fun x hx => hws x (List.mem_cons.mpr (Or.inr hx))
    rw [brandesAccum_cons, brandesAccum_cons]
    have hlen1 :
        (if w ≠ s then
          cb.set w (cb.getD w 0 +
            (GraphAnalyzer.brandesDeltaStep P sigma w delta).getD w 0)
        else cb).length = n := by
      by_cases hws2 : w ≠ s
      · rw [if_pos hws2, List.length_set]; exact hcb
      · rw [if_neg hws2]; exact hcb
    have hlen2 :
        (if w ≠ s then
          (List.replicate n (0 : ℚ)).set w ((List.replicate n (0 : ℚ)).getD w 0 +
            (GraphAnalyzer.brandesDeltaStep P sigma w delta).getD w 0)
        else List.replicate n (0 : ℚ)).length = n := by
      by_cases hws2 : w ≠ s
      · rw [if_pos hws2, List.length_set, List.length_replicate]
      · rw [if_neg hws2, List.length_replicate]
    rw [ih hws' _ _ hlen1, ih hws' _ _ hlen2]
    have hkey :
        (if w ≠ s then
          cb.set w (cb.getD w 0 +
            (GraphAnalyzer.brandesDeltaStep P sigma w delta).getD w 0)
        else cb).getD v 0 =
        cb.getD v 0 +
        (if w ≠ s then
          (List.replicate n (0 : ℚ)).set w ((List.replicate n (0 : ℚ)).getD w 0 +
            (GraphAnalyzer.brandesDeltaStep P sigma w delta).getD w 0)
        else List.replicate n (0 : ℚ)).getD v 0 := by
      by_cases hws2 : w ≠ s
      · rw [if_pos hws2, if_pos hws2]
        by_cases hvw : v = w
        · subst hvw
          rw [listGetD_set_self _ _ _ _ (by rw [hcb]; exact hv),
            listGetD_set_self _ _ _ _ (by rw [List.length_replicate]; exact hv),
            listGetD_replicate, if_pos hv, zero_add]
        · rw [listGetD_set_ne _ _ _ _ _ (fun h => hvw h.symm),
            listGetD_set_ne _ _ _ _ _ (fun h => hvw h.symm),
            listGetD_replicate, if_pos hv, add_zero]
      · rw [if_neg hws2, if_neg hws2, listGetD_replicate, if_pos hv, add_zero]
    rw [hkey, add_assoc]

theorem brandesVisitStep_S (g : AdjacencyListGraph) (v : Nat)
    (st : GraphAnalyzer.BrandesState) (w : Nat) :
    (GraphAnalyzer.brandesVisitStep g v st w).S = st.S := by
  unfold GraphAnalyzer.brandesVisitStep
  dsimp only
  split
  · split <;> rfl
  · split <;> rfl

theorem brandesVisitStep_Q (g : AdjacencyListGraph) (v : Nat)
    (st : GraphAnalyzer.BrandesState) (w : Nat) :
    ∀ x ∈ (GraphAnalyzer.brandesVisitStep g v st w).Q, x ∈ st.Q ∨ x = w := by
  unfold GraphAnalyzer.brandesVisitStep
  dsimp only
  by_cases h1 : st.d.getD w 0 < 0
  · rw [if_pos h1]
    intro x hx
    by_cases h2 : ({ st with
        Q := st.Q ++ [w]
        d := st.d.set w (st.d.getD v 0 + 1) } :
          GraphAnalyzer.BrandesState).d.getD w 0 =
      ({ st with
        Q := st.Q ++ [w]
        d := st.d.set w (st.d.getD v 0 + 1) } :
          GraphAnalyzer.BrandesState).d.getD v 0 + 1
    · rw [if_pos h2] at hx
      rcases List.mem_append.mp hx with h | h
      · exact Or.inl h
      · right; simpa using h
    · rw [if_neg h2] at hx
      rcases List.mem_append.mp hx with h | h
      · exact Or.inl h
      · right; simpa using h
  · rw [if_neg h1]
    intro x hx
    by_cases h2 : st.d.getD w 0 = st.d.getD v 0 + 1
    · rw [if_pos h2] at hx
      exact Or.inl hx
    · rw [if_neg h2] at hx
      exact Or.inl hx

theorem brandesVisit_fold_S (g : AdjacencyListGraph) (v : Nat)
    (l : List Nat) :
    ∀ st : GraphAnalyzer.BrandesState,
      (l.foldl (GraphAnalyzer.brandesVisitStep g v) st).S = st.S := by
  induction l with
  | nil => intro st; rfl
  | cons w ws ih =>
    intro st
    rw [List.foldl_cons, ih, brandesVisitStep_S]

theorem brandesVisit_fold_Q (g : AdjacencyListGraph) (v : Nat) (n : Nat)
    (l : List Nat) (hnb : ∀ w ∈ l, w < n) :
    ∀ st : GraphAnalyzer.BrandesState, (∀ x ∈ st.Q, x < n) →
      ∀ x ∈ (l.foldl (GraphAnalyzer.brandesVisitStep g v) st).Q, x < n := by
  induction l with
  | nil => intro st hQ x hx; exact hQ x hx
  | cons w ws ih =>
    intro st hQ x hx
    rw [List.foldl_cons] at hx
    refine ih (fun y hy => hnb y (List.mem_cons.mpr (Or.inr hy))) _ ?_ x hx
    intro y hy
    rcases brandesVisitStep_Q g v st w y hy with h | h
    · exact hQ y h
    · rw [h]; exact hnb w (List.mem_cons_self w ws)

theorem getNeighbors_mem_lt (g : AdjacencyListGraph) (hWF : g.WF) (v : Nat) :
    ∀ w ∈ g.getNeighbors v, w < g.num_vertices := by
  intro w hw
  obtain ⟨p, hp, hpe⟩ := List.mem_map.mp hw
  rw [← hpe]
  exact (g.row_wf hWF v).2 p hp

theorem brandesLoop_S_mem (g : AdjacencyListGraph) (hWF : g.WF) :
    ∀ (fuel : Nat) (st : GraphAnalyzer.BrandesState),
      (∀ x ∈ st.Q, x < g.num_vertices) → (∀ x ∈ st.S, x < g.num_vertices) →
      ∀ x ∈ (GraphAnalyzer.brandesLoop g fuel st).S, x < g.num_vertices := by
  intro fuel
  induction fuel with
  | zero => intro st hQ hS x hx; exact hS x hx
  | succ fuel ih =>
    intro st hQ hS x hx
    unfold GraphAnalyzer.brandesLoop at hx
    cases hq : st.Q with
    | nil =>
      rw [hq] at hx
      exact hS x hx
    | cons v rest =>
      rw [hq] at hx
      have hv : v < g.num_vertices := hQ v (by rw [hq]; exact List.mem_cons_self v rest)
      refine ih _ ?_ ?_ x hx
      · show ∀ y ∈ (GraphAnalyzer.brandesVisit g v
          { st with S := st.S ++ [v], Q := rest }).Q, y < g.num_vertices
        unfold GraphAnalyzer.brandesVisit
        refine brandesVisit_fold_Q g v g.num_vertices _
          (getNeighbors_mem_lt g hWF v) _ ?_
        intro y hy
        exact hQ y (by rw [hq]; exact List.mem_cons.mpr (Or.inr hy))
      · show ∀ y ∈ (GraphAnalyzer.brandesVisit g v
          { st with S := st.S ++ [v], Q := rest }).S, y < g.num_vertices
        unfold GraphAnalyzer.brandesVisit
        rw [brandesVisit_fold_S]
        intro y hy
        rcases List.mem_append.mp hy with h | h
        · exact hS y h
        · have : y = v := by simpa using h
          rw [this]; exact hv

theorem brandesBFS_S_mem (g : AdjacencyListGraph) (hWF : g.WF) (s : Nat)
    (hs : s < g.num_vertices) :
    ∀ x ∈ (GraphAnalyzer.brandesBFS g s).S, x < g.num_vertices := by
  unfold GraphAnalyzer.brandesBFS
  dsimp only
  refine brandesLoop_S_mem g hWF _ _ ?_ ?_
  · intro x hx
    have : x = s := by simpa using hx
    rw [this]; exact hs
  · intro x hx
    exact absurd hx (List.not_mem_nil x)

theorem brandesSource_getD (g : AdjacencyListGraph) (hWF : g.WF)
    (cb : List ℚ) (s v : Nat) (hs : s < g.num_vertices)
    (hv : v < g.num_vertices) (hcb : cb.length = g.num_vertices) :
    (GraphAnalyzer.brandesSource g cb s).getD v 0 =
      cb.getD v 0 + (GraphAnalyzer.brandesCb g s).getD v 0 := by
  unfold GraphAnalyzer.brandesSource GraphAnalyzer.brandesCb
  dsimp only
  refine brandesAccum_cb_linear _ _ s g.num_vertices v hv _ ?_ _ cb hcb
  intro w hw
  exact brandesBFS_S_mem g hWF s hs w (List.mem_reverse.mp hw)

theorem brandesSource_length (g : AdjacencyListGraph) (cb : List ℚ) (s : Nat) :
    (GraphAnalyzer.brandesSource g cb s).length = cb.length := by
  unfold GraphAnalyzer.brandesSource
  dsimp only
  rw [brandesAccum_cb_length]

theorem betweennessRaw_fold (g : AdjacencyListGraph) (hWF : g.WF) (v : Nat)
    (hv : v < g.num_vertices) (l : List Nat)
    (hl : ∀ s ∈ l, s < g.num_vertices) :
    ∀ cb : List ℚ, cb.length = g.num_vertices →
    (l.foldl (GraphAnalyzer.brandesSource g) cb).getD v 0 =
      cb.getD v 0 +
      (l.map (fun s => (GraphAnalyzer.brandesCb g s).getD v 0)).sum := by
  induction l with
  | nil =>
    intro cb hcb
    show cb.getD v 0 = cb.getD v 0 + ([] : List ℚ).sum
    rw [List.sum_nil, add_zero]
  | cons s l ih =>
    intro cb hcb
    rw [List.foldl_cons, List.map_cons, List.sum_cons]
    rw [ih (fun x hx => hl x (List.mem_cons.mpr (Or.inr hx))) _
      (by rw [brandesSource_length]; exact hcb)]
    rw [brandesSource_getD g hWF cb s v (hl s (List.mem_cons_self s l)) hv hcb]
    ring

theorem betweennessRaw_getD (g : AdjacencyListGraph) (hWF : g.WF) (v : Nat)
    (hv : v < g.num_vertices) :
    (GraphAnalyzer.betweennessRaw g).getD v 0 =
      ((List.range g.num_vertices).map
        (fun s => (GraphAnalyzer.brandesCb g s).getD v 0)).sum := by
  unfold GraphAnalyzer.betweennessRaw
  rw [betweennessRaw_fold g hWF v hv _ (fun s hs => List.mem_range.mp hs) _
    (by rw [List.length_replicate])]
  rw [listGetD_replicate, if_pos hv, zero_add]

/-- C5: betweenness centrality accumulates, over every source `s`, the
per-source Brandes dependency contribution into each vertex `w ≠ s`
(nothing is ever accumulated into `w = s`), and after all sources divides
every vertex's raw score by `(n-1)(n-2)` when that product is positive;
in particular for `n < 3` every reported score is 0. -/
theorem claim_C5 (g : AdjacencyListGraph) (hWF : g.WF) (v : Nat)
    (hv : v < g.num_vertices) :
    (GraphAnalyzer.betweennessVal g v =
      if 0 < ((g.num_vertices : Int) - 1) * ((g.num_vertices : Int) - 2) then
        ((List.range g.num_vertices).map
          (fun s => (GraphAnalyzer.brandesCb g s).getD v 0)).sum /
          ((((g.num_vertices : Int) - 1) * ((g.num_vertices : Int) - 2) :
            Int) : ℚ)
      else 0) ∧
    (∀ s : Nat, (GraphAnalyzer.brandesCb g s).getD s 0 = 0) ∧
    (g.num_vertices < 3 → GraphAnalyzer.betweennessVal g v = 0) := by
  refine ⟨?_, ?_, ?_⟩
  · unfold GraphAnalyzer.betweennessVal
    dsimp only
    by_cases hc : 0 < ((g.num_vertices : Int) - 1) * ((g.num_vertices : Int) - 2)
    · rw [if_pos hc, if_pos hc, betweennessRaw_getD g hWF v hv]
    · rw [if_neg hc, if_neg hc]
  · intro s
    unfold GraphAnalyzer.brandesCb
    dsimp only
    apply brandesAccum_cb_s
    rw [listGetD_replicate]
    split <;> rfl
  · intro h3
    unfold GraphAnalyzer.betweennessVal
    dsimp only
    have hn12 : g.num_vertices = 1 ∨ g.num_vertices = 2 := by omega
    have hcond :
        ¬(0 < ((g.num_vertices : Int) - 1) * ((g.num_vertices : Int) - 2)) := by
      rcases hn12 with h | h <;> rw [h] <;> norm_num
    rw [if_neg hcond]

/-- Witness for C5 on the 4-vertex graph `gLP` at vertex 0. -/
theorem claim_C5_witness :
    gLP.WF ∧ 0 < gLP.num_vertices ∧
    ((GraphAnalyzer.betweennessVal gLP 0 =
      if 0 < ((gLP.num_vertices : Int) - 1) * ((gLP.num_vertices : Int) - 2) then
        ((List.range gLP.num_vertices).map
          (fun s => (GraphAnalyzer.brandesCb gLP s).getD 0 0)).sum /
          ((((gLP.num_vertices : Int) - 1) * ((gLP.num_vertices : Int) - 2) :
            Int) : ℚ)
      else 0) ∧
    (∀ s : Nat, (GraphAnalyzer.brandesCb gLP s).getD s 0 = 0) ∧
    (gLP.num_vertices < 3 → GraphAnalyzer.betweennessVal gLP 0 = 0)) :=
  ⟨by decide, by decide, claim_C5 gLP (by decide) 0 (by decide)⟩

/-- C9: every label-keyed analysis output (degree, closeness, betweenness,
PageRank, community detection) is a dictionary keyed by
`get_vertex_label(i)`, so when two distinct vertices share a label the
entries collapse: looking up the shared label returns the value of the
highest matching vertex index, and each returned mapping has strictly
fewer entries than the vertex count. -/
theorem claim_C9 (g : AdjacencyListGraph)
    (hcol : ∃ i j : Nat, i < g.num_vertices ∧ j < g.num_vertices ∧ i ≠ j ∧
      g.get_vertex_label i = g.get_vertex_label j) :
    (∀ i : Nat, i < g.num_vertices →
      ∃ j : Nat, lastWithLabel g (g.get_vertex_label i) = some j ∧
        i ≤ j ∧ j < g.num_vertices ∧
        g.get_vertex_label j = g.get_vertex_label i ∧
        (∀ j' : Nat, j < j' → j' < g.num_vertices →
          g.get_vertex_label j' ≠ g.get_vertex_label i) ∧
        assocLookup (g.get_vertex_label i) (GraphAnalyzer.degree_centrality g) =
          some (g.getVertexInDegree j, g.getVertexOutDegree j) ∧
        assocLookup (g.get_vertex_label i) (GraphAnalyzer.closeness_centrality g) =
          some (GraphAnalyzer.closenessOf g j) ∧
        assocLookup (g.get_vertex_label i) (GraphAnalyzer.betweenness_centrality g) =
          some (GraphAnalyzer.betweennessVal g j) ∧
        (∀ (d : ℚ) (iters : Nat),
          assocLookup (g.get_vertex_label i) (GraphAnalyzer.pagerank g d iters) =
            some ((GraphAnalyzer.pagerankVec g d iters).getD j 0)) ∧
        (∀ (orders : Nat → List Nat) (picks : Nat → Nat → Nat),
          assocLookup (g.get_vertex_label i)
            (GraphAnalyzer.detect_communities_label_propagation g orders picks) =
            some ((GraphAnalyzer.lpFinal g orders picks).getD j 0))) ∧
    (GraphAnalyzer.degree_centrality g).length < g.num_vertices ∧
    (GraphAnalyzer.closeness_centrality g).length < g.num_vertices ∧
    (GraphAnalyzer.betweenness_centrality g).length < g.num_vertices ∧
    (∀ (d : ℚ) (iters : Nat),
      (GraphAnalyzer.pagerank g d iters).length < g.num_vertices) ∧
    (∀ (orders : Nat → List Nat) (picks : Nat → Nat → Nat),
      (GraphAnalyzer.detect_communities_label_propagation g
        orders picks).length < g.num_vertices) := by
  have hn : 0 < g.num_vertices := by
    obtain ⟨i, _, hi, _⟩ := hcol
    omega
  constructor
  · intro i hi
    obtain ⟨j, hj, hjlt, hjlab⟩ := lastWithLabel_exists g i hi
    obtain ⟨_, _, hmax⟩ := find?_reverse_range_spec _ _ _ hj
    have hmax' : ∀ j' : Nat, j < j' → j' < g.num_vertices →
        g.get_vertex_label j' ≠ g.get_vertex_label i := by
      intro j' h1 h2 habs
      have := hmax j' h1 h2
      simp [habs] at this
    have hij : i ≤ j := by
      rcases Nat.lt_or_ge j i with h | h
      · exact absurd rfl (hmax' i h hi)
      · exact h
    refine ⟨j, hj, hij, hjlt, hjlab, hmax', ?_, ?_, ?_, ?_, ?_⟩
    · rw [show GraphAnalyzer.degree_centrality g = GraphAnalyzer.labelDict g
        (fun i => (g.getVertexInDegree i, g.getVertexOutDegree i)) from rfl,
        labelDict_lookup, hj]
    · rw [show GraphAnalyzer.closeness_centrality g = GraphAnalyzer.labelDict g
        (GraphAnalyzer.closenessOf g) from rfl, labelDict_lookup, hj]
    · rw [show GraphAnalyzer.betweenness_centrality g = GraphAnalyzer.labelDict g
        (GraphAnalyzer.betweennessVal g) from rfl, labelDict_lookup, hj]
    · intro d iters
      unfold GraphAnalyzer.pagerank
      rw [if_neg (Nat.pos_iff_ne_zero.mp hn), labelDict_lookup, hj]
    · intro orders picks
      rw [show GraphAnalyzer.detect_communities_label_propagation g orders picks =
        GraphAnalyzer.labelDict g
          (fun i => (GraphAnalyzer.lpFinal g orders picks).getD i 0) from rfl,
        labelDict_lookup, hj]
  · refine ⟨labelDict_length_lt g _ hcol, labelDict_length_lt g _ hcol,
      labelDict_length_lt g _ hcol, ?_, ?_⟩
    · intro d iters
      unfold GraphAnalyzer.pagerank
      rw [if_neg (Nat.pos_iff_ne_zero.mp hn)]
      exact labelDict_length_lt g _ hcol
    · intro orders picks
      exact labelDict_length_lt g _ hcol

/-- Witness for C9 at a 2-vertex graph whose two vertices both carry the
label `"X"`. -/
theorem claim_C9_witness :
    (∃ i j : Nat,
      i < (((AdjacencyListGraph.create 2).set_vertex_label 0 "X").set_vertex_label
        1 "X").num_vertices ∧
      j < (((AdjacencyListGraph.create 2).set_vertex_label 0 "X").set_vertex_label
        1 "X").num_vertices ∧ i ≠ j ∧
      (((AdjacencyListGraph.create 2).set_vertex_label 0 "X").set_vertex_label
        1 "X").get_vertex_label i =
      (((AdjacencyListGraph.create 2).set_vertex_label 0 "X").set_vertex_label
        1 "X").get_vertex_label j) ∧
    (GraphAnalyzer.degree_centrality
      (((AdjacencyListGraph.create 2).set_vertex_label 0 "X").set_vertex_label
        1 "X")).length <
    (((AdjacencyListGraph.create 2).set_vertex_label 0 "X").set_vertex_label
      1 "X").num_vertices :=
  ⟨⟨0, 1, by decide⟩,
   (claim_C9 (((AdjacencyListGraph.create 2).set_vertex_label 0
      "X").set_vertex_label 1 "X") ⟨0, 1, by decide⟩).2.1⟩

/-- C6: on every edgeless graph with `n > 0` vertices, PageRank with
damping `0.85` and 100 iterations (sink mass redistributed uniformly)
reports rank exactly `1/n` for every vertex. -/
theorem claim_C6 (g : AdjacencyListGraph) (hn : 0 < g.num_vertices)
    (hE : ∀ u : Nat, g.getNeighbors u = []) (i : Nat)
    (hi : i < g.num_vertices) :
    assocLookup (g.get_vertex_label i)
      (GraphAnalyzer.pagerank g (85 / 100) 100) =
      some (1 / (g.num_vertices : ℚ)) := by
  unfold GraphAnalyzer.pagerank
  rw [if_neg (Nat.pos_iff_ne_zero.mp hn), labelDict_lookup]
  obtain ⟨j, hj, hjlt, hjlab⟩ := lastWithLabel_exists g i hi
  rw [hj]
  show some ((GraphAnalyzer.pagerankVec g (85 / 100) 100).getD j 0) = _
  unfold GraphAnalyzer.pagerankVec
  dsimp only
  rw [pagerankLoop_edgeless g hn hE _ _, listGetD_replicate, if_pos hjlt]

/-- Witness for C6 at the edgeless 2-vertex graph and vertex 0. -/
theorem claim_C6_witness :
    0 < (AdjacencyListGraph.create 2).num_vertices ∧
    (∀ u : Nat, (AdjacencyListGraph.create 2).getNeighbors u = []) ∧
    assocLookup ((AdjacencyListGraph.create 2).get_vertex_label 0)
      (GraphAnalyzer.pagerank (AdjacencyListGraph.create 2) (85 / 100) 100) =
      some (1 / ((AdjacencyListGraph.create 2).num_vertices : ℚ)) := by
  have hE : ∀ u : Nat, (AdjacencyListGraph.create 2).getNeighbors u = [] := by
    intro u
    show ((List.replicate 2 ([] : List (Nat × ℚ))).getD u []).map Prod.fst = []
    rw [listGetD_replicate]
    split <;> rfl
  exact ⟨by decide, hE,
    claim_C6 (AdjacencyListGraph.create 2) (by decide) hE 0 (by decide)⟩

/-- C8: the sparse adjacency-list backing and the dense matrix backing are
behaviourally identical: after any sequence of GraphStore mutations
(`addEdge`, `removeEdge`, `setEdgeWeight`) applied to both backings
created with the same vertex count, every query — `hasEdge`,
`getEdgeWeight`, `getEdgeCount`, in-degree, out-degree, and the neighbor
list compared as a set — returns the same result on both. -/
theorem claim_C8 (n : Nat) (ops : List GOp) (u v : Nat)
    (hu : u < n) (hv : v < n) :
    (AdjacencyListGraph.runOps n ops).getEdgeCount =
      (AdjacencyMatrixGraph.runOps n ops).getEdgeCount ∧
    (AdjacencyListGraph.runOps n ops).hasEdgeB u v =
      (AdjacencyMatrixGraph.runOps n ops).hasEdgeB u v ∧
    (AdjacencyListGraph.runOps n ops).getEdgeWeightB u v =
      (AdjacencyMatrixGraph.runOps n ops).getEdgeWeightB u v ∧
    (AdjacencyListGraph.runOps n ops).getVertexInDegree u =
      (AdjacencyMatrixGraph.runOps n ops).getVertexInDegree u ∧
    (AdjacencyListGraph.runOps n ops).getVertexOutDegree u =
      (AdjacencyMatrixGraph.runOps n ops).getVertexOutDegree u ∧
    (∀ x : Nat, x ∈ (AdjacencyListGraph.runOps n ops).getNeighbors u ↔
      x ∈ (AdjacencyMatrixGraph.runOps n ops).getNeighbors u) := by
  obtain ⟨hl, hm, hsim⟩ := sim_foldl ops (AdjacencyListGraph.create n)
    (AdjacencyMatrixGraph.create n) (wf_create_list n) (wf_create_matrix n)
    (sim_create n)
  have hnv : (AdjacencyListGraph.runOps n ops).num_vertices = n :=
    num_vertices_foldl_list ops (AdjacencyListGraph.create n)
  obtain ⟨q1, q2, q3, q4, q5⟩ :=
    sim_queries (AdjacencyListGraph.runOps n ops)
      (AdjacencyMatrixGraph.runOps n ops) hl hm hsim u v
      (by rw [hnv]; exact hu) (by rw [hnv]; exact hv)
  exact ⟨hsim.2.1, q1, q2, q3, q4, q5⟩

/-- Witness for C8: a 3-vertex graph driven through an add / re-add /
set-weight / remove sequence, queried at the pair `(0, 1)`. -/
theorem claim_C8_witness :
    0 < 3 ∧ 1 < 3 ∧
    ((AdjacencyListGraph.runOps 3
        [GOp.add 0 1, GOp.add 0 2, GOp.add 0 1, GOp.setW 0 1 5,
         GOp.remove 0 2, GOp.setW 2 0 7]).getEdgeCount =
      (AdjacencyMatrixGraph.runOps 3
        [GOp.add 0 1, GOp.add 0 2, GOp.add 0 1, GOp.setW 0 1 5,
         GOp.remove 0 2, GOp.setW 2 0 7]).getEdgeCount ∧
    (AdjacencyListGraph.runOps 3
        [GOp.add 0 1, GOp.add 0 2, GOp.add 0 1, GOp.setW 0 1 5,
         GOp.remove 0 2, GOp.setW 2 0 7]).hasEdgeB 0 1 =
      (AdjacencyMatrixGraph.runOps 3
        [GOp.add 0 1, GOp.add 0 2, GOp.add 0 1, GOp.setW 0 1 5,
         GOp.remove 0 2, GOp.setW 2 0 7]).hasEdgeB 0 1 ∧
    (AdjacencyListGraph.runOps 3
        [GOp.add 0 1, GOp.add 0 2, GOp.add 0 1, GOp.setW 0 1 5,
         GOp.remove 0 2, GOp.setW 2 0 7]).getEdgeWeightB 0 1 =
      (AdjacencyMatrixGraph.runOps 3
        [GOp.add 0 1, GOp.add 0 2, GOp.add 0 1, GOp.setW 0 1 5,
         GOp.remove 0 2, GOp.setW 2 0 7]).getEdgeWeightB 0 1 ∧
    (AdjacencyListGraph.runOps 3
        [GOp.add 0 1, GOp.add 0 2, GOp.add 0 1, GOp.setW 0 1 5,
         GOp.remove 0 2, GOp.setW 2 0 7]).getVertexInDegree 0 =
      (AdjacencyMatrixGraph.runOps 3
        [GOp.add 0 1, GOp.add 0 2, GOp.add 0 1, GOp.setW 0 1 5,
         GOp.remove 0 2, GOp.setW 2 0 7]).getVertexInDegree 0 ∧
    (AdjacencyListGraph.runOps 3
        [GOp.add 0 1, GOp.add 0 2, GOp.add 0 1, GOp.setW 0 1 5,
         GOp.remove 0 2, GOp.setW 2 0 7]).getVertexOutDegree 0 =
      (AdjacencyMatrixGraph.runOps 3
        [GOp.add 0 1, GOp.add 0 2, GOp.add 0 1, GOp.setW 0 1 5,
         GOp.remove 0 2, GOp.setW 2 0 7]).getVertexOutDegree 0 ∧
    (∀ x : Nat, x ∈ (AdjacencyListGraph.runOps 3
        [GOp.add 0 1, GOp.add 0 2, GOp.add 0 1, GOp.setW 0 1 5,
         GOp.remove 0 2, GOp.setW 2 0 7]).getNeighbors 0 ↔
      x ∈ (AdjacencyMatrixGraph.runOps 3
        [GOp.add 0 1, GOp.add 0 2, GOp.add 0 1, GOp.setW 0 1 5,
         GOp.remove 0 2, GOp.setW 2 0 7]).getNeighbors 0)) :=
  ⟨by decide, by decide,
   claim_C8 3
     [GOp.add 0 1, GOp.add 0 2, GOp.add 0 1, GOp.setW 0 1 5,
      GOp.remove 0 2, GOp.setW 2 0 7] 0 1 (by decide) (by decide)⟩

/-! ## BFS hop-distance correctness (C4) -/

theorem hopBall_zero (g : AdjacencyListGraph) (s : Nat) :
    hopBall g s 0 = {s} := rfl

theorem hopBall_succ (g : AdjacencyListGraph) (s k : Nat) :
    hopBall g s (k + 1) =
      hopBall g s k ∪
        (hopBall g s k).biUnion (fun u => (g.getNeighbors u).toFinset) := rfl

theorem self_mem_hopBall (g : AdjacencyListGraph) (s k : Nat) :
    s ∈ hopBall g s k := by
  induction k with
  | zero => rw [hopBall_zero]; exact Finset.mem_singleton_self s
  | succ k ih => rw [hopBall_succ]; exact Finset.mem_union_left _ ih

theorem hopBall_subset_succ (g : AdjacencyListGraph) (s k : Nat) :
    hopBall g s k ⊆ hopBall g s (k + 1) := by
  rw [hopBall_succ]
  exact Finset.subset_union_left

theorem hopBall_mono (g : AdjacencyListGraph) (s : Nat) {j k : Nat}
    (h : j ≤ k) : hopBall g s j ⊆ hopBall g s k := by
  induction k with
  | zero =>
    have : j = 0 := Nat.le_zero.mp h
    rw [this]
  | succ k ih =>
    by_cases hj : j = k + 1
    · rw [hj]
    · have hjk : j ≤ k := Nat.lt_succ_iff.mp (lt_of_le_of_ne h hj)
      exact (ih hjk).trans (hopBall_subset_succ g s k)

theorem mem_hopBall_succ_of (g : AdjacencyListGraph) (s k u v : Nat)
    (hu : u ∈ hopBall g s k) (hv : v ∈ g.getNeighbors u) :
    v ∈ hopBall g s (k + 1) := by
  rw [hopBall_succ]
  exact Finset.mem_union_right _
    (Finset.mem_biUnion.mpr ⟨u, hu, List.mem_toFinset.mpr hv⟩)

theorem mem_hopBall_succ_elim (g : AdjacencyListGraph) (s k v : Nat)
    (hv : v ∈ hopBall g s (k + 1)) :
    v ∈ hopBall g s k ∨ ∃ u ∈ hopBall g s k, v ∈ g.getNeighbors u := by
  rw [hopBall_succ] at hv
  rcases Finset.mem_union.mp hv with h | h
  · exact Or.inl h
  · obtain ⟨u, hu, hvu⟩ := Finset.mem_biUnion.mp h
    exact Or.inr ⟨u, hu, List.mem_toFinset.mp hvu⟩

theorem hopBall_subset_range (g : AdjacencyListGraph) (hWF : g.WF)
    (s : Nat) (hs : s < g.num_vertices) (k : Nat) :
    ∀ v ∈ hopBall g s k, v < g.num_vertices := by
  induction k with
  | zero =>
    intro v hv
    rw [hopBall_zero, Finset.mem_singleton] at hv
    rw [hv]; exact hs
  | succ k ih =>
    intro v hv
    rcases mem_hopBall_succ_elim g s k v hv with h | ⟨u, hu, hvu⟩
    · exact ih v h
    · exact getNeighbors_mem_lt g hWF u v hvu

theorem hopBall_succ_congr (g : AdjacencyListGraph) (s : Nat) {j k : Nat}
    (h : hopBall g s j = hopBall g s k) :
    hopBall g s (j + 1) = hopBall g s (k + 1) := by
  rw [hopBall_succ, hopBall_succ, h]

theorem hopBall_stab (g : AdjacencyListGraph) (s j : Nat)
    (h : hopBall g s (j + 1) = hopBall g s j) :
    ∀ m, j ≤ m → hopBall g s m = hopBall g s j := by
  intro m hm
  induction m with
  | zero =>
    have : j = 0 := Nat.le_zero.mp hm
    rw [this]
  | succ m ih =>
    by_cases hj : j = m + 1
    · rw [hj]
    · have hjm : j ≤ m := Nat.lt_succ_iff.mp (lt_of_le_of_ne hm hj)
      have := hopBall_succ_congr g s (ih hjm)
      rw [this, h]

theorem hopBall_card_ge (g : AdjacencyListGraph) (s : Nat) :
    ∀ k, (∀ j < k, hopBall g s (j + 1) ≠ hopBall g s j) →
      k + 1 ≤ (hopBall g s k).card := by
  intro k
  induction k with
  | zero =>
    intro _
    rw [hopBall_zero, Finset.card_singleton]
  | succ k ih =>
    intro h
    have h1 : k + 1 ≤ (hopBall g s k).card :=
      ih (fun j hj => h j (Nat.lt_succ_of_lt hj))
    have hne : hopBall g s (k + 1) ≠ hopBall g s k := h k (Nat.lt_succ_self k)
    have hss : hopBall g s k ⊂ hopBall g s (k + 1) :=
      Finset.ssubset_iff_subset_ne.mpr
        ⟨hopBall_subset_succ g s k, fun e => hne e.symm⟩
    have h2 := Finset.card_lt_card hss
    omega

theorem hopBall_reach_le_n (g : AdjacencyListGraph) (hWF : g.WF)
    (s : Nat) (hs : s < g.num_vertices) (v k : Nat)
    (hv : v ∈ hopBall g s k) :
    ∃ j ≤ g.num_vertices, v ∈ hopBall g s j := by
  by_cases hk : k ≤ g.num_vertices
  · exact ⟨k, hk, hv⟩
  · push_neg at hk
    have hstab : ∃ j, j < g.num_vertices ∧
        hopBall g s (j + 1) = hopBall g s j := by
      by_contra hcon
      push_neg at hcon
      have hcard := hopBall_card_ge g s g.num_vertices hcon
      have hsub : hopBall g s g.num_vertices ⊆ Finset.range g.num_vertices := by
        intro x hx
        exact Finset.mem_range.mpr
          (hopBall_subset_range g hWF s hs g.num_vertices x hx)
      have := Finset.card_le_card hsub
      rw [Finset.card_range] at this
      omega
    obtain ⟨j₀, hj₀n, hj₀⟩ := hstab
    have hk0 : hopBall g s k = hopBall g s j₀ :=
      hopBall_stab g s j₀ hj₀ k (le_of_lt (lt_trans hj₀n hk))
    rw [hk0] at hv
    exact ⟨j₀, le_of_lt hj₀n, hv⟩

theorem find?_append_none {γ : Type} {l₁ l₂ : List γ} {p : γ → Bool}
    (h : l₁.find? p = none) : (l₁ ++ l₂).find? p = l₂.find? p := by
  induction l₁ with
  | nil => rfl
  | cons a t ih =>
    rw [List.find?_cons] at h
    rw [List.cons_append, List.find?_cons]
    cases hp : p a with
    | false =>
      rw [hp] at h
      exact ih h
    | true =>
      rw [hp] at h
      exact absurd h (by simp)

theorem find?_append_some {γ : Type} {l₁ l₂ : List γ} {p : γ → Bool}
    {a : γ} (h : l₁.find? p = some a) : (l₁ ++ l₂).find? p = some a := by
  induction l₁ with
  | nil => exact absurd h (by simp)
  | cons b t ih =>
    rw [List.find?_cons] at h
    rw [List.cons_append, List.find?_cons]
    cases hp : p b with
    | false =>
      rw [hp] at h
      exact ih h
    | true =>
      rw [hp] at h
      exact h

theorem find?_range_spec (p : Nat → Bool) (n d : Nat)
    (h : (List.range n).find? p = some d) :
    d < n ∧ p d = true ∧ ∀ j < d, p j = false := by
  induction n with
  | zero => exact absurd h (by simp)
  | succ n ih =>
    rw [List.range_succ] at h
    rcases hfr : (List.range n).find? p with _ | d'
    · rw [find?_append_none hfr] at h
      rw [List.find?_cons] at h
      cases hp : p n with
      | false =>
        rw [hp] at h
        exact absurd h (by simp)
      | true =>
        rw [hp] at h
        injection h with hd
        refine ⟨by omega, by rw [← hd]; exact hp, ?_⟩
        intro j hj
        have hjn : j < n := by omega
        have := List.find?_eq_none.mp hfr j (List.mem_range.mpr hjn)
        cases hpj : p j with
        | false => rfl
        | true => exact absurd hpj this
    · rw [find?_append_some hfr] at h
      injection h with hd
      obtain ⟨h1, h2, h3⟩ := ih (hd ▸ hfr)
      exact ⟨Nat.lt_succ_of_lt h1, h2, h3⟩

theorem find?_range_eq_some (p : Nat → Bool) (n d : Nat) (hd : d < n)
    (hp : p d = true) (hmin : ∀ j < d, p j = false) :
    (List.range n).find? p = some d := by
  rcases hfr : (List.range n).find? p with _ | d'
  · have := List.find?_eq_none.mp hfr d (List.mem_range.mpr hd)
    exact absurd hp this
  · obtain ⟨hd', hp', hmin'⟩ := find?_range_spec p n d' hfr
    have hdd : d' = d := by
      rcases Nat.lt_trichotomy d' d with h | h | h
      · rw [hmin d' h] at hp'
        exact absurd hp' (by simp)
      · exact h
      · rw [hmin' d h] at hp
        exact absurd hp (by simp)
    rw [hdd]

theorem hopDist_spec (g : AdjacencyListGraph) (s v d : Nat)
    (h : hopDist g s v = some d) :
    v ∈ hopBall g s d ∧ ∀ j < d, v ∉ hopBall g s j := by
  unfold hopDist at h
  obtain ⟨_, hp, hmin⟩ := find?_range_spec _ _ _ h
  constructor
  · exact of_decide_eq_true hp
  · intro j hj hvj
    have h2 : decide (v ∈ hopBall g s j) = true := decide_eq_true hvj
    have h3 := hmin j hj
    rw [h3] at h2
    exact absurd h2 (by simp)

theorem hopDist_eq_some (g : AdjacencyListGraph) (hWF : g.WF)
    (s : Nat) (hs : s < g.num_vertices) (v d : Nat)
    (hvd : v ∈ hopBall g s d) (hmin : ∀ j < d, v ∉ hopBall g s j) :
    hopDist g s v = some d := by
  have hdn : d ≤ g.num_vertices := by
    by_contra hcon
    push_neg at hcon
    obtain ⟨j, hjn, hvj⟩ := hopBall_reach_le_n g hWF s hs v d hvd
    exact hmin j (lt_of_le_of_lt hjn hcon) hvj
  unfold hopDist
  apply find?_range_eq_some
  · omega
  · exact decide_eq_true hvd
  · intro j hj
    exact decide_eq_false (hmin j hj)

theorem assocLookup_append_isSome {α β : Type} [DecidableEq α]
    (l₁ l₂ : List (α × β)) (k : α) (h : (assocLookup k l₁).isSome) :
    assocLookup k (l₁ ++ l₂) = assocLookup k l₁ := by
  induction l₁ with
  | nil => simp [assocLookup] at h
  | cons p rest ih =>
    rw [List.cons_append, assocLookup_cons, assocLookup_cons]
    by_cases hp : p.1 = k
    · rw [if_pos hp, if_pos hp]
    · rw [if_neg hp, if_neg hp]
      apply ih
      rw [assocLookup_cons, if_neg hp] at h
      exact h

theorem bfsInner_fold (g : AdjacencyListGraph) (u d₁ : Nat) :
    ∀ (l : List Nat) (D : List (Nat × Nat)) (Q : List Nat),
      assocLookup u D = some d₁ → (D.map Prod.fst).Nodup →
      ∃ new : List (Nat × Nat),
        (l.foldl (GraphAnalyzer.bfsInner g u) (D, Q)).1 = D ++ new ∧
        (l.foldl (GraphAnalyzer.bfsInner g u) (D, Q)).2 =
          Q ++ new.map Prod.fst ∧
        ((D ++ new).map Prod.fst).Nodup ∧
        (∀ p ∈ new, p.1 ∈ l ∧ p.1 ∉ D.map Prod.fst ∧ p.2 = d₁ + 1) ∧
        (∀ w ∈ l, w ∈ (D ++ new).map Prod.fst) := by
  intro l
  induction l with
  | nil =>
    intro D Q _ hnd
    refine ⟨[], by simp, by simp, by simpa using hnd, by simp, by simp⟩
  | cons w ws ih =>
    intro D Q hu hnd
    rw [List.foldl_cons]
    by_cases hw : (assocLookup w D).isSome
    · have hstep : GraphAnalyzer.bfsInner g u (D, Q) w = (D, Q) := by
        unfold GraphAnalyzer.bfsInner
        rw [if_pos hw]
      rw [hstep]
      obtain ⟨new, h1, h2, h3, h4, h5⟩ := ih D Q hu hnd
      refine ⟨new, h1, h2, h3, ?_, ?_⟩
      · intro p hp
        obtain ⟨hp1, hp2, hp3⟩ := h4 p hp
        exact ⟨List.mem_cons_of_mem _ hp1, hp2, hp3⟩
      · intro x hx
        rcases List.mem_cons.mp hx with hx | hx
        · subst hx
          rw [List.map_append]
          exact List.mem_append_left _ (assocLookup_isSome_iff.mp hw)
        · exact h5 x hx
    · have hgd : assocGetD D u 0 = d₁ := by
        unfold assocGetD
        rw [hu]
        rfl
      have hstep : GraphAnalyzer.bfsInner g u (D, Q) w =
          (D ++ [(w, d₁ + 1)], Q ++ [w]) := by
        unfold GraphAnalyzer.bfsInner
        rw [if_neg hw, hgd]
      rw [hstep]
      have hwD : w ∉ D.map Prod.fst := by
        intro hmem
        exact hw (assocLookup_isSome_iff.mpr hmem)
      have hu' : assocLookup u (D ++ [(w, d₁ + 1)]) = some d₁ := by
        rw [assocLookup_append_isSome D [(w, d₁ + 1)] u (by rw [hu]; rfl)]
        exact hu
      have hnd' : ((D ++ [(w, d₁ + 1)]).map Prod.fst).Nodup := by
        rw [List.map_append]
        apply List.Nodup.append hnd (by simp)
        intro a ha hb
        simp only [List.map_cons, List.map_nil, List.mem_singleton] at hb
        rw [hb] at ha
        exact hwD ha
      obtain ⟨new', h1, h2, h3, h4, h5⟩ := ih (D ++ [(w, d₁ + 1)]) (Q ++ [w]) hu' hnd'
      refine ⟨(w, d₁ + 1) :: new', ?_, ?_, ?_, ?_, ?_⟩
      · rw [h1, List.append_assoc, List.singleton_append]
      · rw [h2, List.append_assoc, List.singleton_append, List.map_cons]
      · have h3' := h3
        rw [List.append_assoc, List.singleton_append] at h3'
        exact h3'
      · intro p hp
        rcases List.mem_cons.mp hp with hp | hp
        · rw [hp]
          exact ⟨List.mem_cons_self w ws, hwD, rfl⟩
        · obtain ⟨hp1, hp2, hp3⟩ := h4 p hp
          refine ⟨List.mem_cons_of_mem _ hp1, ?_, hp3⟩
          intro hm
          exact hp2 (by rw [List.map_append]; exact List.mem_append_left _ hm)
      · intro x hx
        rcases List.mem_cons.mp hx with hx | hx
        · subst hx
          rw [List.map_append, List.map_cons]
          exact List.mem_append_right _ (List.mem_cons_self _ _)
        · have hx5 := h5 x hx
          rw [List.append_assoc, List.singleton_append] at hx5
          exact hx5

theorem bfsStep_inv (g : AdjacencyListGraph) (hWF : g.WF) (s u : Nat)
    (rest : List Nat) (D : List (Nat × Nat))
    (hInv : BfsInv g s D (u :: rest)) :
    BfsInv g s (GraphAnalyzer.bfsStep g u (D, rest)).1
      (GraphAnalyzer.bfsStep g u (D, rest)).2 ∧
    ∃ k : Nat,
      (GraphAnalyzer.bfsStep g u (D, rest)).1.length = D.length + k ∧
      (GraphAnalyzer.bfsStep g u (D, rest)).2.length = rest.length + k := by
  obtain ⟨hnd, hrange, hQD, hdist, hexp, _, hne⟩ := hInv
  obtain ⟨d₁, Q₁, Q₂, hQeq, hQ₁ne, hQ₁v, hQ₂v, hball⟩ :=
    hne (List.cons_ne_nil u rest)
  obtain ⟨Q₁', hQ₁'⟩ : ∃ t, Q₁ = u :: t := by
    cases Q₁ with
    | nil => exact absurd rfl hQ₁ne
    | cons a t =>
      rw [List.cons_append] at hQeq
      injection hQeq with h1 _
      exact ⟨t, by rw [h1]⟩
  have hrest : rest = Q₁' ++ Q₂ := by
    rw [hQ₁', List.cons_append] at hQeq
    injection hQeq with _ h2
  have hu1 : u ∈ Q₁ := by
    rw [hQ₁']
    exact List.mem_cons_self _ _
  have hu : assocLookup u D = some d₁ := hQ₁v u hu1
  obtain ⟨new, hD, hQ, hndres, hnew, hallnb⟩ :=
    bfsInner_fold g u d₁ (g.getNeighbors u) D rest hu hnd
  have hD1 : (GraphAnalyzer.bfsStep g u (D, rest)).1 = D ++ new := hD
  have hQ1 : (GraphAnalyzer.bfsStep g u (D, rest)).2 =
      rest ++ new.map Prod.fst := hQ
  rw [hD1, hQ1]
  unfold BfsInv
  have hsubkeys : ∀ x ∈ D.map Prod.fst, x ∈ (D ++ new).map Prod.fst := by
    intro x hx
    rw [List.map_append]
    exact List.mem_append_left _ hx
  have hnewkeys : ∀ x ∈ new.map Prod.fst, x ∈ (D ++ new).map Prod.fst := by
    intro x hx
    rw [List.map_append]
    exact List.mem_append_right _ hx
  have hlookPres : ∀ x ∈ D.map Prod.fst,
      assocLookup x (D ++ new) = assocLookup x D := by
    intro x hx
    exact assocLookup_append_isSome D new x (assocLookup_isSome_iff.mpr hx)
  have hlookNew : ∀ x ∈ new.map Prod.fst,
      assocLookup x (D ++ new) = some (d₁ + 1) := by
    intro x hx
    obtain ⟨p, hp, hpe⟩ := List.mem_map.mp hx
    have hp2 := (hnew p hp).2.2
    have hpx : p = (x, d₁ + 1) := by
      rw [← hpe, ← hp2]
    apply (assocLookup_eq_some_iff_mem (D ++ new) hndres x (d₁ + 1)).mpr
    rw [← hpx]
    exact List.mem_append_right _ hp
  have c2 : ∀ p ∈ D ++ new, p.1 < g.num_vertices := by
    intro p hp
    rcases List.mem_append.mp hp with hp | hp
    · exact hrange p hp
    · exact getNeighbors_mem_lt g hWF u p.1 (hnew p hp).1
  have c3 : ∀ x ∈ rest ++ new.map Prod.fst, x ∈ (D ++ new).map Prod.fst := by
    intro x hx
    rcases List.mem_append.mp hx with hx | hx
    · exact hsubkeys x (hQD x (List.mem_cons_of_mem _ hx))
    · exact hnewkeys x hx
  have huD : (u, d₁) ∈ D := (assocLookup_eq_some_iff_mem D hnd u d₁).mp hu
  have hub : u ∈ hopBall g s d₁ := (hdist (u, d₁) huD).1
  have c4 : ∀ p ∈ D ++ new,
      p.1 ∈ hopBall g s p.2 ∧ ∀ j < p.2, p.1 ∉ hopBall g s j := by
    intro p hp
    rcases List.mem_append.mp hp with hp | hp
    · exact hdist p hp
    · obtain ⟨hpn, hpD, hpd⟩ := hnew p hp
      constructor
      · rw [hpd]
        exact mem_hopBall_succ_of g s d₁ u p.1 hub hpn
      · intro j hj hcon
        rw [hpd] at hj
        exact hpD (hball p.1 (hopBall_mono g s (Nat.lt_succ_iff.mp hj) hcon))
  have c5 : ∀ x ∈ (D ++ new).map Prod.fst, x ∉ rest ++ new.map Prod.fst →
      ∀ w ∈ g.getNeighbors x, w ∈ (D ++ new).map Prod.fst := by
    intro x hx hxq w hw
    rw [List.map_append] at hx
    rcases List.mem_append.mp hx with hxD | hxnew
    · by_cases hxold : x ∈ u :: rest
      · rcases List.mem_cons.mp hxold with he | ht
        · subst he
          exact hallnb w hw
        · exact absurd (List.mem_append_left _ ht) hxq
      · exact hsubkeys w (hexp x hxD hxold w hw)
    · exact absurd (List.mem_append_right _ hxnew) hxq
  have c6 : rest ++ new.map Prod.fst = [] →
      ∀ k : Nat, ∀ v ∈ hopBall g s k, v ∈ (D ++ new).map Prod.fst := by
    intro hnil k
    induction k with
    | zero =>
      intro v hv
      rw [hopBall_zero, Finset.mem_singleton] at hv
      rw [hv]
      exact hsubkeys s (hball s (self_mem_hopBall g s d₁))
    | succ k ihk =>
      intro v hv
      rcases mem_hopBall_succ_elim g s k v hv with hv | ⟨x, hx, hvx⟩
      · exact ihk v hv
      · have hxnq : x ∉ rest ++ new.map Prod.fst := by
          rw [hnil]
          exact List.not_mem_nil x
        exact c5 x (ihk x hx) hxnq v hvx
  have hQ₂' : ∀ x ∈ Q₂ ++ new.map Prod.fst,
      assocLookup x (D ++ new) = some (d₁ + 1) := by
    intro x hx
    rcases List.mem_append.mp hx with hx | hx
    · have hxq : x ∈ u :: rest := by
        rw [hQeq]
        exact List.mem_append_right _ hx
      rw [hlookPres x (hQD x hxq)]
      exact hQ₂v x hx
    · exact hlookNew x hx
  have c7 : rest ++ new.map Prod.fst ≠ [] →
      ∃ d : Nat, ∃ R₁ R₂ : List Nat,
        rest ++ new.map Prod.fst = R₁ ++ R₂ ∧ R₁ ≠ [] ∧
        (∀ x ∈ R₁, assocLookup x (D ++ new) = some d) ∧
        (∀ x ∈ R₂, assocLookup x (D ++ new) = some (d + 1)) ∧
        (∀ v ∈ hopBall g s d, v ∈ (D ++ new).map Prod.fst) := by
    intro hqne
    by_cases hQ₁'nil : Q₁' = []
    · have hrestQ₂ : rest = Q₂ := by rw [hrest, hQ₁'nil, List.nil_append]
      refine ⟨d₁ + 1, rest ++ new.map Prod.fst, [],
        (List.append_nil _).symm, hqne, ?_, ?_, ?_⟩
      · intro x hx
        rw [hrestQ₂] at hx
        exact hQ₂' x hx
      · intro x hx
        exact absurd hx (List.not_mem_nil x)
      · intro v hv
        rcases mem_hopBall_succ_elim g s d₁ v hv with hv | ⟨x, hx, hvx⟩
        · exact hsubkeys v (hball v hv)
        · have hxD : x ∈ D.map Prod.fst := hball x hx
          obtain ⟨dx, hdx⟩ := Option.isSome_iff_exists.mp
            (assocLookup_isSome_iff.mpr hxD)
          have hxmem : (x, dx) ∈ D :=
            (assocLookup_eq_some_iff_mem D hnd x dx).mp hdx
          have hdxle : dx ≤ d₁ := by
            by_contra hcon
            push_neg at hcon
            exact (hdist (x, dx) hxmem).2 d₁ hcon hx
          have hxnq : x ∉ rest ++ new.map Prod.fst := by
            intro hxq
            rw [hrestQ₂] at hxq
            have h1 := hQ₂' x hxq
            have h2 : assocLookup x (D ++ new) = some dx := by
              rw [hlookPres x hxD]
              exact hdx
            rw [h2] at h1
            injection h1 with h3
            omega
          exact c5 x (hsubkeys x hxD) hxnq v hvx
    · refine ⟨d₁, Q₁', Q₂ ++ new.map Prod.fst, ?_, hQ₁'nil, ?_, hQ₂', ?_⟩
      · rw [hrest, List.append_assoc]
      · intro x hx
        have hxq : x ∈ u :: rest := by
          rw [hQeq, hQ₁']
          exact List.mem_append_left _ (List.mem_cons_of_mem _ hx)
        rw [hlookPres x (hQD x hxq)]
        apply hQ₁v
        rw [hQ₁']
        exact List.mem_cons_of_mem _ hx
      · intro v hv
        exact hsubkeys v (hball v hv)
  refine ⟨⟨hndres, c2, c3, c4, c5, c6, c7⟩, new.length, ?_, ?_⟩
  · rw [List.length_append]
  · rw [List.length_append, List.length_map]

theorem bfsD_length_le (n : Nat) (D : List (Nat × Nat))
    (hnd : (D.map Prod.fst).Nodup) (hlt : ∀ p ∈ D, p.1 < n) :
    D.length ≤ n := by
  have h2 : (D.map Prod.fst).toFinset.card = (D.map Prod.fst).length :=
    List.toFinset_card_of_nodup hnd
  have h3 : (D.map Prod.fst).toFinset ⊆ Finset.range n := by
    intro x hx
    rw [List.mem_toFinset] at hx
    obtain ⟨p, hp, hpe⟩ := List.mem_map.mp hx
    rw [Finset.mem_range, ← hpe]
    exact hlt p hp
  have h4 := Finset.card_le_card h3
  rw [Finset.card_range, h2, List.length_map] at h4
  exact h4

theorem bfsLoop_spec (g : AdjacencyListGraph) (hWF : g.WF) (s : Nat) :
    ∀ (fuel : Nat) (D : List (Nat × Nat)) (Q : List Nat),
      BfsInv g s D Q → Q.length + (g.num_vertices - D.length) < fuel →
      BfsInv g s (GraphAnalyzer.bfsLoop g fuel D Q) [] := by
  intro fuel
  induction fuel with
  | zero =>
    intro D Q _ hf
    omega
  | succ fuel ih =>
    intro D Q hInv hf
    cases Q with
    | nil =>
      show BfsInv g s D []
      exact hInv
    | cons u rest =>
      obtain ⟨hInv', k, hk1, hk2⟩ := bfsStep_inv g hWF s u rest D hInv
      have hred : GraphAnalyzer.bfsLoop g (fuel + 1) D (u :: rest) =
          GraphAnalyzer.bfsLoop g fuel (GraphAnalyzer.bfsStep g u (D, rest)).1
            (GraphAnalyzer.bfsStep g u (D, rest)).2 := rfl
      rw [hred]
      apply ih _ _ hInv'
      have hle : (GraphAnalyzer.bfsStep g u (D, rest)).1.length ≤
          g.num_vertices := by
        obtain ⟨hnd', hrange', _⟩ := hInv'
        exact bfsD_length_le g.num_vertices _ hnd' hrange'
      rw [List.length_cons] at hf
      rw [hk1] at hle
      rw [hk1, hk2]
      omega

theorem bfsDistances_inv (g : AdjacencyListGraph) (hWF : g.WF) (s : Nat)
    (hs : s < g.num_vertices) :
    BfsInv g s (GraphAnalyzer.bfsDistances g s) [] := by
  have hinit : BfsInv g s [(s, 0)] [s] := by
    refine ⟨by simp, ?_, ?_, ?_, ?_, ?_, ?_⟩
    · intro p hp
      rw [List.mem_singleton] at hp
      rw [hp]
      exact hs
    · intro x hx
      rw [List.mem_singleton] at hx
      rw [hx]
      simp
    · intro p hp
      rw [List.mem_singleton] at hp
      subst hp
      constructor
      · rw [hopBall_zero]
        exact Finset.mem_singleton_self s
      · intro j hj
        omega
    · intro x hx hxq
      rw [List.map_cons, List.map_nil, List.mem_singleton] at hx
      exact absurd (by rw [hx]; exact List.mem_singleton_self s) hxq
    · intro h
      exact absurd h (List.cons_ne_nil s [])
    · intro _
      refine ⟨0, [s], [], rfl, List.cons_ne_nil s [], ?_, ?_, ?_⟩
      · intro x hx
        rw [List.mem_singleton] at hx
        subst hx
        rw [assocLookup_cons, if_pos rfl]
      · intro x hx
        exact absurd hx (List.not_mem_nil x)
      · intro v hv
        rw [hopBall_zero, Finset.mem_singleton] at hv
        rw [hv]
        simp
  have hbd : GraphAnalyzer.bfsDistances g s =
      GraphAnalyzer.bfsLoop g (g.num_vertices + 1) [(s, 0)] [s] := rfl
  rw [hbd]
  apply bfsLoop_spec g hWF s (g.num_vertices + 1) [(s, 0)] [s] hinit
  rw [List.length_cons, List.length_nil, List.length_cons, List.length_nil]
  omega

theorem bfsDistances_lookup_iff (g : AdjacencyListGraph) (hWF : g.WF)
    (s : Nat) (hs : s < g.num_vertices) (v d : Nat) :
    assocLookup v (GraphAnalyzer.bfsDistances g s) = some d ↔
      hopDist g s v = some d := by
  obtain ⟨hnd, hrange, _, hdist, _, hcomp, _⟩ := bfsDistances_inv g hWF s hs
  have hcomp' := hcomp rfl
  constructor
  · intro h
    have hmem := (assocLookup_eq_some_iff_mem _ hnd v d).mp h
    obtain ⟨h1, h2⟩ := hdist (v, d) hmem
    exact hopDist_eq_some g hWF s hs v d h1 h2
  · intro h
    obtain ⟨h1, h2⟩ := hopDist_spec g s v d h
    have hvkeys : v ∈ (GraphAnalyzer.bfsDistances g s).map Prod.fst :=
      hcomp' d v h1
    obtain ⟨d', hd'⟩ := Option.isSome_iff_exists.mp
      (assocLookup_isSome_iff.mpr hvkeys)
    have hmem := (assocLookup_eq_some_iff_mem _ hnd v d').mp hd'
    obtain ⟨h1', h2'⟩ := hdist (v, d') hmem
    have hde : d' = d := by
      rcases Nat.lt_trichotomy d' d with hlt | he | hlt
      · exact absurd h1' (h2 d' hlt)
      · exact he
      · exact absurd h1 (h2' d hlt)
    rw [hd', hde]

theorem bfsDistances_keys_iff (g : AdjacencyListGraph) (hWF : g.WF)
    (s : Nat) (hs : s < g.num_vertices) (v : Nat) :
    v ∈ (GraphAnalyzer.bfsDistances g s).map Prod.fst ↔
      (hopDist g s v).isSome := by
  constructor
  · intro h
    obtain ⟨d, hd⟩ := Option.isSome_iff_exists.mp
      (assocLookup_isSome_iff.mpr h)
    rw [(bfsDistances_lookup_iff g hWF s hs v d).mp hd]
    rfl
  · intro h
    obtain ⟨d, hd⟩ := Option.isSome_iff_exists.mp h
    have h2 := (bfsDistances_lookup_iff g hWF s hs v d).mpr hd
    exact assocLookup_isSome_iff.mp (by rw [h2]; rfl)

theorem bfsDistances_keys_perm (g : AdjacencyListGraph) (hWF : g.WF)
    (s : Nat) (hs : s < g.num_vertices) :
    List.Perm ((GraphAnalyzer.bfsDistances g s).map Prod.fst)
      ((List.range g.num_vertices).filter
        (fun v => (hopDist g s v).isSome)) := by
  obtain ⟨hnd, hrange, _⟩ := bfsDistances_inv g hWF s hs
  apply (List.perm_ext_iff_of_nodup hnd ((List.nodup_range _).filter _)).mpr
  intro v
  rw [List.mem_filter, List.mem_range]
  constructor
  · intro h
    refine ⟨?_, (bfsDistances_keys_iff g hWF s hs v).mp h⟩
    obtain ⟨p, hp, hpe⟩ := List.mem_map.mp h
    rw [← hpe]
    exact hrange p hp
  · intro ⟨_, h⟩
    exact (bfsDistances_keys_iff g hWF s hs v).mpr h

theorem bfsDistances_length (g : AdjacencyListGraph) (hWF : g.WF)
    (s : Nat) (hs : s < g.num_vertices) :
    (GraphAnalyzer.bfsDistances g s).length =
      ((List.range g.num_vertices).filter
        (fun v => (hopDist g s v).isSome)).length := by
  have h := (bfsDistances_keys_perm g hWF s hs).length_eq
  rw [List.length_map] at h
  exact h

theorem bfsDistances_sum (g : AdjacencyListGraph) (hWF : g.WF)
    (s : Nat) (hs : s < g.num_vertices) :
    ((GraphAnalyzer.bfsDistances g s).map Prod.snd).sum =
      (((List.range g.num_vertices).filter
        (fun v => (hopDist g s v).isSome)).map
          (fun v => (hopDist g s v).getD 0)).sum := by
  obtain ⟨hnd, _⟩ := bfsDistances_inv g hWF s hs
  have hmapeq : (GraphAnalyzer.bfsDistances g s).map Prod.snd =
      ((GraphAnalyzer.bfsDistances g s).map Prod.fst).map
        (fun v => (hopDist g s v).getD 0) := by
    rw [List.map_map]
    apply List.map_congr_left
    intro p hp
    have hlk : assocLookup p.1 (GraphAnalyzer.bfsDistances g s) = some p.2 :=
      (assocLookup_eq_some_iff_mem _ hnd p.1 p.2).mpr hp
    have h2 := (bfsDistances_lookup_iff g hWF s hs p.1 p.2).mp hlk
    show p.2 = (hopDist g s p.1).getD 0
    rw [h2, Option.getD_some]
  rw [hmapeq]
  exact ((bfsDistances_keys_perm g hWF s hs).map
    (fun v => (hopDist g s v).getD 0)).sum_eq

/-- C4: for every well-formed graph and source vertex `s`, the closeness
value of `s` is computed from hop-count BFS distances over successor
edges only: with `reachable` the number of vertices at a finite hop
distance from `s` minus one and `total` the sum of those hop distances,
the score is `(reachable / (n-1)) * (reachable / total)` when
`reachable > 0` and `total > 0`, and `0` otherwise. -/
theorem claim_C4 (g : AdjacencyListGraph) (hWF : g.WF) (s : Nat)
    (hs : s < g.num_vertices) :
    GraphAnalyzer.closenessOf g s =
      (let reach := (List.range g.num_vertices).filter
          (fun v => (hopDist g s v).isSome);
       let reachable : Nat := reach.length - 1;
       let total : Nat := (reach.map (fun v => (hopDist g s v).getD 0)).sum;
       if 0 < total ∧ 0 < reachable then
         ((reachable : ℚ) / ((g.num_vertices : ℚ) - 1)) *
           ((reachable : ℚ) / (total : ℚ))
       else 0) := by
  unfold GraphAnalyzer.closenessOf
  dsimp only
  rw [bfsDistances_sum g hWF s hs, bfsDistances_length g hWF s hs]

theorem claim_C4_witness :
    gLP.WF ∧ 0 < gLP.num_vertices ∧
      GraphAnalyzer.closenessOf gLP 0 =
        (let reach := (List.range gLP.num_vertices).filter
            (fun v => (hopDist gLP 0 v).isSome);
         let reachable : Nat := reach.length - 1;
         let total : Nat :=
           (reach.map (fun v => (hopDist gLP 0 v).getD 0)).sum;
         if 0 < total ∧ 0 < reachable then
           ((reachable : ℚ) / ((gLP.num_vertices : ℚ) - 1)) *
             ((reachable : ℚ) / (total : ℚ))
         else 0) :=
  ⟨by decide, by decide, claim_C4 gLP (by decide) 0 (by decide)⟩

end GraphSpec
